import Mathlib

/-!
The mask engine of banana-watermark: `src/utils/maskUtils.js`

A shallow embedding of `reverseAlphaBlend`, `detectWatermark`, `selectMask`,
`preprocessMask` and `loadMasks`, of `MASK_CONFIGS` (`src/constants.js`) and of
the pixel work of `handleManualRemove` (`src/App.jsx`).

Number model.  A JavaScript number is a `JSNum`: `none` stands for NaN (what
arithmetic on an out-of-range typed-array read gives) and `some q` for a
finite value.  The functions are embedded twice.  In the `IEEE` namespace every
arithmetic operation is rounded to binary64, as the engine does; that embedding
carries the results whose truth is decided by the rounding (a tie of
`Math.round`, a value sitting on a threshold).  Outside it the same operations
are carried out exactly over the rationals; that embedding carries the results
in which the arithmetic plays no part or which hold with a margin that rounding
cannot close.  Overflow to an infinity is in neither.

Buffers.  A `Uint8ClampedArray` is a `List Nat`.  A read past the end gives
`undefined` (NaN once used in arithmetic), a write past the end is dropped,
which is what `List.set` does.
-/

namespace BananaWatermark

/-- JavaScript number: `none` is NaN, `some q` a finite value. -/
abbrev JSNum := Option ℚ

/-- Read `buf[i]` as a number; `undefined` becomes NaN in the arithmetic
that follows. -/
def typedGet (buf : List Nat) (i : Nat) : JSNum :=
  match buf[i]? with
  | some v => some (v : ℚ)
  | none => none

/-- JavaScript `a + b`. -/
def jsAdd : JSNum → JSNum → JSNum
  | some x, some y => some (x + y)
  | _, _ => none

/-- JavaScript `a - b`. -/
def jsSub : JSNum → JSNum → JSNum
  | some x, some y => some (x - y)
  | _, _ => none

/-- JavaScript `a * b`. -/
def jsMul : JSNum → JSNum → JSNum
  | some x, some y => some (x * y)
  | _, _ => none

/-- JavaScript `a / b` (every divisor the code reaches is nonzero or NaN). -/
def jsDiv : JSNum → JSNum → JSNum
  | some x, some y => some (x / y)
  | _, _ => none

/-- JavaScript `a < b`: false as soon as one side is NaN. -/
def jsLt : JSNum → JSNum → Bool
  | some x, some y => decide (x < y)
  | _, _ => false

/-- JavaScript `a > b`: false as soon as one side is NaN. -/
def jsGt (a b : JSNum) : Bool := jsLt b a

/-- JavaScript `Math.min(a, b)`: NaN as soon as one side is NaN. -/
def mathMin : JSNum → JSNum → JSNum
  | some x, some y => some (min x y)
  | _, _ => none

/-- JavaScript `Math.max(a, b)`: NaN as soon as one side is NaN. -/
def mathMax : JSNum → JSNum → JSNum
  | some x, some y => some (max x y)
  | _, _ => none

/-- JavaScript `Math.round`: the nearest integer, halves going up. -/
def mathRound : JSNum → JSNum
  | some x => some ((⌊x + 1 / 2⌋ : ℤ) : ℚ)
  | none => none

/-- Storing a number into a `Uint8ClampedArray` cell: NaN stores 0, anything
else is clamped to 0..255 and rounded to the nearest integer, halves to the
even neighbour. -/
def toUint8Clamped : JSNum → Nat
  | none => 0
  | some x =>
    if x ≤ 0 then 0
    else if 255 ≤ x then 255
    else
      let f : ℤ := ⌊x⌋
      let r : ℚ := x - f
      if r < 1 / 2 then f.toNat
      else if 1 / 2 < r then (f + 1).toNat
      else if f % 2 = 0 then f.toNat else (f + 1).toNat

/-- The fields of a mask object that the engine reads: `imageData.data`,
`width`, `height`, `margin`. -/
structure Mask where
  data : List Nat
  width : Nat
  height : Nat
  margin : Nat

/-- The horizontal anchor `offsetX = imgWidth - maskWidth - margin`. -/
def offsetX (mask : Mask) (imgWidth : Nat) : Int :=
  (imgWidth : Int) - mask.width - mask.margin

/-- The vertical anchor `offsetY = imgHeight - maskHeight - margin`. -/
def offsetY (mask : Mask) (imgHeight : Nat) : Int :=
  (imgHeight : Int) - mask.height - mask.margin

/-- The constant `ALPHA_INTENSITY = 1.0`, the default of `alphaIntensity`. -/
def ALPHA_INTENSITY : JSNum := some 1

/-- The number written to one channel,
`Math.max(0, Math.min(255, Math.round((comp - wm * alpha) / invAlpha)))`. -/
def unblendChannel (comp wm alpha invAlpha : JSNum) : JSNum :=
  mathMax (some 0) (mathMin (some 255)
    (mathRound (jsDiv (jsSub comp (jsMul wm alpha)) invAlpha)))

/-- The blend weight of one mask pixel:
`Math.min((maskPixels[maskIdx + 3] / 255) * alphaIntensity, 0.99)`. -/
def blendAlpha (mask : Mask) (alphaIntensity : JSNum) (maskIdx : Nat) : JSNum :=
  mathMin (jsMul (jsDiv (typedGet mask.data (maskIdx + 3)) (some 255)) alphaIntensity)
    (some (99 / 100))

/-- The body of the inner loop of `reverseAlphaBlend` for mask pixel
`(mx, my)`, acting on the image buffer.  The three counters of the source
only feed the final log line and are left out. -/
def blendPixel (mask : Mask) (imgWidth imgHeight : Nat) (alphaIntensity : JSNum)
    (my mx : Nat) (img : List Nat) : List Nat :=
  let imgX : Int := offsetX mask imgWidth + mx
  let imgY : Int := offsetY mask imgHeight + my
  if imgX < 0 ∨ imgY < 0 ∨ imgX ≥ imgWidth ∨ imgY ≥ imgHeight then img
  else
    let imgIdx : Nat := ((imgY * imgWidth + imgX) * 4).toNat
    let maskIdx : Nat := (my * mask.width + mx) * 4
    let alpha := blendAlpha mask alphaIntensity maskIdx
    if jsLt alpha (some (1 / 100)) then img
    else
      let invAlpha := jsSub (some 1) alpha
      if jsLt invAlpha (some (1 / 100)) then img
      else
        let wmR := typedGet mask.data maskIdx
        let wmG := typedGet mask.data (maskIdx + 1)
        let wmB := typedGet mask.data (maskIdx + 2)
        let compR := typedGet img imgIdx
        let compG := typedGet img (imgIdx + 1)
        let compB := typedGet img (imgIdx + 2)
        ((img.set imgIdx (toUint8Clamped (unblendChannel compR wmR alpha invAlpha))).set
          (imgIdx + 1) (toUint8Clamped (unblendChannel compG wmG alpha invAlpha))).set
          (imgIdx + 2) (toUint8Clamped (unblendChannel compB wmB alpha invAlpha))

/-- One pass of the inner loop `for (mx = 0; mx < maskWidth; mx++)`. -/
def blendRow (mask : Mask) (imgWidth imgHeight : Nat) (alphaIntensity : JSNum)
    (my : Nat) (img : List Nat) : List Nat :=
  (List.range mask.width).foldl
    (fun acc mx => blendPixel mask imgWidth imgHeight alphaIntensity my mx acc) img

/-- The function `reverseAlphaBlend(imageData, mask, imgWidth, imgHeight,
alphaIntensity)`: the contents of `imageData.data` once the call returns. -/
def reverseAlphaBlend (imgData : List Nat) (mask : Mask) (imgWidth imgHeight : Nat)
    (alphaIntensity : JSNum) : List Nat :=
  (List.range mask.height).foldl
    (fun acc my => blendRow mask imgWidth imgHeight alphaIntensity my acc) imgData

/-- The luminance `0.299 * r + 0.587 * g + 0.114 * b`. -/
def luminance (r g b : JSNum) : JSNum :=
  jsAdd (jsAdd (jsMul (some (299 / 1000)) r) (jsMul (some (587 / 1000)) g))
    (jsMul (some (114 / 1000)) b)

/-- The luminance of the image pixel whose first channel sits at `imgIdx`. -/
def pixelLuminance (img : List Nat) (imgIdx : Nat) : JSNum :=
  luminance (typedGet img imgIdx) (typedGet img (imgIdx + 1)) (typedGet img (imgIdx + 2))

/-- The pair `watermarkBrightness`, `watermarkPixelCount`. -/
structure WatermarkAcc where
  brightness : JSNum
  count : JSNum
  deriving DecidableEq

/-- The pair `surroundingBrightness`, `surroundingPixelCount`. -/
structure SurroundingAcc where
  brightness : JSNum
  count : Nat
  deriving DecidableEq

/-- The body of the first inner loop of `detectWatermark` for mask pixel
`(mx, my)`. -/
def watermarkStep (imgData : List Nat) (mask : Mask) (imgWidth imgHeight : Nat)
    (my mx : Nat) (acc : WatermarkAcc) : WatermarkAcc :=
  let imgX : Int := offsetX mask imgWidth + mx
  let imgY : Int := offsetY mask imgHeight + my
  if imgX < 0 ∨ imgY < 0 ∨ imgX ≥ imgWidth ∨ imgY ≥ imgHeight then acc
  else
    let imgIdx : Nat := ((imgY * imgWidth + imgX) * 4).toNat
    let maskIdx : Nat := (my * mask.width + mx) * 4
    let alpha := jsDiv (typedGet mask.data (maskIdx + 3)) (some 255)
    if jsGt alpha (some (1 / 10)) then
      let brightness := pixelLuminance imgData imgIdx
      { brightness := jsAdd acc.brightness (jsMul brightness alpha),
        count := jsAdd acc.count alpha }
    else acc

/-- The first loop nest of `detectWatermark`: the brightness of the image
under the mask, weighted by the mask alpha. -/
def watermarkRegion (imgData : List Nat) (mask : Mask) (imgWidth imgHeight : Nat) :
    WatermarkAcc :=
  (List.range mask.height).foldl
    (fun acc my => (List.range mask.width).foldl
      (fun acc mx => watermarkStep imgData mask imgWidth imgHeight my mx acc) acc)
    { brightness := some 0, count := some 0 }

/-- The values the loop variable of `for (let i = lo; cond(i); i++)` takes,
for a condition that is false from `hi` on. -/
def forIndices (lo hi : Int) (cond : Int → Bool) : List Int :=
  ((List.range (hi - lo).toNat).map (fun (k : Nat) => lo + (k : Int))).takeWhile cond

/-- The body of both reference loops: add the luminance of pixel `(x, y)`
and count it. -/
def surroundingStep (imgData : List Nat) (imgWidth : Nat) (y x : Int)
    (acc : SurroundingAcc) : SurroundingAcc :=
  let imgIdx : Nat := ((y * imgWidth + x) * 4).toNat
  { brightness := jsAdd acc.brightness (pixelLuminance imgData imgIdx),
    count := acc.count + 1 }

/-- The band width `sampleSize = Math.min(maskWidth, maskHeight)`. -/
def sampleSize (mask : Mask) : Int := min (mask.width : Int) (mask.height : Int)

/-- Rows visited by the loop over the band left of the footprint. -/
def leftRows (mask : Mask) (imgHeight : Nat) : List Int :=
  forIndices (offsetY mask imgHeight) (offsetY mask imgHeight + mask.height)
    (fun y => decide (y < offsetY mask imgHeight + mask.height) && decide (y < imgHeight))

/-- Columns visited by the loop over the band left of the footprint. -/
def leftCols (mask : Mask) (imgWidth : Nat) : List Int :=
  forIndices (max 0 (offsetX mask imgWidth - sampleSize mask)) (offsetX mask imgWidth)
    (fun x => decide (x < offsetX mask imgWidth) && decide (x ≥ 0))

/-- Rows visited by the loop over the band above the footprint. -/
def topRows (mask : Mask) (imgHeight : Nat) : List Int :=
  forIndices (max 0 (offsetY mask imgHeight - sampleSize mask)) (offsetY mask imgHeight)
    (fun y => decide (y < offsetY mask imgHeight) && decide (y ≥ 0))

/-- Columns visited by the loop over the band above the footprint. -/
def topCols (mask : Mask) (imgWidth : Nat) : List Int :=
  forIndices (offsetX mask imgWidth) (offsetX mask imgWidth + mask.width)
    (fun x => decide (x < offsetX mask imgWidth + mask.width) && decide (x < imgWidth))

/-- A loop nest over `rows` and `cols` running `surroundingStep`. -/
def surroundingLoop (imgData : List Nat) (imgWidth : Nat) (rows cols : List Int)
    (acc : SurroundingAcc) : SurroundingAcc :=
  rows.foldl (fun acc y => cols.foldl
    (fun acc x => surroundingStep imgData imgWidth y x acc) acc) acc

/-- The two reference loop nests of `detectWatermark`, the left band first
and the top band second, on the same accumulators. -/
def surroundingRegion (imgData : List Nat) (mask : Mask) (imgWidth imgHeight : Nat) :
    SurroundingAcc :=
  surroundingLoop imgData imgWidth (topRows mask imgHeight) (topCols mask imgWidth)
    (surroundingLoop imgData imgWidth (leftRows mask imgHeight) (leftCols mask imgWidth)
      { brightness := some 0, count := 0 })

/-- The value `avgWatermarkBrightness`: the weighted average, 0 when the weight is
not positive. -/
def avgWatermarkBrightness (wm : WatermarkAcc) : JSNum :=
  if jsGt wm.count (some 0) then jsDiv wm.brightness wm.count else some 0

/-- The value `avgSurroundingBrightness`: the plain average, 128 when nothing was
counted. -/
def avgSurroundingBrightness (sr : SurroundingAcc) : JSNum :=
  if sr.count > 0 then jsDiv sr.brightness (some (sr.count : ℚ)) else some 128

/-- The value `brightnessDiff`, computed once both loops are done. -/
def brightnessDiff (imgData : List Nat) (mask : Mask) (imgWidth imgHeight : Nat) : JSNum :=
  jsSub (avgWatermarkBrightness (watermarkRegion imgData mask imgWidth imgHeight))
    (avgSurroundingBrightness (surroundingRegion imgData mask imgWidth imgHeight))

/-- The function `detectWatermark(imageData, mask, imgWidth, imgHeight)`. -/
def detectWatermark (imgData : List Nat) (mask : Mask) (imgWidth imgHeight : Nat) : Bool :=
  if offsetX mask imgWidth < 0 ∨ offsetY mask imgHeight < 0 then false
  else jsGt (brightnessDiff imgData mask imgWidth imgHeight) (some 10)

/-! ## `selectMask`, `preprocessMask` and the manual repair of `App.jsx` -/

/-- A JavaScript `Map` from nominal size to mask object, as the list of its
entries. -/
abbrev MaskMap := List (Nat × Mask)

/-- The call `masks.get(size)`: `none` is `undefined`. -/
def MaskMap.get (masks : MaskMap) (size : Nat) : Option Mask :=
  List.lookup size masks

/-- The variable `selectedSize` of `selectMask`. -/
def selectedSize (width height : Nat) : Nat :=
  if width > 1024 ∧ height > 1024 then 96 else 48

/-- The function `selectMask(width, height, masks)`. -/
def selectMask (width height : Nat) (masks : MaskMap) : Option Mask :=
  masks.get (selectedSize width height)

/-- An `ImageData` object: `data`, `width`, `height`. -/
structure ImageData where
  data : List Nat
  width : Nat
  height : Nat
  deriving DecidableEq

/-- The values the loop variable of `for (let i = 0; i < length; i += 4)`
takes. -/
def loopIndices4 (length : Nat) : List Nat :=
  (List.range ((length + 3) / 4)).map (fun (k : Nat) => k * 4)

/-- The body of the loop of `preprocessMask` at index `i`: the luminance of
the source pixel becomes the alpha of a white output pixel. -/
def preprocessStep (data : List Nat) (i : Nat) (output : List Nat) : List Nat :=
  let r := typedGet data i
  let g := typedGet data (i + 1)
  let b := typedGet data (i + 2)
  let lum := mathRound (luminance r g b)
  (((output.set i (toUint8Clamped (some 255))).set (i + 1) (toUint8Clamped (some 255))).set
    (i + 2) (toUint8Clamped (some 255))).set (i + 3) (toUint8Clamped lum)

/-- The function `preprocessMask(imageData)`; `new ImageData(width, height)`
is a zero-filled buffer of `4 * width * height` cells.  The statistics of the
source only feed the log line and are left out. -/
def preprocessMask (imageData : ImageData) : ImageData :=
  { data := (loopIndices4 imageData.data.length).foldl
      (fun output i => preprocessStep imageData.data i output)
      (List.replicate (4 * imageData.width * imageData.height) 0),
    width := imageData.width,
    height := imageData.height }

/-- The test `r > g + 20 && r > b + 20` of `handleManualRemove` on the pixel
whose first channel sits at index `i`. -/
def isMarked (data : List Nat) (i : Nat) : Bool :=
  jsGt (typedGet data i) (jsAdd (typedGet data (i + 1)) (some 20)) &&
    jsGt (typedGet data i) (jsAdd (typedGet data (i + 2)) (some 20))

/-- The array `maskPixels` of `handleManualRemove`: the indices of the marked
pixels, in increasing order. -/
def markedIndices (data : List Nat) : List Nat :=
  (loopIndices4 data.length).filter (isMarked data)

/-- The body of the `forEach` of `handleManualRemove` for the marked pixel at
`index`; `random` is the outcome of `Math.random() > 0.5` and `dataLength`
is `data.length`. -/
def repairPixel (originalData : List Nat) (dataLength : Nat) (random : Bool) (index : Nat)
    (data : List Nat) : List Nat :=
  let offset : Int := (if random then 20 else -20) * 4
  if (index : Int) + offset ≥ 0 ∧ (index : Int) + offset < dataLength then
    let src : Nat := ((index : Int) + offset).toNat
    ((data.set index (toUint8Clamped (typedGet originalData src))).set
      (index + 1) (toUint8Clamped (typedGet originalData (src + 1)))).set
      (index + 2) (toUint8Clamped (typedGet originalData (src + 2)))
  else data

/-- The `forEach` of `handleManualRemove` over a list of pairs (number of the
call, index of the marked pixel); `random k` is the outcome of the `k`-th
evaluation of `Math.random() > 0.5`. -/
def repairAll (originalData : List Nat) (dataLength : Nat) (random : Nat → Bool)
    (marked : List (Nat × Nat)) (data : List Nat) : List Nat :=
  marked.foldl
    (fun acc e => repairPixel originalData dataLength (random e.1) e.2 acc) data

/-- The pixel work of `handleManualRemove`: the contents of `imageData.data`
when `putImageData` is reached, from the canvas contents `data`, the contents
`originalData` of the untouched image and the random outcomes. -/
def handleManualRemove (data originalData : List Nat) (random : Nat → Bool) : List Nat :=
  repairAll originalData data.length random (markedIndices data).enum data

/-! ## `MASK_CONFIGS` and `loadMasks` -/

/-- An entry of `MASK_CONFIGS`: `size`, `path`, `margin`. -/
structure MaskConfig where
  size : Nat
  path : String
  margin : Nat
  deriving DecidableEq

/-- The constant `MASK_CONFIGS` of `constants.js`. -/
def MASK_CONFIGS : List MaskConfig :=
  [{ size := 96, path := "/assets/mask_96.png", margin := 64 },
   { size := 48, path := "/assets/mask_48.png", margin := 32 }]

/-- The call `masks.set(size, m)`: an existing key keeps its place and gets
the new value, a new key goes to the end. -/
def MaskMap.set : MaskMap → Nat → Mask → MaskMap
  | [], size, m => [(size, m)]
  | (k, v) :: rest, size, m =>
    if k = size then (size, m) :: rest else (k, v) :: MaskMap.set rest size m

/-- The mask object `loadMasks` stores for a decoded bitmap `raw`: the
preprocessed data, the bitmap's own width and height, the configured
margin. -/
def maskAsset (config : MaskConfig) (raw : ImageData) : Mask :=
  { data := (preprocessMask raw).data,
    width := raw.width,
    height := raw.height,
    margin := config.margin }

/-- One pass of the loop of `loadMasks`.  The outcome of the `try` block up
to `getImageData` is `decode config.path`: `none` when it throws (the `catch`
logs and goes on), `some raw` the decoded bitmap otherwise. -/
def loadMasksStep (decode : String → Option ImageData) (masks : MaskMap)
    (config : MaskConfig) : MaskMap :=
  match decode config.path with
  | some raw => masks.set config.size (maskAsset config raw)
  | none => masks

/-- The loop of `loadMasks` over a list of configurations. -/
def loadMasksFrom (decode : String → Option ImageData) (configs : List MaskConfig) : MaskMap :=
  configs.foldl (loadMasksStep decode) []

/-- The function `loadMasks()`, given the outcome of decoding each path. -/
def loadMasks (decode : String → Option ImageData) : MaskMap :=
  loadMasksFrom decode MASK_CONFIGS

/-! ## Auxiliary definitions used to state the results -/

/-- Index of the first channel of image pixel `(x, y)` in a row-major RGBA
buffer of width `imgWidth`. -/
def pixelIndex (imgWidth x y : Nat) : Nat := (y * imgWidth + x) * 4

/-- The mask pixels in the order the loop nests visit them, as pairs
`(my, mx)`. -/
def maskPixels (mask : Mask) : List (Nat × Nat) :=
  List.range mask.height ×ˢ List.range mask.width

/-- What the loop body of `reverseAlphaBlend` stores into a channel holding
`c`, for the mask pixel at `maskIdx` and the channel number `k` (0, 1, 2):
`c` itself on the two skip branches. -/
def unblendValue (mask : Mask) (alphaIntensity : JSNum) (maskIdx k c : Nat) : Nat :=
  let alpha := blendAlpha mask alphaIntensity maskIdx
  if jsLt alpha (some (1 / 100)) then c
  else
    let invAlpha := jsSub (some 1) alpha
    if jsLt invAlpha (some (1 / 100)) then c
    else toUint8Clamped
      (unblendChannel (some (c : ℚ)) (typedGet mask.data (maskIdx + k)) alpha invAlpha)

/-- The bounds test of both loop bodies, negated: mask pixel `(mx, my)`
lands inside the image. -/
def inImage (mask : Mask) (imgWidth imgHeight my mx : Nat) : Prop :=
  ¬ (offsetX mask imgWidth + mx < 0 ∨ offsetY mask imgHeight + my < 0 ∨
      offsetX mask imgWidth + mx ≥ imgWidth ∨ offsetY mask imgHeight + my ≥ imgHeight)

instance (mask : Mask) (imgWidth imgHeight my mx : Nat) :
    Decidable (inImage mask imgWidth imgHeight my mx) := by
  unfold inImage; infer_instance

/-- The value of `imgIdx` for mask pixel `(mx, my)`. -/
def imgIdxOf (mask : Mask) (imgWidth imgHeight my mx : Nat) : Nat :=
  (((offsetY mask imgHeight + my) * imgWidth + (offsetX mask imgWidth + mx)) * 4).toNat

/-- The value of `maskIdx` for mask pixel `(mx, my)`. -/
def maskIdxOf (mask : Mask) (my mx : Nat) : Nat := (my * mask.width + mx) * 4

/-- Buffer index `j` is one of the three colour cells the loop body for mask
pixel `p = (my, mx)` may write. -/
def blendTarget (mask : Mask) (imgWidth imgHeight : Nat) (p : Nat × Nat) (j : Nat) : Prop :=
  inImage mask imgWidth imgHeight p.1 p.2 ∧
    (j = imgIdxOf mask imgWidth imgHeight p.1 p.2 ∨
     j = imgIdxOf mask imgWidth imgHeight p.1 p.2 + 1 ∨
     j = imgIdxOf mask imgWidth imgHeight p.1 p.2 + 2)

/-- The value the per-pixel contract gives for one channel: `c` the channel
before the call, `w` the watermark colour, `α` the blend weight;
`clamp(round((c - w·α) / (1 - α)), 0, 255)`. -/
def unblendFormula (c w : Nat) (α : ℚ) : Nat :=
  (max 0 (min 255 (⌊((c : ℚ) - (w : ℚ) * α) / (1 - α) + 1 / 2⌋ : ℤ))).toNat

/-- Luminance `0.299 R + 0.587 G + 0.114 B` of the pixel whose first channel
sits at buffer index `idx`, as a rational number. -/
def lumAt (img : List Nat) (idx : Nat) : ℚ :=
  299 / 1000 * (img.getD idx 0 : ℚ) + 587 / 1000 * (img.getD (idx + 1) 0 : ℚ)
    + 114 / 1000 * (img.getD (idx + 2) 0 : ℚ)

/-- Mask pixel `p = (my, mx)` has an alpha byte of at least 26. -/
def covered (mask : Mask) (p : Nat × Nat) : Bool :=
  match mask.data[maskIdxOf mask p.1 p.2 + 3]? with
  | some a => decide (26 ≤ a)
  | none => false

/-- The weight `α_p = maskAlpha / 255` of mask pixel `p`. -/
def alphaWeight (mask : Mask) (p : Nat × Nat) : ℚ :=
  match mask.data[maskIdxOf mask p.1 p.2 + 3]? with
  | some a => (a : ℚ) / 255
  | none => 0

/-- The mask pixels with an alpha byte of at least 26, in loop order. -/
def coveredPixels (mask : Mask) : List (Nat × Nat) :=
  (maskPixels mask).filter (covered mask)

/-- Buffer index of the image pixel `(offsetX + mx, offsetY + my)` under mask
pixel `p = (my, mx)`, for non-negative offsets. -/
def footprintIndex (mask : Mask) (imgWidth imgHeight : Nat) (p : Nat × Nat) : Nat :=
  pixelIndex imgWidth ((offsetX mask imgWidth).toNat + p.2)
    ((offsetY mask imgHeight).toNat + p.1)

/-- The sum `Σ α_p · lum(p)` over the covered mask pixels. -/
def weightedLumSum (img : List Nat) (mask : Mask) (imgWidth imgHeight : Nat) : ℚ :=
  ((coveredPixels mask).map
    (fun p => lumAt img (footprintIndex mask imgWidth imgHeight p) * alphaWeight mask p)).sum

/-- The sum `Σ α_p` over the covered mask pixels. -/
def weightSum (mask : Mask) : ℚ :=
  ((coveredPixels mask).map (alphaWeight mask)).sum

/-- The band left of the footprint, as pairs `(y, x)`:
`y ∈ [offsetY, offsetY + maskHeight)`, `x ∈ [max(0, offsetX − s), offsetX)`
with `s = min(maskWidth, maskHeight)`, for non-negative offsets. -/
def leftBand (mask : Mask) (imgWidth imgHeight : Nat) : List (Nat × Nat) :=
  List.range' (offsetY mask imgHeight).toNat mask.height ×ˢ
    List.range' ((offsetX mask imgWidth).toNat - min mask.width mask.height)
      ((offsetX mask imgWidth).toNat
        - ((offsetX mask imgWidth).toNat - min mask.width mask.height))

/-- The band above the footprint, as pairs `(y, x)`:
`y ∈ [max(0, offsetY − s), offsetY)`, `x ∈ [offsetX, offsetX + maskWidth)`. -/
def topBand (mask : Mask) (imgWidth imgHeight : Nat) : List (Nat × Nat) :=
  List.range' ((offsetY mask imgHeight).toNat - min mask.width mask.height)
      ((offsetY mask imgHeight).toNat
        - ((offsetY mask imgHeight).toNat - min mask.width mask.height)) ×ˢ
    List.range' (offsetX mask imgWidth).toNat mask.width

/-- The reference pixels, left band first, as pairs `(y, x)`. -/
def referencePixels (mask : Mask) (imgWidth imgHeight : Nat) : List (Nat × Nat) :=
  leftBand mask imgWidth imgHeight ++ topBand mask imgWidth imgHeight

/-- The sum of the luminances of the reference pixels. -/
def referenceLumSum (img : List Nat) (mask : Mask) (imgWidth imgHeight : Nat) : ℚ :=
  ((referencePixels mask imgWidth imgHeight).map
    (fun q => lumAt img (pixelIndex imgWidth q.2 q.1))).sum

/-- The mask footprint, as pairs `(y, x)` of image coordinates. -/
def footprint (mask : Mask) (imgWidth imgHeight : Nat) : List (Nat × Nat) :=
  List.range' (offsetY mask imgHeight).toNat mask.height ×ˢ
    List.range' (offsetX mask imgWidth).toNat mask.width

/-- The watermark-region average of the decision rule: `(Σ α_p · lum(p)) /
(Σ α_p)` over the covered mask pixels, 0 when there is none. -/
def watermarkAverage (img : List Nat) (mask : Mask) (imgWidth imgHeight : Nat) : ℚ :=
  if coveredPixels mask = [] then 0
  else weightedLumSum img mask imgWidth imgHeight / weightSum mask

/-- The reference average of the decision rule: the mean luminance of the
reference pixels, 128 when there is none. -/
def referenceAverage (img : List Nat) (mask : Mask) (imgWidth imgHeight : Nat) : ℚ :=
  if referencePixels mask imgWidth imgHeight = [] then 128
  else referenceLumSum img mask imgWidth imgHeight
    / ((referencePixels mask imgWidth imgHeight).length : ℚ)

/-- The 8-bit composite of the compositing model for an original channel
`o` under a white watermark of alpha byte `a`: `round(o·(1 − α) + 255·α)` with
`α = a/255`. -/
def compositeByte (o a : Nat) : Nat :=
  (⌊(o : ℚ) * (1 - (a : ℚ) / 255) + 255 * ((a : ℚ) / 255) + 1 / 2⌋ : ℤ).toNat

/-- The alpha byte `preprocessMask` stores for a source pixel of channels
`(r, g, b)`: `Math.round(0.299 * r + 0.587 * g + 0.114 * b)` as stored. -/
def maskAlphaOfRGB (r g b : JSNum) : Nat :=
  toUint8Clamped (mathRound (luminance r g b))

/-- Buffer index `j` is one of the four cells of the pixel starting at `i`. -/
def pixelCell (i j : Nat) : Prop := j = i ∨ j = i + 1 ∨ j = i + 2 ∨ j = i + 3

/-- What `preprocessStep` at index `i` leaves in cell `j` of the output. -/
def preprocessValue (data : List Nat) (i j : Nat) : Nat :=
  if j = i + 3 then
    maskAlphaOfRGB (typedGet data i) (typedGet data (i + 1)) (typedGet data (i + 2))
  else 255

/-- The bounds test `index + offset >= 0 && index + offset < data.length` of
the manual repair. -/
def repairInBounds (dataLength : Nat) (random : Bool) (index : Nat) : Prop :=
  (index : Int) + (if random then 20 else -20) * 4 ≥ 0 ∧
    (index : Int) + (if random then 20 else -20) * 4 < dataLength

/-- The index `index + offset` the manual repair reads the original at. -/
def repairSource (random : Bool) (index : Nat) : Nat :=
  ((index : Int) + (if random then 20 else -20) * 4).toNat

/-- Buffer index `j` is one of the three colour cells that the call number
`e.1`, for the marked pixel at index `e.2`, writes. -/
def repairTarget (dataLength : Nat) (random : Nat → Bool) (e : Nat × Nat) (j : Nat) : Prop :=
  repairInBounds dataLength (random e.1) e.2 ∧ (j = e.2 ∨ j = e.2 + 1 ∨ j = e.2 + 2)

/-- The value that call writes into cell `j`. -/
def repairValue (originalData : List Nat) (random : Nat → Bool) (e : Nat × Nat) (j : Nat) :
    Nat :=
  toUint8Clamped (typedGet originalData (repairSource (random e.1) e.2 + (j - e.2)))

/-- The indices of the mask buffer that the loop body of
`reverseAlphaBlend` reads for mask pixel `(mx, my)`: none when the pixel falls
outside the image, the alpha cell alone on the two skip branches, the alpha
cell and the three colour cells otherwise. -/
def blendMaskReads (mask : Mask) (imgWidth imgHeight : Nat) (alphaIntensity : JSNum)
    (my mx : Nat) : List Nat :=
  let imgX : Int := offsetX mask imgWidth + mx
  let imgY : Int := offsetY mask imgHeight + my
  if imgX < 0 ∨ imgY < 0 ∨ imgX ≥ imgWidth ∨ imgY ≥ imgHeight then []
  else
    let maskIdx : Nat := (my * mask.width + mx) * 4
    let alpha := blendAlpha mask alphaIntensity maskIdx
    if jsLt alpha (some (1 / 100)) then [maskIdx + 3]
    else
      let invAlpha := jsSub (some 1) alpha
      if jsLt invAlpha (some (1 / 100)) then [maskIdx + 3]
      else [maskIdx + 3, maskIdx, maskIdx + 1, maskIdx + 2]

/-- The indices of the image buffer that the loop body of
`reverseAlphaBlend` reads and then writes for mask pixel `(mx, my)`. -/
def blendImageAccesses (mask : Mask) (imgWidth imgHeight : Nat) (alphaIntensity : JSNum)
    (my mx : Nat) : List Nat :=
  let imgX : Int := offsetX mask imgWidth + mx
  let imgY : Int := offsetY mask imgHeight + my
  if imgX < 0 ∨ imgY < 0 ∨ imgX ≥ imgWidth ∨ imgY ≥ imgHeight then []
  else
    let imgIdx : Nat := ((imgY * imgWidth + imgX) * 4).toNat
    let maskIdx : Nat := (my * mask.width + mx) * 4
    let alpha := blendAlpha mask alphaIntensity maskIdx
    if jsLt alpha (some (1 / 100)) then []
    else
      let invAlpha := jsSub (some 1) alpha
      if jsLt invAlpha (some (1 / 100)) then []
      else [imgIdx, imgIdx + 1, imgIdx + 2]

/-- A JavaScript number that is NaN or not negative. -/
def nonnegOrNaN (b : JSNum) : Prop := ∀ q : ℚ, b = some q → 0 ≤ q

/-! ## Binary64 rounding

The value of a JavaScript arithmetic operation on finite numbers is the exact
result rounded to the nearest binary64 number, ties to the even significand.
`toDouble` is that rounding on the rationals, subnormal range included; overflow
to an infinity is not modelled (no operation of the functions below overflows on
byte buffers and a finite intensity). -/

/-- The power `2 ^ e` for an integer exponent. -/
def pow2 (e : ℤ) : ℚ :=
  match e with
  | Int.ofNat n => ((2 ^ n : ℕ) : ℚ)
  | Int.negSucc n => 1 / ((2 ^ (n + 1) : ℕ) : ℚ)

/-- The number of binary digits of `n`, computed with `fuel` halvings at most. -/
def bitLengthAux : Nat → Nat → Nat
  | 0, _ => 0
  | fuel + 1, n => if n = 0 then 0 else bitLengthAux fuel (n / 2) + 1

/-- The number of binary digits of `n`. -/
def bitLength (n : Nat) : Nat := bitLengthAux n n

/-- The binary exponent of a positive rational `x`: the `e` with
`2 ^ e ≤ x < 2 ^ (e + 1)`. -/
def binade (x : ℚ) : ℤ :=
  let a : ℤ := (bitLength x.num.natAbs : ℤ) - (bitLength x.den : ℤ)
  if pow2 a ≤ x then a else a - 1

/-- Rounding to the nearest integer, halves to the even neighbour. -/
def roundHalfEven (m : ℚ) : ℤ :=
  let f : ℤ := ⌊m⌋
  let r : ℚ := m - f
  if r < 1 / 2 then f
  else if 1 / 2 < r then f + 1
  else if f % 2 = 0 then f else f + 1

/-- The spacing of the binary64 numbers around a positive `x`: `2 ^ (e - 52)`
for `x` in the binade `e`, and `2 ^ (-1074)` in the subnormal range. -/
def ulp (x : ℚ) : ℚ := pow2 (max (binade x) (-1022) - 52)

/-- The binary64 number nearest to `q`, ties to the even significand. -/
def toDouble (q : ℚ) : ℚ :=
  if q = 0 then 0
  else if 0 < q then (roundHalfEven (q / ulp q) : ℚ) * ulp q
  else -((roundHalfEven (-q / ulp (-q)) : ℚ) * ulp (-q))

/-! ## The engine in binary64 arithmetic

The same functions with every `+`, `-`, `*`, `/` of the source rounded to the
nearest binary64 number and every decimal literal read as the binary64 number
it denotes.  `Math.min`, `Math.max`, `Math.round` and the comparisons are exact
on binary64 values and are shared with the definitions above. -/

namespace IEEE

/-- JavaScript `a + b` on binary64 numbers. -/
def jsAdd : JSNum → JSNum → JSNum
  | some x, some y => some (toDouble (x + y))
  | _, _ => none

/-- JavaScript `a - b` on binary64 numbers. -/
def jsSub : JSNum → JSNum → JSNum
  | some x, some y => some (toDouble (x - y))
  | _, _ => none

/-- JavaScript `a * b` on binary64 numbers. -/
def jsMul : JSNum → JSNum → JSNum
  | some x, some y => some (toDouble (x * y))
  | _, _ => none

/-- JavaScript `a / b` on binary64 numbers (every divisor the code reaches is
nonzero or NaN). -/
def jsDiv : JSNum → JSNum → JSNum
  | some x, some y => some (toDouble (x / y))
  | _, _ => none

/-- A decimal literal of the source: the binary64 number nearest to it. -/
def literal (q : ℚ) : JSNum := some (toDouble q)

/-- The number written to one channel,
`Math.max(0, Math.min(255, Math.round((comp - wm * alpha) / invAlpha)))`. -/
def unblendChannel (comp wm alpha invAlpha : JSNum) : JSNum :=
  mathMax (some 0) (mathMin (some 255)
    (mathRound (jsDiv (jsSub comp (jsMul wm alpha)) invAlpha)))

/-- The blend weight of one mask pixel:
`Math.min((maskPixels[maskIdx + 3] / 255) * alphaIntensity, 0.99)`. -/
def blendAlpha (mask : Mask) (alphaIntensity : JSNum) (maskIdx : Nat) : JSNum :=
  mathMin (jsMul (jsDiv (typedGet mask.data (maskIdx + 3)) (some 255)) alphaIntensity)
    (literal (99 / 100))

/-- The body of the inner loop of `reverseAlphaBlend` for mask pixel
`(mx, my)`, acting on the image buffer. -/
def blendPixel (mask : Mask) (imgWidth imgHeight : Nat) (alphaIntensity : JSNum)
    (my mx : Nat) (img : List Nat) : List Nat :=
  let imgX : Int := offsetX mask imgWidth + mx
  let imgY : Int := offsetY mask imgHeight + my
  if imgX < 0 ∨ imgY < 0 ∨ imgX ≥ imgWidth ∨ imgY ≥ imgHeight then img
  else
    let imgIdx : Nat := ((imgY * imgWidth + imgX) * 4).toNat
    let maskIdx : Nat := (my * mask.width + mx) * 4
    let alpha := blendAlpha mask alphaIntensity maskIdx
    if jsLt alpha (literal (1 / 100)) then img
    else
      let invAlpha := jsSub (some 1) alpha
      if jsLt invAlpha (literal (1 / 100)) then img
      else
        let wmR := typedGet mask.data maskIdx
        let wmG := typedGet mask.data (maskIdx + 1)
        let wmB := typedGet mask.data (maskIdx + 2)
        let compR := typedGet img imgIdx
        let compG := typedGet img (imgIdx + 1)
        let compB := typedGet img (imgIdx + 2)
        ((img.set imgIdx (toUint8Clamped (unblendChannel compR wmR alpha invAlpha))).set
          (imgIdx + 1) (toUint8Clamped (unblendChannel compG wmG alpha invAlpha))).set
          (imgIdx + 2) (toUint8Clamped (unblendChannel compB wmB alpha invAlpha))

/-- One pass of the inner loop `for (mx = 0; mx < maskWidth; mx++)`. -/
def blendRow (mask : Mask) (imgWidth imgHeight : Nat) (alphaIntensity : JSNum)
    (my : Nat) (img : List Nat) : List Nat :=
  (List.range mask.width).foldl
    (fun acc mx => blendPixel mask imgWidth imgHeight alphaIntensity my mx acc) img

/-- The function `reverseAlphaBlend(imageData, mask, imgWidth, imgHeight,
alphaIntensity)`: the contents of `imageData.data` once the call returns. -/
def reverseAlphaBlend (imgData : List Nat) (mask : Mask) (imgWidth imgHeight : Nat)
    (alphaIntensity : JSNum) : List Nat :=
  (List.range mask.height).foldl
    (fun acc my => blendRow mask imgWidth imgHeight alphaIntensity my acc) imgData

/-- The luminance `0.299 * r + 0.587 * g + 0.114 * b`. -/
def luminance (r g b : JSNum) : JSNum :=
  jsAdd (jsAdd (jsMul (literal (299 / 1000)) r) (jsMul (literal (587 / 1000)) g))
    (jsMul (literal (114 / 1000)) b)

/-- The luminance of the image pixel whose first channel sits at `imgIdx`. -/
def pixelLuminance (img : List Nat) (imgIdx : Nat) : JSNum :=
  luminance (typedGet img imgIdx) (typedGet img (imgIdx + 1)) (typedGet img (imgIdx + 2))

/-- The body of the first inner loop of `detectWatermark` for mask pixel
`(mx, my)`. -/
def watermarkStep (imgData : List Nat) (mask : Mask) (imgWidth imgHeight : Nat)
    (my mx : Nat) (acc : WatermarkAcc) : WatermarkAcc :=
  let imgX : Int := offsetX mask imgWidth + mx
  let imgY : Int := offsetY mask imgHeight + my
  if imgX < 0 ∨ imgY < 0 ∨ imgX ≥ imgWidth ∨ imgY ≥ imgHeight then acc
  else
    let imgIdx : Nat := ((imgY * imgWidth + imgX) * 4).toNat
    let maskIdx : Nat := (my * mask.width + mx) * 4
    let alpha := jsDiv (typedGet mask.data (maskIdx + 3)) (some 255)
    if jsGt alpha (literal (1 / 10)) then
      let brightness := pixelLuminance imgData imgIdx
      { brightness := jsAdd acc.brightness (jsMul brightness alpha),
        count := jsAdd acc.count alpha }
    else acc

/-- The first loop nest of `detectWatermark`: the brightness of the image
under the mask, weighted by the mask alpha. -/
def watermarkRegion (imgData : List Nat) (mask : Mask) (imgWidth imgHeight : Nat) :
    WatermarkAcc :=
  (List.range mask.height).foldl
    (fun acc my => (List.range mask.width).foldl
      (fun acc mx => watermarkStep imgData mask imgWidth imgHeight my mx acc) acc)
    { brightness := some 0, count := some 0 }

/-- The body of both reference loops: add the luminance of pixel `(x, y)`
and count it. -/
def surroundingStep (imgData : List Nat) (imgWidth : Nat) (y x : Int)
    (acc : SurroundingAcc) : SurroundingAcc :=
  let imgIdx : Nat := ((y * imgWidth + x) * 4).toNat
  { brightness := jsAdd acc.brightness (pixelLuminance imgData imgIdx),
    count := acc.count + 1 }

/-- A loop nest over `rows` and `cols` running `surroundingStep`. -/
def surroundingLoop (imgData : List Nat) (imgWidth : Nat) (rows cols : List Int)
    (acc : SurroundingAcc) : SurroundingAcc :=
  rows.foldl (fun acc y => cols.foldl
    (fun acc x => surroundingStep imgData imgWidth y x acc) acc) acc

/-- The two reference loop nests of `detectWatermark`, the left band first
and the top band second, on the same accumulators. -/
def surroundingRegion (imgData : List Nat) (mask : Mask) (imgWidth imgHeight : Nat) :
    SurroundingAcc :=
  surroundingLoop imgData imgWidth (topRows mask imgHeight) (topCols mask imgWidth)
    (surroundingLoop imgData imgWidth (leftRows mask imgHeight) (leftCols mask imgWidth)
      { brightness := some 0, count := 0 })

/-- The value `avgWatermarkBrightness`: the weighted average, 0 when the weight is
not positive. -/
def avgWatermarkBrightness (wm : WatermarkAcc) : JSNum :=
  if jsGt wm.count (some 0) then jsDiv wm.brightness wm.count else some 0

/-- The value `avgSurroundingBrightness`: the plain average, 128 when nothing was
counted. -/
def avgSurroundingBrightness (sr : SurroundingAcc) : JSNum :=
  if sr.count > 0 then jsDiv sr.brightness (some (sr.count : ℚ)) else some 128

/-- The value `brightnessDiff`, computed once both loops are done. -/
def brightnessDiff (imgData : List Nat) (mask : Mask) (imgWidth imgHeight : Nat) : JSNum :=
  jsSub (avgWatermarkBrightness (watermarkRegion imgData mask imgWidth imgHeight))
    (avgSurroundingBrightness (surroundingRegion imgData mask imgWidth imgHeight))

/-- The function `detectWatermark(imageData, mask, imgWidth, imgHeight)`. -/
def detectWatermark (imgData : List Nat) (mask : Mask) (imgWidth imgHeight : Nat) : Bool :=
  if offsetX mask imgWidth < 0 ∨ offsetY mask imgHeight < 0 then false
  else jsGt (brightnessDiff imgData mask imgWidth imgHeight) (some 10)

/-- The body of the loop of `preprocessMask` at index `i`: the luminance of
the source pixel becomes the alpha of a white output pixel. -/
def preprocessStep (data : List Nat) (i : Nat) (output : List Nat) : List Nat :=
  let r := typedGet data i
  let g := typedGet data (i + 1)
  let b := typedGet data (i + 2)
  let lum := mathRound (luminance r g b)
  (((output.set i (toUint8Clamped (some 255))).set (i + 1) (toUint8Clamped (some 255))).set
    (i + 2) (toUint8Clamped (some 255))).set (i + 3) (toUint8Clamped lum)

/-- The function `preprocessMask(imageData)`; `new ImageData(width, height)`
is a zero-filled buffer of `4 * width * height` cells. -/
def preprocessMask (imageData : ImageData) : ImageData :=
  { data := (loopIndices4 imageData.data.length).foldl
      (fun output i => preprocessStep imageData.data i output)
      (List.replicate (4 * imageData.width * imageData.height) 0),
    width := imageData.width,
    height := imageData.height }

end IEEE

namespace IEEE

/-- The blend weight `Math.min((a / 255) * intensity, 0.99)` as the code
computes it for a mask alpha byte `a` and a finite intensity `i`. -/
def blendWeight (a : Nat) (i : ℚ) : ℚ :=
  min (toDouble (toDouble ((a : ℚ) / 255) * i)) (toDouble (99 / 100))

/-- What the loop body of `reverseAlphaBlend` stores into a channel holding
`c`, for the mask pixel at `maskIdx` and the channel number `k` (0, 1, 2):
`c` itself on the two skip branches. -/
def unblendValue (mask : Mask) (alphaIntensity : JSNum) (maskIdx k c : Nat) : Nat :=
  let alpha := blendAlpha mask alphaIntensity maskIdx
  if jsLt alpha (literal (1 / 100)) then c
  else
    let invAlpha := jsSub (some 1) alpha
    if jsLt invAlpha (literal (1 / 100)) then c
    else toUint8Clamped
      (unblendChannel (some (c : ℚ)) (typedGet mask.data (maskIdx + k)) alpha invAlpha)

/-- The value the per-pixel contract gives for one channel when each
operation is rounded to binary64: `c` the channel before the call, `w` the
watermark colour, `α` the blend weight;
`clamp(round((c - w·α) / (1 - α)), 0, 255)`. -/
def unblendFormula (c w : Nat) (α : ℚ) : Nat :=
  (max 0 (min 255
    (⌊toDouble (toDouble ((c : ℚ) - toDouble ((w : ℚ) * α)) / toDouble (1 - α)) + 1 / 2⌋
      : ℤ))).toNat

/-- The value of `0.299 * r + 0.587 * g + 0.114 * b` as the code computes it. -/
def lumOf (r g b : ℚ) : ℚ :=
  toDouble (toDouble (toDouble (toDouble (299 / 1000) * r) + toDouble (toDouble (587 / 1000) * g))
    + toDouble (toDouble (114 / 1000) * b))

/-- The luminance, as the code computes it, of the pixel whose first channel
sits at buffer index `idx`. -/
def lumAt (img : List Nat) (idx : Nat) : ℚ :=
  lumOf (img.getD idx 0 : ℚ) (img.getD (idx + 1) 0 : ℚ) (img.getD (idx + 2) 0 : ℚ)

/-- The weight `α_p = maskAlpha / 255` of mask pixel `p`, as the code
computes it. -/
def alphaWeight (mask : Mask) (p : Nat × Nat) : ℚ :=
  match mask.data[maskIdxOf mask p.1 p.2 + 3]? with
  | some a => toDouble ((a : ℚ) / 255)
  | none => 0

/-- The sum `Σ α_p · lum(p)` over the covered mask pixels, accumulated in loop
order with every product and every addition rounded. -/
def weightedLumSum (img : List Nat) (mask : Mask) (imgWidth imgHeight : Nat) : ℚ :=
  (coveredPixels mask).foldl
    (fun s p => toDouble (s + toDouble (lumAt img (footprintIndex mask imgWidth imgHeight p)
      * alphaWeight mask p))) 0

/-- The sum `Σ α_p` over the covered mask pixels, accumulated in loop order
with every addition rounded. -/
def weightSum (mask : Mask) : ℚ :=
  (coveredPixels mask).foldl (fun s p => toDouble (s + alphaWeight mask p)) 0

/-- The sum of the luminances of the reference pixels, accumulated in loop
order with every addition rounded. -/
def referenceLumSum (img : List Nat) (mask : Mask) (imgWidth imgHeight : Nat) : ℚ :=
  (referencePixels mask imgWidth imgHeight).foldl
    (fun s q => toDouble (s + lumAt img (pixelIndex imgWidth q.2 q.1))) 0

/-- The watermark-region average as the code computes it: the rounded
quotient of the two accumulated sums, 0 when no mask pixel is covered. -/
def watermarkAverage (img : List Nat) (mask : Mask) (imgWidth imgHeight : Nat) : ℚ :=
  if coveredPixels mask = [] then 0
  else toDouble (weightedLumSum img mask imgWidth imgHeight / weightSum mask)

/-- The reference average as the code computes it: the rounded quotient of
the accumulated sum by the number of reference pixels, 128 when there is
none. -/
def referenceAverage (img : List Nat) (mask : Mask) (imgWidth imgHeight : Nat) : ℚ :=
  if referencePixels mask imgWidth imgHeight = [] then 128
  else toDouble (referenceLumSum img mask imgWidth imgHeight
    / ((referencePixels mask imgWidth imgHeight).length : ℚ))

/-- The alpha byte `preprocessMask` stores for a source pixel of channels
`(r, g, b)`: `Math.round(0.299 * r + 0.587 * g + 0.114 * b)` as stored. -/
def maskAlphaOfRGB (r g b : JSNum) : Nat :=
  toUint8Clamped (mathRound (luminance r g b))

/-- What `preprocessStep` at index `i` leaves in cell `j` of the output. -/
def preprocessValue (data : List Nat) (i j : Nat) : Nat :=
  if j = i + 3 then
    maskAlphaOfRGB (typedGet data i) (typedGet data (i + 1)) (typedGet data (i + 2))
  else 255

end IEEE

namespace IEEE

/-- The mask object `loadMasks` stores for a decoded bitmap `raw`: the
preprocessed data, the bitmap's own width and height, the configured
margin. -/
def maskAsset (config : MaskConfig) (raw : ImageData) : Mask :=
  { data := (preprocessMask raw).data,
    width := raw.width,
    height := raw.height,
    margin := config.margin }

end IEEE

/-! ## Evaluation rules of the number model -/

theorem typedGet_of_some (buf : List Nat) (i v : Nat) (h : buf[i]? = some v) :
    typedGet buf i = some (v : ℚ) := by
  unfold typedGet; rw [h]

theorem typedGet_of_none (buf : List Nat) (i : Nat) (h : buf[i]? = none) :
    typedGet buf i = none := by
  unfold typedGet; rw [h]

@[simp] theorem jsAdd_some (x y : ℚ) : jsAdd (some x) (some y) = some (x + y) := rfl

@[simp] theorem jsSub_some (x y : ℚ) : jsSub (some x) (some y) = some (x - y) := rfl

@[simp] theorem jsMul_some (x y : ℚ) : jsMul (some x) (some y) = some (x * y) := rfl

@[simp] theorem jsDiv_some (x y : ℚ) : jsDiv (some x) (some y) = some (x / y) := rfl

@[simp] theorem jsLt_some (x y : ℚ) : jsLt (some x) (some y) = decide (x < y) := rfl

@[simp] theorem jsGt_some (x y : ℚ) : jsGt (some x) (some y) = decide (y < x) := rfl

@[simp] theorem mathMin_some (x y : ℚ) : mathMin (some x) (some y) = some (min x y) := rfl

@[simp] theorem mathMax_some (x y : ℚ) : mathMax (some x) (some y) = some (max x y) := rfl

@[simp] theorem mathRound_some (x : ℚ) :
    mathRound (some x) = some ((⌊x + 1 / 2⌋ : ℤ) : ℚ) := rfl

/-! ## Loops as folds -/

theorem foldl_nested_eq_product {σ α β : Type} (f : α → β → σ → σ) (rows : List α)
    (cols : List β) (init : σ) :
    rows.foldl (fun acc y => cols.foldl (fun acc x => f y x acc) acc) init
      = (rows ×ˢ cols).foldl (fun acc p => f p.1 p.2 acc) init := by
  induction rows generalizing init with
  | nil => rfl
  | cons y ys ih =>
    rw [List.product_cons, List.foldl_append, List.foldl_cons, ih, List.foldl_map]

theorem foldl_untouched {ι : Type} (f : ι → List Nat → List Nat) (l : List ι) (j : Nat)
    (hframe : ∀ i ∈ l, ∀ img : List Nat, (f i img)[j]? = img[j]?) (init : List Nat) :
    (l.foldl (fun acc i => f i acc) init)[j]? = init[j]? := by
  induction l generalizing init with
  | nil => rfl
  | cons x xs ih =>
    rw [List.foldl_cons, ih (fun i hi => hframe i (List.mem_cons_of_mem _ hi)),
      hframe x (List.mem_cons_self _ _)]

theorem foldl_pointwise {ι : Type} (f : ι → List Nat → List Nat) (T : ι → Nat → Prop)
    (g : ι → Nat → Nat → Nat)
    (hframe : ∀ i (img : List Nat) j, ¬ T i j → (f i img)[j]? = img[j]?)
    (htarget : ∀ i (img : List Nat) j, T i j → (f i img)[j]? = (img[j]?).map (g i j))
    (l : List ι) (hnd : l.Nodup)
    (hdisj : ∀ i ∈ l, ∀ i2 ∈ l, i ≠ i2 → ∀ j, T i j → ¬ T i2 j)
    (i0 : ι) (hi0 : i0 ∈ l) (j : Nat) (hj : T i0 j) (init : List Nat) :
    (l.foldl (fun acc i => f i acc) init)[j]? = (init[j]?).map (g i0 j) := by
  induction l generalizing init with
  | nil => simp at hi0
  | cons x xs ih =>
    rw [List.foldl_cons]
    have hnd2 := List.nodup_cons.mp hnd
    by_cases hx : x = i0
    · subst hx
      rw [foldl_untouched f xs j _ (f x init), htarget x init j hj]
      intro i hi img
      apply hframe
      apply hdisj x (List.mem_cons_self _ _) i (List.mem_cons_of_mem _ hi) _ j hj
      rintro rfl
      exact hnd2.1 hi
    · have hmem : i0 ∈ xs := by
        rcases List.mem_cons.mp hi0 with h | h
        · exact absurd h.symm hx
        · exact h
      rw [ih hnd2.2 (fun i hi i2 hi2 => hdisj i (List.mem_cons_of_mem _ hi) i2
        (List.mem_cons_of_mem _ hi2)) hmem (f x init)]
      rw [hframe x init j]
      exact hdisj i0 hi0 x (List.mem_cons_self _ _) (Ne.symm hx) j hj

theorem foldl_length {ι : Type} (f : ι → List Nat → List Nat) (l : List ι)
    (hlen : ∀ i (img : List Nat), (f i img).length = img.length) (init : List Nat) :
    (l.foldl (fun acc i => f i acc) init).length = init.length := by
  induction l generalizing init with
  | nil => rfl
  | cons x xs ih => rw [List.foldl_cons, ih, hlen]

/-! ## One step of `reverseAlphaBlend` -/

theorem blendPixel_length (mask : Mask) (imgWidth imgHeight : Nat) (alphaIntensity : JSNum)
    (my mx : Nat) (img : List Nat) :
    (blendPixel mask imgWidth imgHeight alphaIntensity my mx img).length = img.length := by
  unfold blendPixel
  simp only []
  split_ifs <;> simp

theorem blendPixel_frame (mask : Mask) (imgWidth imgHeight : Nat) (alphaIntensity : JSNum)
    (p : Nat × Nat) (img : List Nat) (j : Nat)
    (hj : ¬ blendTarget mask imgWidth imgHeight p j) :
    (blendPixel mask imgWidth imgHeight alphaIntensity p.1 p.2 img)[j]? = img[j]? := by
  unfold blendPixel
  simp only []
  split_ifs with h1 h2 h3
  · rfl
  · rfl
  · rfl
  · have hin : inImage mask imgWidth imgHeight p.1 p.2 := h1
    simp only [blendTarget, hin, true_and, imgIdxOf, not_or] at hj
    obtain ⟨ha, hb, hc⟩ := hj
    rw [List.getElem?_set_ne (Ne.symm hc), List.getElem?_set_ne (Ne.symm hb),
      List.getElem?_set_ne (Ne.symm ha)]

theorem blendPixel_target (mask : Mask) (imgWidth imgHeight : Nat) (alphaIntensity : JSNum)
    (my mx : Nat) (img : List Nat) (k : Nat) (hk : k < 3)
    (hin : inImage mask imgWidth imgHeight my mx) :
    (blendPixel mask imgWidth imgHeight alphaIntensity my mx img)[
        imgIdxOf mask imgWidth imgHeight my mx + k]?
      = (img[imgIdxOf mask imgWidth imgHeight my mx + k]?).map
          (unblendValue mask alphaIntensity (maskIdxOf mask my mx) k) := by
  have hin2 := hin
  unfold inImage at hin2
  unfold blendPixel unblendValue
  simp only [if_neg hin2, maskIdxOf, imgIdxOf]
  split_ifs with h2 h3
  · simp
  · simp
  · generalize (((offsetY mask imgHeight + (my : Int)) * (imgWidth : Int)
        + (offsetX mask imgWidth + (mx : Int))) * 4).toNat = idx
    have h3cases : k = 0 ∨ k = 1 ∨ k = 2 := by omega
    rcases h3cases with rfl | rfl | rfl
    · rw [List.getElem?_set_ne (by omega), List.getElem?_set_ne (by omega)]
      simp only [Nat.add_zero]
      rw [List.getElem?_set_self']
      cases h : img[idx]? <;> simp [typedGet, h]
    · rw [List.getElem?_set_ne (by omega), List.getElem?_set_self']
      cases h : img[idx + 1]? <;> simp [typedGet, h]
    · rw [List.getElem?_set_self']
      cases h : img[idx + 2]? <;> simp [typedGet, h]

/-! ## Geometry of the footprint -/

theorem rowMajor_inj (W X Y X2 Y2 : Int) (hX : 0 ≤ X) (hXW : X < W) (hX2 : 0 ≤ X2)
    (hX2W : X2 < W) (h : Y * W + X = Y2 * W + X2) : Y = Y2 ∧ X = X2 := by
  have hY : Y = Y2 := by
    rcases lt_trichotomy Y Y2 with hlt | heq | hgt
    · exfalso
      have h1 : (Y + 1) * W ≤ Y2 * W :=
        mul_le_mul_of_nonneg_right (by omega) (by omega)
      nlinarith
    · exact heq
    · exfalso
      have h1 : (Y2 + 1) * W ≤ Y * W :=
        mul_le_mul_of_nonneg_right (by omega) (by omega)
      nlinarith
  subst hY
  exact ⟨rfl, by linarith⟩

theorem cell_inj (W X Y X2 Y2 : Int) (k k2 : Nat) (hX : 0 ≤ X) (hXW : X < W) (hY : 0 ≤ Y)
    (hX2 : 0 ≤ X2) (hX2W : X2 < W) (hY2 : 0 ≤ Y2) (hk : k < 4) (hk2 : k2 < 4)
    (h : ((Y * W + X) * 4).toNat + k = ((Y2 * W + X2) * 4).toNat + k2) :
    Y = Y2 ∧ X = X2 ∧ k = k2 := by
  have hW : 0 ≤ W := by omega
  have hA : 0 ≤ Y * W := mul_nonneg hY hW
  have hA2 : 0 ≤ Y2 * W := mul_nonneg hY2 hW
  have hsum : Y * W + X = Y2 * W + X2 ∧ k = k2 := by omega
  obtain ⟨h1, h2⟩ := rowMajor_inj W X Y X2 Y2 hX hXW hX2 hX2W hsum.1
  exact ⟨h1, h2, hsum.2⟩

theorem blendTarget_disjoint (mask : Mask) (imgWidth imgHeight : Nat) (p q : Nat × Nat)
    (hpq : p ≠ q) (j : Nat) (hp : blendTarget mask imgWidth imgHeight p j) :
    ¬ blendTarget mask imgWidth imgHeight q j := by
  intro hq
  obtain ⟨hinp, hjp⟩ := hp
  obtain ⟨hinq, hjq⟩ := hq
  unfold inImage at hinp hinq
  unfold imgIdxOf at hjp hjq
  have hkp : ∃ k, k < 4 ∧ j = (((offsetY mask imgHeight + (p.1 : Int)) * (imgWidth : Int)
      + (offsetX mask imgWidth + (p.2 : Int))) * 4).toNat + k := by
    rcases hjp with h | h | h
    · exact ⟨0, by omega, by omega⟩
    · exact ⟨1, by omega, h⟩
    · exact ⟨2, by omega, h⟩
  have hkq : ∃ k, k < 4 ∧ j = (((offsetY mask imgHeight + (q.1 : Int)) * (imgWidth : Int)
      + (offsetX mask imgWidth + (q.2 : Int))) * 4).toNat + k := by
    rcases hjq with h | h | h
    · exact ⟨0, by omega, by omega⟩
    · exact ⟨1, by omega, h⟩
    · exact ⟨2, by omega, h⟩
  obtain ⟨k, hk, hjk⟩ := hkp
  obtain ⟨k2, hk2, hjk2⟩ := hkq
  have := cell_inj imgWidth _ _ _ _ k k2 (by omega) (by omega) (by omega) (by omega)
    (by omega) (by omega) hk hk2 (hjk ▸ hjk2)
  apply hpq
  obtain ⟨h1, h2, _⟩ := this
  exact Prod.ext (by omega) (by omega)

theorem blendTarget_of_pixel (mask : Mask) (imgWidth imgHeight : Nat) (p : Nat × Nat)
    (x y k : Nat) (hx : x < imgWidth) (hk : k < 4)
    (h : blendTarget mask imgWidth imgHeight p (pixelIndex imgWidth x y + k)) :
    (x : Int) = offsetX mask imgWidth + p.2 ∧ (y : Int) = offsetY mask imgHeight + p.1
      ∧ k < 3 := by
  obtain ⟨hin, hj⟩ := h
  unfold inImage at hin
  unfold imgIdxOf at hj
  unfold pixelIndex at hj
  have hcast : (y * imgWidth + x) * 4 = ((((y : Int) * (imgWidth : Int) + (x : Int)) * 4)).toNat := by
    have : (((y : Int) * (imgWidth : Int) + (x : Int)) * 4) = (((y * imgWidth + x) * 4 : Nat) : Int) := by
      push_cast; ring
    rw [this, Int.toNat_ofNat]
  rw [hcast] at hj
  have hkq : ∃ k2, k2 < 3 ∧ (((y : Int) * (imgWidth : Int) + (x : Int)) * 4).toNat + k
      = (((offsetY mask imgHeight + (p.1 : Int)) * (imgWidth : Int)
      + (offsetX mask imgWidth + (p.2 : Int))) * 4).toNat + k2 := by
    rcases hj with h | h | h
    · exact ⟨0, by omega, by omega⟩
    · exact ⟨1, by omega, h⟩
    · exact ⟨2, by omega, h⟩
  obtain ⟨k2, hk2, hjk⟩ := hkq
  obtain ⟨h1, h2, h3⟩ := cell_inj imgWidth _ _ _ _ k k2 (by omega) (by omega) (by omega)
    (by omega) (by omega) (by omega) hk (by omega) hjk
  exact ⟨h2, h1, by omega⟩

/-! ## The whole of `reverseAlphaBlend` -/

theorem reverseAlphaBlend_eq_foldl (imgData : List Nat) (mask : Mask) (imgWidth imgHeight : Nat)
    (alphaIntensity : JSNum) :
    reverseAlphaBlend imgData mask imgWidth imgHeight alphaIntensity
      = (maskPixels mask).foldl
          (fun acc p => blendPixel mask imgWidth imgHeight alphaIntensity p.1 p.2 acc)
          imgData := by
  unfold reverseAlphaBlend blendRow maskPixels
  exact foldl_nested_eq_product
    (fun my mx acc => blendPixel mask imgWidth imgHeight alphaIntensity my mx acc) _ _ _

theorem reverseAlphaBlend_untouched (imgData : List Nat) (mask : Mask)
    (imgWidth imgHeight : Nat) (alphaIntensity : JSNum) (j : Nat)
    (hj : ∀ p ∈ maskPixels mask, ¬ blendTarget mask imgWidth imgHeight p j) :
    (reverseAlphaBlend imgData mask imgWidth imgHeight alphaIntensity)[j]? = imgData[j]? := by
  rw [reverseAlphaBlend_eq_foldl]
  have h1 : ∀ p ∈ maskPixels mask, ∀ img : List Nat,
      ((fun (p : Nat × Nat) (acc : List Nat) =>
        blendPixel mask imgWidth imgHeight alphaIntensity p.1 p.2 acc) p img)[j]? = img[j]? := by
    intro p hp img
    exact blendPixel_frame mask imgWidth imgHeight alphaIntensity p img j (hj p hp)
  exact foldl_untouched _ (maskPixels mask) j h1 imgData

theorem mem_maskPixels (mask : Mask) (p : Nat × Nat) :
    p ∈ maskPixels mask ↔ p.1 < mask.height ∧ p.2 < mask.width := by
  unfold maskPixels
  rw [List.mem_product, List.mem_range, List.mem_range]

theorem nodup_maskPixels (mask : Mask) : (maskPixels mask).Nodup :=
  List.Nodup.product (List.nodup_range _) (List.nodup_range _)

theorem reverseAlphaBlend_at (imgData : List Nat) (mask : Mask)
    (imgWidth imgHeight : Nat) (alphaIntensity : JSNum) (my mx k : Nat)
    (hmy : my < mask.height) (hmx : mx < mask.width) (hk : k < 3)
    (hin : inImage mask imgWidth imgHeight my mx) :
    (reverseAlphaBlend imgData mask imgWidth imgHeight alphaIntensity)[
        imgIdxOf mask imgWidth imgHeight my mx + k]?
      = (imgData[imgIdxOf mask imgWidth imgHeight my mx + k]?).map
          (unblendValue mask alphaIntensity (maskIdxOf mask my mx) k) := by
  rw [reverseAlphaBlend_eq_foldl]
  have key := foldl_pointwise
    (fun p acc => blendPixel mask imgWidth imgHeight alphaIntensity p.1 p.2 acc)
    (blendTarget mask imgWidth imgHeight)
    (fun p j c => unblendValue mask alphaIntensity (maskIdxOf mask p.1 p.2)
      (j - imgIdxOf mask imgWidth imgHeight p.1 p.2) c)
    (fun p img j h => blendPixel_frame mask imgWidth imgHeight alphaIntensity p img j h)
    (by
      intro p img j h
      obtain ⟨hin2, hj2⟩ := h
      rcases hj2 with h0 | h1 | h2
      · subst h0
        have := blendPixel_target mask imgWidth imgHeight alphaIntensity p.1 p.2 img 0
          (by omega) hin2
        simpa using this
      · subst h1
        have := blendPixel_target mask imgWidth imgHeight alphaIntensity p.1 p.2 img 1
          (by omega) hin2
        simpa using this
      · subst h2
        have := blendPixel_target mask imgWidth imgHeight alphaIntensity p.1 p.2 img 2
          (by omega) hin2
        simpa using this)
    (maskPixels mask) (nodup_maskPixels mask)
    (fun p _ q _ hpq j hp => blendTarget_disjoint mask imgWidth imgHeight p q hpq j hp)
    (my, mx) ((mem_maskPixels mask _).mpr ⟨hmy, hmx⟩)
    (imgIdxOf mask imgWidth imgHeight my mx + k)
    ⟨hin, by
      have h3cases : k = 0 ∨ k = 1 ∨ k = 2 := by omega
      rcases h3cases with rfl | rfl | rfl
      · exact Or.inl rfl
      · exact Or.inr (Or.inl rfl)
      · exact Or.inr (Or.inr rfl)⟩
    imgData
  simpa using key

theorem imgIdxOf_eq_pixelIndex (mask : Mask) (imgWidth imgHeight my mx x y : Nat)
    (hx : (x : Int) = offsetX mask imgWidth + mx) (hy : (y : Int) = offsetY mask imgHeight + my) :
    imgIdxOf mask imgWidth imgHeight my mx = pixelIndex imgWidth x y := by
  unfold imgIdxOf pixelIndex
  rw [← hx, ← hy]
  have : (((y : Int) * (imgWidth : Int) + (x : Int)) * 4)
      = (((y * imgWidth + x) * 4 : Nat) : Int) := by
    push_cast; ring
  rw [this, Int.toNat_ofNat]

theorem inImage_of_coords (mask : Mask) (imgWidth imgHeight my mx x y : Nat)
    (hx : (x : Int) = offsetX mask imgWidth + mx) (hy : (y : Int) = offsetY mask imgHeight + my)
    (hxW : x < imgWidth) (hyH : y < imgHeight) : inImage mask imgWidth imgHeight my mx := by
  unfold inImage
  omega

theorem toUint8Clamped_intCast (n : ℤ) (h0 : 0 ≤ n) (h1 : n ≤ 255) :
    toUint8Clamped (some (n : ℚ)) = n.toNat := by
  unfold toUint8Clamped
  simp only []
  split_ifs with ha hb hc hd he
  · have : n ≤ 0 := by exact_mod_cast ha
    omega
  · have : (255 : ℤ) ≤ n := by exact_mod_cast hb
    omega
  · rw [Int.floor_intCast]
  · exfalso
    rw [Int.floor_intCast] at hd
    simp at hd
    linarith
  · rw [Int.floor_intCast]
  · exfalso
    rw [Int.floor_intCast] at hc
    simp at hc

theorem unblendValue_skip (mask : Mask) (i : ℚ) (maskIdx k c a : Nat)
    (ha : mask.data[maskIdx + 3]? = some a) (hlow : (a : ℚ) / 255 * i < 1 / 100) :
    unblendValue mask (some i) maskIdx k c = c := by
  unfold unblendValue blendAlpha
  rw [typedGet_of_some _ _ _ ha]
  simp only [jsDiv_some, jsMul_some, mathMin_some, jsLt_some]
  rw [if_pos]
  simp only [decide_eq_true_eq]
  exact lt_of_le_of_lt (min_le_left _ _) hlow

theorem unblendValue_formula (mask : Mask) (i : ℚ) (maskIdx k c a w : Nat)
    (ha : mask.data[maskIdx + 3]? = some a) (hw : mask.data[maskIdx + k]? = some w)
    (hα : 1 / 100 ≤ min ((a : ℚ) / 255 * i) (99 / 100)) :
    unblendValue mask (some i) maskIdx k c
      = unblendFormula c w (min ((a : ℚ) / 255 * i) (99 / 100)) := by
  unfold unblendValue blendAlpha unblendFormula unblendChannel
  rw [typedGet_of_some _ _ _ ha, typedGet_of_some _ _ _ hw]
  simp only [jsDiv_some, jsMul_some, mathMin_some, jsLt_some, jsSub_some, mathRound_some,
    mathMax_some]
  have h99 : min ((a : ℚ) / 255 * i) (99 / 100) ≤ 99 / 100 := min_le_right _ _
  rw [if_neg (by simp only [decide_eq_true_eq, not_lt]; exact hα),
    if_neg (by simp only [decide_eq_true_eq, not_lt]; linarith)]
  have hcast : ∀ z : ℤ, max (0 : ℚ) (min 255 (z : ℚ)) = ((max 0 (min 255 z) : ℤ) : ℚ) := by
    intro z; push_cast; rfl
  rw [hcast, toUint8Clamped_intCast _ (le_max_left _ _)
    (max_le (by norm_num) (min_le_left _ _))]

/-! ## Arithmetic of compositing followed by unblending -/

theorem compositeByte_bounds (o a : Nat) (ha : a ≤ 255) :
    510 * (compositeByte o a : ℤ) ≤ 2 * o * (255 - a) + 510 * a + 255 ∧
    2 * (o : ℤ) * (255 - a) + 510 * a + 255 < 510 * (compositeByte o a : ℤ) + 510 := by
  unfold compositeByte
  set x : ℚ := (o : ℚ) * (1 - (a : ℚ) / 255) + 255 * ((a : ℚ) / 255) + 1 / 2 with hx
  have haq : (a : ℚ) ≤ 255 := by exact_mod_cast ha
  have hoq : (0 : ℚ) ≤ o := by positivity
  have haq0 : (0 : ℚ) ≤ a := by positivity
  have hxpos : 0 ≤ x := by
    have : 0 ≤ (1 - (a : ℚ) / 255) := by linarith
    positivity
  have hfl : 0 ≤ ⌊x⌋ := Int.floor_nonneg.mpr hxpos
  rw [Int.toNat_of_nonneg hfl]
  have h1 : (⌊x⌋ : ℚ) ≤ x := Int.floor_le x
  have h2 : x < ⌊x⌋ + 1 := Int.lt_floor_add_one x
  have hx510 : 510 * x = 2 * o * (255 - a) + 510 * a + 255 := by
    rw [hx]; ring
  constructor
  · have : (510 * (⌊x⌋ : ℚ)) ≤ 2 * o * (255 - a) + 510 * a + 255 := by linarith
    exact_mod_cast this
  · have : (2 * (o : ℚ) * (255 - a) + 510 * a + 255) < 510 * (⌊x⌋ : ℚ) + 510 := by linarith
    exact_mod_cast this

theorem unblend_floor_bounds (c a : Nat) (ha : a < 255) :
    2 * (255 - (a : ℤ)) * ⌊((c : ℚ) - (255 : ℕ) * ((a : ℚ) / 255)) / (1 - (a : ℚ) / 255) + 1 / 2⌋
      ≤ 510 * ((c : ℤ) - a) + (255 - a) ∧
    510 * ((c : ℤ) - a) + (255 - a) <
      2 * (255 - (a : ℤ)) * ⌊((c : ℚ) - (255 : ℕ) * ((a : ℚ) / 255)) / (1 - (a : ℚ) / 255) + 1 / 2⌋
        + 2 * (255 - (a : ℤ)) := by
  set y : ℚ := ((c : ℚ) - (255 : ℕ) * ((a : ℚ) / 255)) / (1 - (a : ℚ) / 255) + 1 / 2 with hy
  have haq : (a : ℚ) < 255 := by exact_mod_cast ha
  have hD : (0 : ℚ) < 255 - a := by linarith
  have h1 : (⌊y⌋ : ℚ) ≤ y := Int.floor_le y
  have h2 : y < ⌊y⌋ + 1 := Int.lt_floor_add_one y
  have hy2 : 2 * (255 - (a : ℚ)) * y = 510 * ((c : ℚ) - a) + (255 - a) := by
    rw [hy]
    have : (1 - (a : ℚ) / 255) ≠ 0 := by
      have : (1 - (a : ℚ) / 255) = (255 - a) / 255 := by ring
      rw [this]; positivity
    field_simp
    ring
  constructor
  · have : 2 * (255 - (a : ℚ)) * (⌊y⌋ : ℚ) ≤ 510 * ((c : ℚ) - a) + (255 - a) := by
      rw [← hy2]
      exact mul_le_mul_of_nonneg_left h1 (by linarith)
    exact_mod_cast this
  · have : 510 * ((c : ℚ) - a) + (255 - a) < 2 * (255 - (a : ℚ)) * (⌊y⌋ : ℚ) + 2 * (255 - (a : ℚ)) := by
      rw [← hy2]
      have := mul_lt_mul_of_pos_left h2 (show (0 : ℚ) < 2 * (255 - (a : ℚ)) by linarith)
      linarith
    exact_mod_cast this

theorem roundTrip_arith (o a c g : ℤ) (ha : 3 ≤ a) (ha170 : a ≤ 170)
    (h1 : 510 * c ≤ 2 * o * (255 - a) + 510 * a + 255)
    (h2 : 2 * o * (255 - a) + 510 * a + 255 < 510 * c + 510)
    (h3 : 2 * (255 - a) * g ≤ 510 * (c - a) + (255 - a))
    (h4 : 510 * (c - a) + (255 - a) < 2 * (255 - a) * g + 2 * (255 - a)) :
    o - 1 ≤ g ∧ g ≤ o + 1 := by
  have hD : 85 ≤ 255 - a := by omega
  constructor
  · by_contra hcon
    have hg : g + 2 ≤ o := by omega
    have := mul_le_mul_of_nonneg_left hg (show (0 : ℤ) ≤ 2 * (255 - a) by omega)
    nlinarith
  · by_contra hcon
    have hg : o + 2 ≤ g := by omega
    have hm := mul_le_mul_of_nonneg_left hg (show (0 : ℤ) ≤ 2 * (255 - a) by omega)
    have ha' : a = 170 := by nlinarith
    subst ha'
    omega

/-! ## Results on `reverseAlphaBlend` -/

/-- C2: `reverseAlphaBlend` never writes outside the mask footprint: a pixel
`(x, y)` that is not in `[offsetX, offsetX+maskWidth) × [offsetY,
offsetY+maskHeight)` has each of its four channels identical before and after
the call. -/
theorem reverseAlphaBlend_outside_footprint (imgData : List Nat) (mask : Mask)
    (imgWidth imgHeight : Nat) (alphaIntensity : JSNum) (x y k : Nat)
    (hxW : x < imgWidth) (hk : k < 4)
    (hout : ¬ (offsetX mask imgWidth ≤ x ∧ (x : Int) < offsetX mask imgWidth + mask.width ∧
      offsetY mask imgHeight ≤ y ∧ (y : Int) < offsetY mask imgHeight + mask.height)) :
    (reverseAlphaBlend imgData mask imgWidth imgHeight alphaIntensity)[
        pixelIndex imgWidth x y + k]?
      = imgData[pixelIndex imgWidth x y + k]? := by
  apply reverseAlphaBlend_untouched
  intro p hp ht
  obtain ⟨h1, h2, _⟩ := blendTarget_of_pixel mask imgWidth imgHeight p x y k hxW hk ht
  rw [mem_maskPixels] at hp
  apply hout
  omega

theorem reverseAlphaBlend_outside_footprint_witness :
    ¬ (offsetX ⟨[255, 255, 255, 255], 1, 1, 0⟩ 2 ≤ (0 : Nat) ∧
      ((0 : Nat) : Int) < offsetX ⟨[255, 255, 255, 255], 1, 1, 0⟩ 2 + (1 : Nat) ∧
      offsetY ⟨[255, 255, 255, 255], 1, 1, 0⟩ 2 ≤ (0 : Nat) ∧
      ((0 : Nat) : Int) < offsetY ⟨[255, 255, 255, 255], 1, 1, 0⟩ 2 + (1 : Nat)) ∧
    (reverseAlphaBlend [9, 9, 9, 255, 9, 9, 9, 255, 9, 9, 9, 255, 9, 9, 9, 255]
        ⟨[255, 255, 255, 255], 1, 1, 0⟩ 2 2 (some 1))[pixelIndex 2 0 0 + 0]?
      = [9, 9, 9, 255, 9, 9, 9, 255, 9, 9, 9, 255, 9, 9, 9, 255][pixelIndex 2 0 0 + 0]? :=
  ⟨by decide, reverseAlphaBlend_outside_footprint
    [9, 9, 9, 255, 9, 9, 9, 255, 9, 9, 9, 255, 9, 9, 9, 255]
    ⟨[255, 255, 255, 255], 1, 1, 0⟩ 2 2 (some 1) 0 0 0 (by decide) (by decide) (by decide)⟩

/-- C3, as stated, fails at high coverage: with mask alpha byte 252
(`α = 252/255 ≤ 0.99`) and original colour 100 the composite is 253 and the
call writes 85, fifteen away from 100. -/
theorem roundTrip_fails_at_alpha_252 :
    (252 : ℚ) / 255 ≤ 99 / 100 ∧ compositeByte 100 252 = 253 ∧
    reverseAlphaBlend
        [compositeByte 100 252, compositeByte 100 252, compositeByte 100 252, 255]
        ⟨[255, 255, 255, 252], 1, 1, 0⟩ 1 1 ALPHA_INTENSITY = [85, 85, 85, 255] ∧
    ¬ (((85 : Nat) : ℤ) - 100 ≤ 1 ∧ (100 : ℤ) - ((85 : Nat) : ℤ) ≤ 1) := by
  decide!

/-- C3, amended: for an original channel `o` in 0..255 and a mask alpha byte
`a ≤ 170` other than 2, if the channel of a footprint pixel holds the 8-bit
composite `round(o·(1 − α) + 255·α)`, `α = a/255`, under a white mask pixel,
then after `reverseAlphaBlend` at intensity 1.0 it holds a value at most 1
away from `o`. -/
theorem reverseAlphaBlend_roundTrip (imgData : List Nat) (mask : Mask)
    (imgWidth imgHeight : Nat) (my mx x y k a o : Nat)
    (hmy : my < mask.height) (hmx : mx < mask.width)
    (hx : (x : Int) = offsetX mask imgWidth + mx)
    (hy : (y : Int) = offsetY mask imgHeight + my)
    (hxW : x < imgWidth) (hyH : y < imgHeight) (hk : k < 3)
    (ha : mask.data[maskIdxOf mask my mx + 3]? = some a)
    (hw : mask.data[maskIdxOf mask my mx + k]? = some 255)
    (hc : imgData[pixelIndex imgWidth x y + k]? = some (compositeByte o a))
    (ho : o ≤ 255) (ha170 : a ≤ 170) (ha2 : a ≠ 2) :
    ∃ v : Nat,
      (reverseAlphaBlend imgData mask imgWidth imgHeight ALPHA_INTENSITY)[
          pixelIndex imgWidth x y + k]? = some v ∧
      (v : ℤ) - o ≤ 1 ∧ (o : ℤ) - v ≤ 1 := by
  have hin := inImage_of_coords mask imgWidth imgHeight my mx x y hx hy hxW hyH
  have hidx := imgIdxOf_eq_pixelIndex mask imgWidth imgHeight my mx x y hx hy
  have h := reverseAlphaBlend_at imgData mask imgWidth imgHeight ALPHA_INTENSITY my mx k
    hmy hmx hk hin
  rw [hidx, hc, Option.map_some'] at h
  have hcb := compositeByte_bounds o a (by omega)
  by_cases hlow : a ≤ 1
  · have hq : (a : ℚ) / 255 * 1 < 1 / 100 := by
      have : (a : ℚ) ≤ 1 := by exact_mod_cast hlow
      linarith
    have hs := unblendValue_skip mask 1 (maskIdxOf mask my mx) k (compositeByte o a) a ha hq
    refine ⟨compositeByte o a, ?_, ?_⟩
    · rw [h]; unfold ALPHA_INTENSITY; rw [hs]
    · have h01 : a = 0 ∨ a = 1 := by omega
      rcases h01 with rfl | rfl
      · simp only [Nat.cast_zero] at hcb; omega
      · simp only [Nat.cast_one] at hcb; omega
  · have h3 : 3 ≤ a := by omega
    have haq3 : (3 : ℚ) ≤ a := by exact_mod_cast h3
    have haq170 : (a : ℚ) ≤ 170 := by exact_mod_cast ha170
    have hmin : min ((a : ℚ) / 255 * 1) (99 / 100) = (a : ℚ) / 255 := by
      rw [mul_one]
      exact min_eq_left (by linarith)
    have hα : (1 : ℚ) / 100 ≤ min ((a : ℚ) / 255 * 1) (99 / 100) := by
      rw [hmin]; linarith
    have hf := unblendValue_formula mask 1 (maskIdxOf mask my mx) k (compositeByte o a) a 255
      ha hw hα
    rw [hmin] at hf
    refine ⟨unblendFormula (compositeByte o a) 255 ((a : ℚ) / 255), ?_, ?_⟩
    · rw [h]; unfold ALPHA_INTENSITY; rw [hf]
    · have hfb := unblend_floor_bounds (compositeByte o a) a (by omega)
      have hrt := roundTrip_arith o a (compositeByte o a) _ (by omega) (by omega)
        hcb.1 hcb.2 hfb.1 hfb.2
      unfold unblendFormula
      omega

theorem reverseAlphaBlend_roundTrip_witness :
    ∃ v : Nat,
      (reverseAlphaBlend [compositeByte 100 128, 0, 0, 255] ⟨[255, 255, 255, 128], 1, 1, 0⟩
          1 1 ALPHA_INTENSITY)[pixelIndex 1 0 0 + 0]? = some v ∧
      (v : ℤ) - (100 : Nat) ≤ 1 ∧ ((100 : Nat) : ℤ) - v ≤ 1 :=
  reverseAlphaBlend_roundTrip [compositeByte 100 128, 0, 0, 255]
    ⟨[255, 255, 255, 128], 1, 1, 0⟩ 1 1 0 0 0 0 0 128 100 (by decide) (by decide)
    (by decide) (by decide) (by decide) (by decide) (by decide) (by decide) (by decide)
    (by decide!) (by decide) (by decide) (by decide)

/-- C4 (the code at a fully opaque mask pixel): with mask alpha 255 and
intensity 1.0 the blend weight is clamped to 0.99, `1 − α` is 0.01, the test
`invAlpha < 0.01` fails and the pixel is rewritten: a channel holding 200
becomes 0. -/
theorem reverseAlphaBlend_opaque_rewrites :
    reverseAlphaBlend [200, 200, 200, 255] ⟨[255, 255, 255, 255], 1, 1, 0⟩ 1 1 ALPHA_INTENSITY
      = [0, 0, 0, 255] := by
  decide!

/-! ## The watermark region of `detectWatermark` -/

theorem pixel_in_buffer (imgWidth imgHeight x y : Nat) (hx : x < imgWidth)
    (hy : y < imgHeight) : pixelIndex imgWidth x y + 3 < 4 * imgWidth * imgHeight := by
  unfold pixelIndex
  have h1 : (y + 1) * imgWidth ≤ imgHeight * imgWidth := Nat.mul_le_mul_right _ hy
  have h2 : 4 * imgWidth * imgHeight = 4 * (imgHeight * imgWidth) := by ring
  have h3 : (y + 1) * imgWidth = y * imgWidth + imgWidth := by ring
  omega

theorem pixelLuminance_eq (img : List Nat) (idx : Nat) (h : idx + 2 < img.length) :
    pixelLuminance img idx = some (lumAt img idx) := by
  unfold pixelLuminance luminance lumAt
  have h0 : img[idx]? = some (img.getD idx 0) := by
    rw [List.getD_eq_getElem?_getD, List.getElem?_eq_getElem (by omega)]; rfl
  have h1 : img[idx + 1]? = some (img.getD (idx + 1) 0) := by
    rw [List.getD_eq_getElem?_getD, List.getElem?_eq_getElem (by omega)]; rfl
  have h2 : img[idx + 2]? = some (img.getD (idx + 2) 0) := by
    rw [List.getD_eq_getElem?_getD, List.getElem?_eq_getElem (by omega)]; rfl
  rw [typedGet_of_some _ _ _ h0, typedGet_of_some _ _ _ h1, typedGet_of_some _ _ _ h2]
  simp only [jsMul_some, jsAdd_some]

theorem alpha_gt_tenth_iff (a : Nat) : (1 : ℚ) / 10 < (a : ℚ) / 255 ↔ 26 ≤ a := by
  constructor
  · intro h
    have h2 : (25 : ℚ) < a := by linarith
    have h3 : 25 < a := by exact_mod_cast h2
    omega
  · intro h
    have h2 : (26 : ℚ) ≤ a := by exact_mod_cast h
    linarith

theorem jsGt_alpha_eq_covered (mask : Mask) (p : Nat × Nat) :
    jsGt (jsDiv (typedGet mask.data (maskIdxOf mask p.1 p.2 + 3)) (some 255)) (some (1 / 10))
      = covered mask p := by
  unfold covered
  cases h : mask.data[maskIdxOf mask p.1 p.2 + 3]? with
  | none => rw [typedGet_of_none _ _ h]; rfl
  | some a =>
    rw [typedGet_of_some _ _ _ h]
    simp only [jsDiv_some, jsGt_some]
    exact decide_eq_decide.mpr (alpha_gt_tenth_iff a)

theorem jsDiv_alpha_eq_weight (mask : Mask) (p : Nat × Nat) (h : covered mask p = true) :
    jsDiv (typedGet mask.data (maskIdxOf mask p.1 p.2 + 3)) (some 255)
      = some (alphaWeight mask p) := by
  unfold covered at h
  unfold alphaWeight
  cases h2 : mask.data[maskIdxOf mask p.1 p.2 + 3]? with
  | none => rw [h2] at h; simp at h
  | some a => rw [typedGet_of_some _ _ _ h2]; rfl

theorem inImage_of_offsets (mask : Mask) (imgWidth imgHeight : Nat) (p : Nat × Nat)
    (hx : 0 ≤ offsetX mask imgWidth) (hy : 0 ≤ offsetY mask imgHeight)
    (hp : p ∈ maskPixels mask) : inImage mask imgWidth imgHeight p.1 p.2 := by
  rw [mem_maskPixels] at hp
  unfold inImage
  unfold offsetX at hx ⊢
  unfold offsetY at hy ⊢
  omega

theorem imgIdxOf_eq_footprintIndex (mask : Mask) (imgWidth imgHeight : Nat) (p : Nat × Nat)
    (hx : 0 ≤ offsetX mask imgWidth) (hy : 0 ≤ offsetY mask imgHeight) :
    imgIdxOf mask imgWidth imgHeight p.1 p.2 = footprintIndex mask imgWidth imgHeight p := by
  unfold footprintIndex
  apply imgIdxOf_eq_pixelIndex
  · push_cast; rw [Int.toNat_of_nonneg hx]
  · push_cast; rw [Int.toNat_of_nonneg hy]

theorem footprintIndex_in_buffer (mask : Mask) (imgWidth imgHeight : Nat) (p : Nat × Nat)
    (hx : 0 ≤ offsetX mask imgWidth) (hy : 0 ≤ offsetY mask imgHeight)
    (hp : p ∈ maskPixels mask) :
    footprintIndex mask imgWidth imgHeight p + 3 < 4 * imgWidth * imgHeight := by
  rw [mem_maskPixels] at hp
  unfold footprintIndex
  apply pixel_in_buffer
  · unfold offsetX at hx ⊢; omega
  · unfold offsetY at hy ⊢; omega

theorem watermarkStep_eq (img : List Nat) (mask : Mask) (imgWidth imgHeight : Nat)
    (p : Nat × Nat) (b c : ℚ)
    (hx : 0 ≤ offsetX mask imgWidth) (hy : 0 ≤ offsetY mask imgHeight)
    (hlen : 4 * imgWidth * imgHeight ≤ img.length) (hp : p ∈ maskPixels mask) :
    watermarkStep img mask imgWidth imgHeight p.1 p.2 ⟨some b, some c⟩
      = if covered mask p then
          ⟨some (b + lumAt img (footprintIndex mask imgWidth imgHeight p) * alphaWeight mask p),
            some (c + alphaWeight mask p)⟩
        else ⟨some b, some c⟩ := by
  have hin := inImage_of_offsets mask imgWidth imgHeight p hx hy hp
  have hbuf := footprintIndex_in_buffer mask imgWidth imgHeight p hx hy hp
  have hidx := imgIdxOf_eq_footprintIndex mask imgWidth imgHeight p hx hy
  unfold inImage at hin
  unfold imgIdxOf at hidx
  unfold watermarkStep
  simp only [if_neg hin]
  have hg := jsGt_alpha_eq_covered mask p
  unfold maskIdxOf at hg
  rw [hg, hidx]
  by_cases hc : covered mask p = true
  · have hw := jsDiv_alpha_eq_weight mask p hc
    unfold maskIdxOf at hw
    rw [if_pos hc, if_pos hc, hw, pixelLuminance_eq img _ (by omega)]
    simp only [jsMul_some, jsAdd_some]
  · rw [if_neg hc, if_neg hc]

theorem watermark_foldl (img : List Nat) (mask : Mask) (imgWidth imgHeight : Nat)
    (hx : 0 ≤ offsetX mask imgWidth) (hy : 0 ≤ offsetY mask imgHeight)
    (hlen : 4 * imgWidth * imgHeight ≤ img.length) (l : List (Nat × Nat))
    (hl : ∀ p ∈ l, p ∈ maskPixels mask) (b c : ℚ) :
    l.foldl (fun acc p => watermarkStep img mask imgWidth imgHeight p.1 p.2 acc)
        ⟨some b, some c⟩
      = ⟨some (b + ((l.filter (covered mask)).map
            (fun p => lumAt img (footprintIndex mask imgWidth imgHeight p)
              * alphaWeight mask p)).sum),
          some (c + ((l.filter (covered mask)).map (alphaWeight mask)).sum)⟩ := by
  induction l generalizing b c with
  | nil => simp
  | cons q qs ih =>
    rw [List.foldl_cons, watermarkStep_eq img mask imgWidth imgHeight q b c hx hy hlen
      (hl q (List.mem_cons_self _ _))]
    have hqs : ∀ p ∈ qs, p ∈ maskPixels mask := fun p hp => hl p (List.mem_cons_of_mem _ hp)
    by_cases hc : covered mask q = true
    · rw [if_pos hc, ih hqs, List.filter_cons_of_pos hc]
      simp only [List.map_cons, List.sum_cons]
      congr 2 <;> ring
    · rw [if_neg hc, ih hqs, List.filter_cons_of_neg hc]

theorem watermarkRegion_eq (img : List Nat) (mask : Mask) (imgWidth imgHeight : Nat)
    (hx : 0 ≤ offsetX mask imgWidth) (hy : 0 ≤ offsetY mask imgHeight)
    (hlen : 4 * imgWidth * imgHeight ≤ img.length) :
    watermarkRegion img mask imgWidth imgHeight
      = ⟨some (weightedLumSum img mask imgWidth imgHeight), some (weightSum mask)⟩ := by
  unfold watermarkRegion
  rw [foldl_nested_eq_product
    (fun my mx acc => watermarkStep img mask imgWidth imgHeight my mx acc)]
  have h := watermark_foldl img mask imgWidth imgHeight hx hy hlen (maskPixels mask)
    (fun p hp => hp) 0 0
  unfold maskPixels at h
  rw [h]
  unfold weightedLumSum weightSum coveredPixels maskPixels
  simp only [zero_add]

/-! ## The reference region of `detectWatermark` -/

theorem forIndices_eq (lo hi : Int) (cond : Int → Bool)
    (h : ∀ k : Nat, k < (hi - lo).toNat → cond (lo + (k : Int)) = true) :
    forIndices lo hi cond = (List.range (hi - lo).toNat).map (fun (k : Nat) => lo + (k : Int)) := by
  unfold forIndices
  rw [List.takeWhile_eq_self_iff]
  intro x hx
  rw [List.mem_map] at hx
  obtain ⟨k, hk, rfl⟩ := hx
  exact h k (List.mem_range.mp hk)

theorem forIndices_eq_range' (lo hi : Int) (cond : Int → Bool) (s n : Nat)
    (hs : lo = (s : Int)) (hn : (hi - lo).toNat = n)
    (h : ∀ k : Nat, k < n → cond (((s + k : Nat) : Int)) = true) :
    forIndices lo hi cond = (List.range' s n).map (fun (m : Nat) => (m : Int)) := by
  rw [forIndices_eq lo hi cond (by
    intro k hk
    rw [hn] at hk
    have := h k hk
    rw [hs]
    push_cast at this
    exact this)]
  rw [hn, List.range'_eq_map_range, List.map_map]
  apply List.map_congr_left
  intro k _
  simp only [Function.comp]
  rw [hs]
  push_cast
  rfl

theorem leftRows_eq (mask : Mask) (imgHeight : Nat) (hy : 0 ≤ offsetY mask imgHeight) :
    leftRows mask imgHeight
      = (List.range' (offsetY mask imgHeight).toNat mask.height).map (fun (m : Nat) => (m : Int)) := by
  unfold leftRows
  apply forIndices_eq_range'
  · rw [Int.toNat_of_nonneg hy]
  · simp
  · intro k hk
    unfold offsetY at hy ⊢
    simp only [Bool.and_eq_true, decide_eq_true_eq]
    omega

theorem leftCols_eq (mask : Mask) (imgWidth : Nat) (hx : 0 ≤ offsetX mask imgWidth) :
    leftCols mask imgWidth
      = (List.range' ((offsetX mask imgWidth).toNat - min mask.width mask.height)
          ((offsetX mask imgWidth).toNat
            - ((offsetX mask imgWidth).toNat - min mask.width mask.height))).map
          (fun (m : Nat) => (m : Int)) := by
  unfold leftCols sampleSize
  apply forIndices_eq_range'
  · omega
  · omega
  · intro k hk
    simp only [Bool.and_eq_true, decide_eq_true_eq]
    omega

theorem topRows_eq (mask : Mask) (imgHeight : Nat) (hy : 0 ≤ offsetY mask imgHeight) :
    topRows mask imgHeight
      = (List.range' ((offsetY mask imgHeight).toNat - min mask.width mask.height)
          ((offsetY mask imgHeight).toNat
            - ((offsetY mask imgHeight).toNat - min mask.width mask.height))).map
          (fun (m : Nat) => (m : Int)) := by
  unfold topRows sampleSize
  apply forIndices_eq_range'
  · omega
  · omega
  · intro k hk
    simp only [Bool.and_eq_true, decide_eq_true_eq]
    omega

theorem topCols_eq (mask : Mask) (imgWidth : Nat) (hx : 0 ≤ offsetX mask imgWidth) :
    topCols mask imgWidth
      = (List.range' (offsetX mask imgWidth).toNat mask.width).map (fun (m : Nat) => (m : Int)) := by
  unfold topCols
  apply forIndices_eq_range'
  · rw [Int.toNat_of_nonneg hx]
  · simp
  · intro k hk
    unfold offsetX at hx ⊢
    simp only [Bool.and_eq_true, decide_eq_true_eq]
    omega

theorem surroundingStep_eq (img : List Nat) (imgWidth imgHeight x y : Nat) (b : ℚ) (n : Nat)
    (hlen : 4 * imgWidth * imgHeight ≤ img.length) (hx : x < imgWidth) (hy : y < imgHeight) :
    surroundingStep img imgWidth (y : Int) (x : Int) ⟨some b, n⟩
      = ⟨some (b + lumAt img (pixelIndex imgWidth x y)), n + 1⟩ := by
  unfold surroundingStep
  have hidx : (((y : Int) * (imgWidth : Int) + (x : Int)) * 4).toNat = pixelIndex imgWidth x y := by
    unfold pixelIndex
    have : (((y : Int) * (imgWidth : Int) + (x : Int)) * 4)
        = (((y * imgWidth + x) * 4 : Nat) : Int) := by
      push_cast; ring
    rw [this, Int.toNat_ofNat]
  have hbuf := pixel_in_buffer imgWidth imgHeight x y hx hy
  simp only [hidx]
  rw [pixelLuminance_eq img _ (by omega)]
  simp only [jsAdd_some]

theorem surrounding_foldl (img : List Nat) (imgWidth imgHeight : Nat)
    (hlen : 4 * imgWidth * imgHeight ≤ img.length) (l : List (Nat × Nat))
    (hl : ∀ q ∈ l, q.2 < imgWidth ∧ q.1 < imgHeight) (b : ℚ) (n : Nat) :
    l.foldl (fun acc q => surroundingStep img imgWidth (q.1 : Int) (q.2 : Int) acc)
        ⟨some b, n⟩
      = ⟨some (b + (l.map (fun q => lumAt img (pixelIndex imgWidth q.2 q.1))).sum),
          n + l.length⟩ := by
  induction l generalizing b n with
  | nil => simp
  | cons q qs ih =>
    obtain ⟨h1, h2⟩ := hl q (List.mem_cons_self _ _)
    rw [List.foldl_cons, surroundingStep_eq img imgWidth imgHeight q.2 q.1 b n hlen h1 h2,
      ih (fun p hp => hl p (List.mem_cons_of_mem _ hp))]
    simp only [List.map_cons, List.sum_cons, List.length_cons]
    have e1 : b + lumAt img (pixelIndex imgWidth q.2 q.1)
        + (qs.map (fun q => lumAt img (pixelIndex imgWidth q.2 q.1))).sum
        = b + (lumAt img (pixelIndex imgWidth q.2 q.1)
          + (qs.map (fun q => lumAt img (pixelIndex imgWidth q.2 q.1))).sum) := by ring
    have e2 : n + 1 + qs.length = n + (qs.length + 1) := by omega
    rw [e1, e2]

theorem surroundingLoop_eq (img : List Nat) (imgWidth imgHeight : Nat)
    (hlen : 4 * imgWidth * imgHeight ≤ img.length) (rows cols : List Nat)
    (hl : ∀ q ∈ rows ×ˢ cols, q.2 < imgWidth ∧ q.1 < imgHeight) (b : ℚ) (n : Nat) :
    surroundingLoop img imgWidth (rows.map (fun (m : Nat) => (m : Int)))
        (cols.map (fun (m : Nat) => (m : Int))) ⟨some b, n⟩
      = ⟨some (b + ((rows ×ˢ cols).map
            (fun q => lumAt img (pixelIndex imgWidth q.2 q.1))).sum),
          n + (rows ×ˢ cols).length⟩ := by
  unfold surroundingLoop
  rw [List.foldl_map]
  simp only [List.foldl_map]
  rw [foldl_nested_eq_product
    (fun (y x : Nat) acc => surroundingStep img imgWidth (y : Int) (x : Int) acc)]
  exact surrounding_foldl img imgWidth imgHeight hlen _ hl b n

theorem mem_leftBand (mask : Mask) (imgWidth imgHeight : Nat) (q : Nat × Nat) :
    q ∈ leftBand mask imgWidth imgHeight ↔
      ((offsetY mask imgHeight).toNat ≤ q.1 ∧
        q.1 < (offsetY mask imgHeight).toNat + mask.height) ∧
      ((offsetX mask imgWidth).toNat - min mask.width mask.height ≤ q.2 ∧
        q.2 < (offsetX mask imgWidth).toNat) := by
  unfold leftBand
  rw [List.mem_product, List.mem_range'_1, List.mem_range'_1]
  omega

theorem mem_topBand (mask : Mask) (imgWidth imgHeight : Nat) (q : Nat × Nat) :
    q ∈ topBand mask imgWidth imgHeight ↔
      ((offsetY mask imgHeight).toNat - min mask.width mask.height ≤ q.1 ∧
        q.1 < (offsetY mask imgHeight).toNat) ∧
      ((offsetX mask imgWidth).toNat ≤ q.2 ∧
        q.2 < (offsetX mask imgWidth).toNat + mask.width) := by
  unfold topBand
  rw [List.mem_product, List.mem_range'_1, List.mem_range'_1]
  omega

theorem mem_footprint (mask : Mask) (imgWidth imgHeight : Nat) (q : Nat × Nat) :
    q ∈ footprint mask imgWidth imgHeight ↔
      ((offsetY mask imgHeight).toNat ≤ q.1 ∧
        q.1 < (offsetY mask imgHeight).toNat + mask.height) ∧
      ((offsetX mask imgWidth).toNat ≤ q.2 ∧
        q.2 < (offsetX mask imgWidth).toNat + mask.width) := by
  unfold footprint
  rw [List.mem_product, List.mem_range'_1, List.mem_range'_1]

theorem band_in_image (mask : Mask) (imgWidth imgHeight : Nat)
    (hx : 0 ≤ offsetX mask imgWidth) (hy : 0 ≤ offsetY mask imgHeight) (q : Nat × Nat)
    (hq : q ∈ leftBand mask imgWidth imgHeight ∨ q ∈ topBand mask imgWidth imgHeight) :
    q.2 < imgWidth ∧ q.1 < imgHeight := by
  rw [mem_leftBand, mem_topBand] at hq
  unfold offsetX at hx hq
  unfold offsetY at hy hq
  omega

theorem surroundingRegion_eq (img : List Nat) (mask : Mask) (imgWidth imgHeight : Nat)
    (hx : 0 ≤ offsetX mask imgWidth) (hy : 0 ≤ offsetY mask imgHeight)
    (hlen : 4 * imgWidth * imgHeight ≤ img.length) :
    surroundingRegion img mask imgWidth imgHeight
      = ⟨some (referenceLumSum img mask imgWidth imgHeight),
          (referencePixels mask imgWidth imgHeight).length⟩ := by
  unfold surroundingRegion
  rw [leftRows_eq mask imgHeight hy, leftCols_eq mask imgWidth hx,
    topRows_eq mask imgHeight hy, topCols_eq mask imgWidth hx]
  rw [surroundingLoop_eq img imgWidth imgHeight hlen _ _
    (fun q hq => band_in_image mask imgWidth imgHeight hx hy q (Or.inl hq))]
  rw [surroundingLoop_eq img imgWidth imgHeight hlen _ _
    (fun q hq => band_in_image mask imgWidth imgHeight hx hy q (Or.inr hq))]
  unfold referenceLumSum referencePixels leftBand topBand
  simp only [zero_add, List.map_append, List.sum_append, List.length_append]

/-! ## The averages and the decision of `detectWatermark` -/

theorem list_sum_pos (l : List ℚ) (hpos : ∀ v ∈ l, 0 < v) (hne : l ≠ []) : 0 < l.sum := by
  induction l with
  | nil => exact absurd rfl hne
  | cons v vs ih =>
    rw [List.sum_cons]
    have hv : 0 < v := hpos v (List.mem_cons_self _ _)
    by_cases hvs : vs = []
    · subst hvs; simpa using hv
    · have := ih (fun w hw => hpos w (List.mem_cons_of_mem _ hw)) hvs
      linarith

theorem alphaWeight_pos (mask : Mask) (p : Nat × Nat) (h : covered mask p = true) :
    0 < alphaWeight mask p := by
  unfold covered at h
  unfold alphaWeight
  cases h2 : mask.data[maskIdxOf mask p.1 p.2 + 3]? with
  | none => rw [h2] at h; simp at h
  | some a =>
    rw [h2] at h
    simp only [decide_eq_true_eq] at h
    have : (26 : ℚ) ≤ a := by exact_mod_cast h
    simp only []
    linarith

theorem weightSum_pos (mask : Mask) (h : coveredPixels mask ≠ []) : 0 < weightSum mask := by
  unfold weightSum
  apply list_sum_pos
  · intro v hv
    rw [List.mem_map] at hv
    obtain ⟨p, hp, rfl⟩ := hv
    unfold coveredPixels at hp
    exact alphaWeight_pos mask p (List.mem_filter.mp hp).2
  · intro hnil
    exact h (List.map_eq_nil_iff.mp hnil)

theorem weightSum_nil (mask : Mask) (h : coveredPixels mask = []) : weightSum mask = 0 := by
  unfold weightSum; rw [h]; rfl

theorem avgWatermark_eq (img : List Nat) (mask : Mask) (imgWidth imgHeight : Nat)
    (hx : 0 ≤ offsetX mask imgWidth) (hy : 0 ≤ offsetY mask imgHeight)
    (hlen : 4 * imgWidth * imgHeight ≤ img.length) :
    avgWatermarkBrightness (watermarkRegion img mask imgWidth imgHeight)
      = some (watermarkAverage img mask imgWidth imgHeight) := by
  rw [watermarkRegion_eq img mask imgWidth imgHeight hx hy hlen]
  unfold avgWatermarkBrightness watermarkAverage
  simp only [jsGt_some, jsDiv_some, decide_eq_true_eq]
  by_cases h : coveredPixels mask = []
  · rw [if_pos h, if_neg (by rw [weightSum_nil mask h]; exact lt_irrefl _)]
  · rw [if_neg h, if_pos (weightSum_pos mask h)]

theorem avgSurrounding_eq (img : List Nat) (mask : Mask) (imgWidth imgHeight : Nat)
    (hx : 0 ≤ offsetX mask imgWidth) (hy : 0 ≤ offsetY mask imgHeight)
    (hlen : 4 * imgWidth * imgHeight ≤ img.length) :
    avgSurroundingBrightness (surroundingRegion img mask imgWidth imgHeight)
      = some (referenceAverage img mask imgWidth imgHeight) := by
  rw [surroundingRegion_eq img mask imgWidth imgHeight hx hy hlen]
  unfold avgSurroundingBrightness referenceAverage
  simp only [jsDiv_some]
  by_cases h : referencePixels mask imgWidth imgHeight = []
  · rw [if_pos h, if_neg (by rw [h]; simp)]
  · rw [if_neg h, if_pos (List.length_pos.mpr h)]

theorem brightnessDiff_eq (img : List Nat) (mask : Mask) (imgWidth imgHeight : Nat)
    (hx : 0 ≤ offsetX mask imgWidth) (hy : 0 ≤ offsetY mask imgHeight)
    (hlen : 4 * imgWidth * imgHeight ≤ img.length) :
    brightnessDiff img mask imgWidth imgHeight
      = some (watermarkAverage img mask imgWidth imgHeight
          - referenceAverage img mask imgWidth imgHeight) := by
  unfold brightnessDiff
  rw [avgWatermark_eq img mask imgWidth imgHeight hx hy hlen,
    avgSurrounding_eq img mask imgWidth imgHeight hx hy hlen]
  rfl

theorem detectWatermark_iff (img : List Nat) (mask : Mask) (imgWidth imgHeight : Nat)
    (hx : 0 ≤ offsetX mask imgWidth) (hy : 0 ≤ offsetY mask imgHeight)
    (hlen : 4 * imgWidth * imgHeight ≤ img.length) :
    detectWatermark img mask imgWidth imgHeight = true ↔
      10 < watermarkAverage img mask imgWidth imgHeight
        - referenceAverage img mask imgWidth imgHeight := by
  unfold detectWatermark
  rw [if_neg (by omega), brightnessDiff_eq img mask imgWidth imgHeight hx hy hlen]
  simp only [jsGt_some, decide_eq_true_eq]

theorem nodup_referencePixels (mask : Mask) (imgWidth imgHeight : Nat) :
    (referencePixels mask imgWidth imgHeight).Nodup := by
  unfold referencePixels
  rw [List.nodup_append]
  refine ⟨?_, ?_, ?_⟩
  · unfold leftBand
    exact List.Nodup.product (List.nodup_range' _ _) (List.nodup_range' _ _)
  · unfold topBand
    exact List.Nodup.product (List.nodup_range' _ _) (List.nodup_range' _ _)
  · intro q h1 h2
    rw [mem_leftBand] at h1
    rw [mem_topBand] at h2
    omega

/-! ## Flat images -/

theorem lumAt_flat (img : List Nat) (imgWidth imgHeight r g b : Nat)
    (hflat : ∀ x y, x < imgWidth → y < imgHeight →
      img[pixelIndex imgWidth x y]? = some r ∧ img[pixelIndex imgWidth x y + 1]? = some g ∧
        img[pixelIndex imgWidth x y + 2]? = some b)
    (x y : Nat) (hx : x < imgWidth) (hy : y < imgHeight) :
    lumAt img (pixelIndex imgWidth x y)
      = 299 / 1000 * (r : ℚ) + 587 / 1000 * (g : ℚ) + 114 / 1000 * (b : ℚ) := by
  obtain ⟨h0, h1, h2⟩ := hflat x y hx hy
  unfold lumAt
  rw [List.getD_eq_getElem?_getD, List.getD_eq_getElem?_getD, List.getD_eq_getElem?_getD,
    h0, h1, h2]
  rfl

theorem weightedLumSum_flat (img : List Nat) (mask : Mask) (imgWidth imgHeight r g b : Nat)
    (hx : 0 ≤ offsetX mask imgWidth) (hy : 0 ≤ offsetY mask imgHeight)
    (hflat : ∀ x y, x < imgWidth → y < imgHeight →
      img[pixelIndex imgWidth x y]? = some r ∧ img[pixelIndex imgWidth x y + 1]? = some g ∧
        img[pixelIndex imgWidth x y + 2]? = some b) :
    weightedLumSum img mask imgWidth imgHeight
      = (299 / 1000 * (r : ℚ) + 587 / 1000 * (g : ℚ) + 114 / 1000 * (b : ℚ))
          * weightSum mask := by
  unfold weightedLumSum weightSum
  rw [← List.sum_map_mul_left]
  congr 1
  apply List.map_congr_left
  intro p hp
  unfold coveredPixels at hp
  have hpm := (mem_maskPixels mask p).mp (List.mem_filter.mp hp).1
  unfold footprintIndex
  rw [lumAt_flat img imgWidth imgHeight r g b hflat _ _
    (by unfold offsetX at hx ⊢; omega) (by unfold offsetY at hy ⊢; omega)]

theorem referenceLumSum_flat (img : List Nat) (mask : Mask) (imgWidth imgHeight r g b : Nat)
    (hx : 0 ≤ offsetX mask imgWidth) (hy : 0 ≤ offsetY mask imgHeight)
    (hflat : ∀ x y, x < imgWidth → y < imgHeight →
      img[pixelIndex imgWidth x y]? = some r ∧ img[pixelIndex imgWidth x y + 1]? = some g ∧
        img[pixelIndex imgWidth x y + 2]? = some b) :
    referenceLumSum img mask imgWidth imgHeight
      = (299 / 1000 * (r : ℚ) + 587 / 1000 * (g : ℚ) + 114 / 1000 * (b : ℚ))
          * ((referencePixels mask imgWidth imgHeight).length : ℚ) := by
  unfold referenceLumSum
  have hconst : (referencePixels mask imgWidth imgHeight).map
      (fun q => lumAt img (pixelIndex imgWidth q.2 q.1))
      = (referencePixels mask imgWidth imgHeight).map
        (fun _ => 299 / 1000 * (r : ℚ) + 587 / 1000 * (g : ℚ) + 114 / 1000 * (b : ℚ)) := by
    apply List.map_congr_left
    intro q hq
    unfold referencePixels at hq
    obtain ⟨h1, h2⟩ := band_in_image mask imgWidth imgHeight hx hy q (List.mem_append.mp hq)
    exact lumAt_flat img imgWidth imgHeight r g b hflat _ _ h1 h2
  rw [hconst, List.map_const', List.sum_replicate, nsmul_eq_mul, mul_comm]

theorem referencePixels_eq_nil_iff (mask : Mask) (imgWidth imgHeight : Nat)
    (hx : 0 ≤ offsetX mask imgWidth) (hy : 0 ≤ offsetY mask imgHeight)
    (hw : 0 < mask.width) (hh : 0 < mask.height) :
    referencePixels mask imgWidth imgHeight = [] ↔
      offsetX mask imgWidth = 0 ∧ offsetY mask imgHeight = 0 := by
  rw [← List.length_eq_zero]
  unfold referencePixels leftBand topBand
  rw [List.length_append, List.length_product, List.length_product, List.length_range',
    List.length_range', List.length_range', List.length_range', Nat.add_eq_zero_iff,
    Nat.mul_eq_zero, Nat.mul_eq_zero]
  omega

theorem dims_pos_of_covered (mask : Mask) (h : coveredPixels mask ≠ []) :
    0 < mask.width ∧ 0 < mask.height := by
  obtain ⟨p, hp⟩ := List.exists_mem_of_ne_nil _ h
  unfold coveredPixels at hp
  have := (mem_maskPixels mask p).mp (List.mem_filter.mp hp).1
  omega

/-! ## Results on `detectWatermark` -/

/-- C7: when `imgWidth < maskWidth + margin` or `imgHeight < maskHeight +
margin`, `detectWatermark` returns false, whatever the buffers hold. -/
theorem detectWatermark_geometry_mismatch (img : List Nat) (mask : Mask)
    (imgWidth imgHeight : Nat)
    (h : imgWidth < mask.width + mask.margin ∨ imgHeight < mask.height + mask.margin) :
    detectWatermark img mask imgWidth imgHeight = false := by
  unfold detectWatermark offsetX offsetY
  rw [if_pos (by omega)]

theorem detectWatermark_geometry_mismatch_witness :
    detectWatermark [255, 255, 255, 255] ⟨[255, 255, 255, 255], 1, 1, 1⟩ 1 1 = false :=
  detectWatermark_geometry_mismatch [255, 255, 255, 255] ⟨[255, 255, 255, 255], 1, 1, 1⟩ 1 1
    (by decide)

/-- C10, as stated, fails: a flat gray image of exactly the size of the
footprint has no reference pixel, the reference average defaults to 128, and a
gray level of 200 is detected as a watermark. -/
theorem detectWatermark_flat_false_positive :
    detectWatermark [200, 200, 200, 255, 200, 200, 200, 255,
        200, 200, 200, 255, 200, 200, 200, 255]
      ⟨[255, 255, 255, 255, 255, 255, 255, 255, 255, 255, 255, 255, 255, 255, 255, 255],
        2, 2, 0⟩ 2 2 = true := by
  decide!

/-- C10, amended: on a flat image (every pixel of colour `(r, g, b)`, flat
luminance `L = 0.299 r + 0.587 g + 0.114 b`) `detectWatermark` returns false
whenever an offset is not 0 (the call is refused or a reference pixel exists),
or no mask pixel has alpha above 0.1, or `L < 138`; it returns true when both
offsets are 0, so that no reference pixel exists and the reference average is
the default 128, some mask pixel has alpha above 0.1 and `L > 138`.  The case
`L = 138` with both offsets 0, where the difference sits on the threshold, is
left out. -/
theorem detectWatermark_flat (img : List Nat) (mask : Mask) (imgWidth imgHeight r g b : Nat)
    (hlen : 4 * imgWidth * imgHeight ≤ img.length)
    (hflat : ∀ x y, x < imgWidth → y < imgHeight →
      img[pixelIndex imgWidth x y]? = some r ∧ img[pixelIndex imgWidth x y + 1]? = some g ∧
        img[pixelIndex imgWidth x y + 2]? = some b) :
    ((offsetX mask imgWidth ≠ 0 ∨ offsetY mask imgHeight ≠ 0 ∨ coveredPixels mask = [] ∨
        299 / 1000 * (r : ℚ) + 587 / 1000 * (g : ℚ) + 114 / 1000 * (b : ℚ) < 138) →
      detectWatermark img mask imgWidth imgHeight = false) ∧
    ((offsetX mask imgWidth = 0 ∧ offsetY mask imgHeight = 0 ∧ coveredPixels mask ≠ [] ∧
        138 < 299 / 1000 * (r : ℚ) + 587 / 1000 * (g : ℚ) + 114 / 1000 * (b : ℚ)) →
      detectWatermark img mask imgWidth imgHeight = true) := by
  have key : detectWatermark img mask imgWidth imgHeight = true ↔
      (offsetX mask imgWidth = 0 ∧ offsetY mask imgHeight = 0 ∧ coveredPixels mask ≠ [] ∧
        138 < 299 / 1000 * (r : ℚ) + 587 / 1000 * (g : ℚ) + 114 / 1000 * (b : ℚ)) := by
    have hL : (0 : ℚ) ≤ 299 / 1000 * (r : ℚ) + 587 / 1000 * (g : ℚ) + 114 / 1000 * (b : ℚ) := by
      positivity
    by_cases hneg : offsetX mask imgWidth < 0 ∨ offsetY mask imgHeight < 0
    · unfold detectWatermark
      rw [if_pos hneg]
      constructor
      · intro h; exact absurd h (by simp)
      · rintro ⟨h1, h2, _⟩; omega
    · have hx : 0 ≤ offsetX mask imgWidth := by omega
      have hy : 0 ≤ offsetY mask imgHeight := by omega
      rw [detectWatermark_iff img mask imgWidth imgHeight hx hy hlen]
      unfold watermarkAverage referenceAverage
      rw [weightedLumSum_flat img mask imgWidth imgHeight r g b hx hy hflat,
        referenceLumSum_flat img mask imgWidth imgHeight r g b hx hy hflat]
      by_cases hc : coveredPixels mask = []
      · rw [if_pos hc]
        constructor
        · intro h
          exfalso
          by_cases hr : referencePixels mask imgWidth imgHeight = []
          · rw [if_pos hr] at h; linarith
          · rw [if_neg hr] at h
            have hlenpos : (0 : ℚ) < ((referencePixels mask imgWidth imgHeight).length : ℚ) := by
              exact_mod_cast List.length_pos.mpr hr
            rw [mul_div_assoc, div_self (ne_of_gt hlenpos), mul_one] at h
            linarith
        · rintro ⟨_, _, h3, _⟩; exact absurd hc h3
      · rw [if_neg hc]
        have hws := weightSum_pos mask hc
        rw [mul_div_assoc, div_self (ne_of_gt hws), mul_one]
        obtain ⟨hw, hh⟩ := dims_pos_of_covered mask hc
        have hnil := referencePixels_eq_nil_iff mask imgWidth imgHeight hx hy hw hh
        by_cases hr : referencePixels mask imgWidth imgHeight = []
        · rw [if_pos hr]
          have h0 := hnil.mp hr
          constructor
          · intro h; exact ⟨h0.1, h0.2, hc, by linarith⟩
          · rintro ⟨_, _, _, h4⟩; linarith
        · rw [if_neg hr]
          have hlenpos : (0 : ℚ) < ((referencePixels mask imgWidth imgHeight).length : ℚ) := by
            exact_mod_cast List.length_pos.mpr hr
          rw [mul_div_assoc, div_self (ne_of_gt hlenpos), mul_one]
          constructor
          · intro h; linarith
          · rintro ⟨h1, h2, _, _⟩; exact absurd (hnil.mpr ⟨h1, h2⟩) hr
  constructor
  · intro h
    cases hd : detectWatermark img mask imgWidth imgHeight with
    | false => rfl
    | true =>
      exfalso
      obtain ⟨h1, h2, h3, h4⟩ := key.mp hd
      rcases h with h | h | h | h
      · exact h h1
      · exact h h2
      · exact h3 h
      · linarith
  · exact key.mpr

theorem detectWatermark_flat_witness :
    detectWatermark [200, 200, 200, 255] ⟨[255, 255, 255, 255], 1, 1, 0⟩ 1 1 = true ∧
    detectWatermark [200, 200, 200, 255, 200, 200, 200, 255,
        200, 200, 200, 255, 200, 200, 200, 255] ⟨[255, 255, 255, 255], 1, 1, 0⟩ 2 2 = false :=
  ⟨(detectWatermark_flat [200, 200, 200, 255] ⟨[255, 255, 255, 255], 1, 1, 0⟩ 1 1 200 200 200
    (by decide)
    (by
      intro x y hx hy
      have hx2 : x = 0 := by omega
      have hy2 : y = 0 := by omega
      subst hx2 hy2
      decide)).2 ⟨by decide, by decide, by decide, by norm_num⟩,
    (detectWatermark_flat [200, 200, 200, 255, 200, 200, 200, 255,
      200, 200, 200, 255, 200, 200, 200, 255] ⟨[255, 255, 255, 255], 1, 1, 0⟩ 2 2 200 200 200
    (by decide)
    (by
      intro x y hx hy
      have hx2 : x = 0 ∨ x = 1 := by omega
      have hy2 : y = 0 ∨ y = 1 := by omega
      rcases hx2 with rfl | rfl <;> rcases hy2 with rfl | rfl <;> decide)).1
      (Or.inl (by decide))⟩

/-! ## Detection on a brightened footprint -/

theorem sum_map_mul_ge {ι : Type} (l : List ι) (f w : ι → ℚ) (c : ℚ)
    (hf : ∀ p ∈ l, c ≤ f p) (hw : ∀ p ∈ l, 0 ≤ w p) :
    c * (l.map w).sum ≤ (l.map (fun p => f p * w p)).sum := by
  induction l with
  | nil => simp
  | cons p ps ih =>
    simp only [List.map_cons, List.sum_cons]
    have h1 := ih (fun q hq => hf q (List.mem_cons_of_mem _ hq))
      (fun q hq => hw q (List.mem_cons_of_mem _ hq))
    have h2 : c * w p ≤ f p * w p :=
      mul_le_mul_of_nonneg_right (hf p (List.mem_cons_self _ _)) (hw p (List.mem_cons_self _ _))
    linarith

theorem sum_map_le_mul_length {ι : Type} (l : List ι) (f : ι → ℚ) (c : ℚ)
    (hf : ∀ q ∈ l, f q ≤ c) : (l.map f).sum ≤ c * (l.length : ℚ) := by
  induction l with
  | nil => simp
  | cons q qs ih =>
    simp only [List.map_cons, List.sum_cons, List.length_cons]
    have h1 := ih (fun r hr => hf r (List.mem_cons_of_mem _ hr))
    have h2 := hf q (List.mem_cons_self _ _)
    push_cast
    linarith

/-- C11: with non-negative offsets, at least one mask pixel of alpha above
0.1 and at least one reference pixel, if every reference pixel has luminance at
most `L` and every image pixel under a mask pixel of alpha above 0.1 has
luminance at least `L + d` with `d > 10`, then `detectWatermark` returns
true. -/
theorem detectWatermark_fires (img : List Nat) (mask : Mask) (imgWidth imgHeight : Nat)
    (L d : ℚ)
    (hx : 0 ≤ offsetX mask imgWidth) (hy : 0 ≤ offsetY mask imgHeight)
    (hlen : 4 * imgWidth * imgHeight ≤ img.length)
    (hcov : coveredPixels mask ≠ [])
    (href : referencePixels mask imgWidth imgHeight ≠ [])
    (hd : 10 < d)
    (hlow : ∀ q ∈ referencePixels mask imgWidth imgHeight,
      lumAt img (pixelIndex imgWidth q.2 q.1) ≤ L)
    (hhigh : ∀ p ∈ coveredPixels mask,
      L + d ≤ lumAt img (footprintIndex mask imgWidth imgHeight p)) :
    detectWatermark img mask imgWidth imgHeight = true := by
  rw [detectWatermark_iff img mask imgWidth imgHeight hx hy hlen]
  unfold watermarkAverage referenceAverage
  rw [if_neg hcov, if_neg href]
  have hws := weightSum_pos mask hcov
  have hn : (0 : ℚ) < ((referencePixels mask imgWidth imgHeight).length : ℚ) := by
    exact_mod_cast List.length_pos.mpr href
  have h1 : (L + d) * weightSum mask ≤ weightedLumSum img mask imgWidth imgHeight := by
    unfold weightSum weightedLumSum
    apply sum_map_mul_ge _ _ _ _ hhigh
    intro p hp
    unfold coveredPixels at hp
    exact le_of_lt (alphaWeight_pos mask p (List.mem_filter.mp hp).2)
  have h2 : referenceLumSum img mask imgWidth imgHeight
      ≤ L * ((referencePixels mask imgWidth imgHeight).length : ℚ) := by
    unfold referenceLumSum
    exact sum_map_le_mul_length _ _ _ hlow
  have h3 : L + d ≤ weightedLumSum img mask imgWidth imgHeight / weightSum mask := by
    rw [le_div_iff₀ hws]; exact h1
  have h4 : referenceLumSum img mask imgWidth imgHeight
      / ((referencePixels mask imgWidth imgHeight).length : ℚ) ≤ L := by
    rw [div_le_iff₀ hn]; exact h2
  linarith

theorem detectWatermark_fires_witness :
    detectWatermark [0, 0, 0, 255, 0, 0, 0, 255, 0, 0, 0, 255, 255, 255, 255, 255]
      ⟨[255, 255, 255, 255], 1, 1, 0⟩ 2 2 = true :=
  detectWatermark_fires [0, 0, 0, 255, 0, 0, 0, 255, 0, 0, 0, 255, 255, 255, 255, 255]
    ⟨[255, 255, 255, 255], 1, 1, 0⟩ 2 2 0 200 (by decide) (by decide) (by decide)
    (by decide) (by decide) (by decide!) (by decide!) (by decide!)

/-! ## Results on `selectMask` -/

theorem lookup_cons_eq (k : Nat) (v : Mask) (rest : List (Nat × Mask)) :
    List.lookup k ((k, v) :: rest) = some v := by
  simp [List.lookup]

theorem lookup_cons_ne (k k2 : Nat) (v : Mask) (rest : List (Nat × Mask)) (h : k ≠ k2) :
    List.lookup k ((k2, v) :: rest) = List.lookup k rest := by
  have hb : (k == k2) = false := by simpa using h
  simp only [List.lookup, hb]

theorem MaskMap.get_set (masks : MaskMap) (size k : Nat) (m : Mask) :
    (masks.set size m).get k = if k = size then some m else masks.get k := by
  induction masks with
  | nil =>
    unfold MaskMap.set MaskMap.get
    by_cases h : k = size
    · subst h; rw [if_pos rfl, lookup_cons_eq]
    · rw [if_neg h, lookup_cons_ne k size m [] h]
  | cons e rest ih =>
    obtain ⟨k2, v2⟩ := e
    unfold MaskMap.set
    by_cases h2 : k2 = size
    · subst h2
      rw [if_pos rfl]
      unfold MaskMap.get
      by_cases h : k = k2
      · subst h; rw [if_pos rfl, lookup_cons_eq]
      · rw [if_neg h, lookup_cons_ne k k2 m rest h, lookup_cons_ne k k2 v2 rest h]
    · rw [if_neg h2]
      unfold MaskMap.get at ih ⊢
      by_cases h : k = k2
      · subst h
        rw [lookup_cons_eq, if_neg h2, lookup_cons_eq]
      · rw [lookup_cons_ne k k2 v2 _ h, ih, lookup_cons_ne k k2 v2 rest h]

/-- C12: `selectMask` returns the repository's entry for nominal size 96 when
`width > 1024` and `height > 1024`, and the entry for nominal size 48
otherwise; so `(1025, 1025)` selects 96 while `(1024, 1024)` and `(2000, 500)`
select 48.  The entry returned is the mask object stored under that size: after
`masks.set(96, m)` a large image gets `m` and a small image gets what it got
before, after `masks.set(48, m)` a small image gets `m` and a large image gets
what it got before; on a repository holding `m96` and `m48`, in either order,
`(1025, 1025)` gives `m96` and `(1024, 1024)`, `(2000, 500)`, `(500, 2000)` give
`m48`. -/
theorem selectMask_policy (width height : Nat) (masks : MaskMap) :
    (1024 < width ∧ 1024 < height → selectMask width height masks = masks.get 96) ∧
    (¬ (1024 < width ∧ 1024 < height) → selectMask width height masks = masks.get 48) ∧
    selectMask 1025 1025 masks = masks.get 96 ∧
    selectMask 1024 1024 masks = masks.get 48 ∧
    selectMask 2000 500 masks = masks.get 48 ∧
    (∀ m : Mask,
      (1024 < width ∧ 1024 < height → selectMask width height (masks.set 96 m) = some m) ∧
      (¬ (1024 < width ∧ 1024 < height) →
        selectMask width height (masks.set 48 m) = some m) ∧
      (1024 < width ∧ 1024 < height →
        selectMask width height (masks.set 48 m) = selectMask width height masks) ∧
      (¬ (1024 < width ∧ 1024 < height) →
        selectMask width height (masks.set 96 m) = selectMask width height masks)) ∧
    (∀ m96 m48 : Mask,
      selectMask 1025 1025 [(96, m96), (48, m48)] = some m96 ∧
      selectMask 1024 1024 [(96, m96), (48, m48)] = some m48 ∧
      selectMask 2000 500 [(96, m96), (48, m48)] = some m48 ∧
      selectMask 500 2000 [(96, m96), (48, m48)] = some m48 ∧
      selectMask 1025 1025 [(48, m48), (96, m96)] = some m96 ∧
      selectMask 1024 1024 [(48, m48), (96, m96)] = some m48) := by
  refine ⟨?_, ?_, rfl, rfl, rfl, ?_, ?_⟩
  · intro h
    unfold selectMask selectedSize
    rw [if_pos h]
  · intro h
    unfold selectMask selectedSize
    rw [if_neg h]
  · intro m
    unfold selectMask selectedSize
    refine ⟨?_, ?_, ?_, ?_⟩
    · intro h
      rw [if_pos h, MaskMap.get_set, if_pos rfl]
    · intro h
      rw [if_neg h, MaskMap.get_set, if_pos rfl]
    · intro h
      rw [if_pos h, MaskMap.get_set, if_neg (by decide)]
    · intro h
      rw [if_neg h, MaskMap.get_set, if_neg (by decide)]
  · intro m96 m48
    refine ⟨?_, ?_, ?_, ?_, ?_, ?_⟩ <;>
      simp [selectMask, selectedSize, MaskMap.get, List.lookup]

/-- C13: when the repository has no entry for the size the policy selects,
`selectMask` returns the not-found value, also when an entry for the other
size exists: a repository holding only size 48 gives nothing for a
2000 × 2000 image, one holding only size 96 nothing for a 800 × 600 image. -/
theorem selectMask_missing (width height : Nat) (masks : MaskMap) :
    (masks.get (selectedSize width height) = none → selectMask width height masks = none) ∧
    (∀ m : Mask, selectMask 2000 2000 [(48, m)] = none) ∧
    (∀ m : Mask, selectMask 800 600 [(96, m)] = none) ∧
    (selectedSize width height = 96 ∨ selectedSize width height = 48) := by
  refine ⟨fun h => h, fun _ => rfl, fun _ => rfl, ?_⟩
  unfold selectedSize
  split_ifs
  · exact Or.inl rfl
  · exact Or.inr rfl

/-! ## `preprocessMask` -/

theorem mem_loopIndices4 (n i : Nat) : i ∈ loopIndices4 n ↔ i % 4 = 0 ∧ i < n := by
  unfold loopIndices4
  rw [List.mem_map]
  constructor
  · rintro ⟨k, hk, rfl⟩
    rw [List.mem_range] at hk
    omega
  · rintro ⟨h1, h2⟩
    refine ⟨i / 4, ?_, ?_⟩
    · rw [List.mem_range]; omega
    · omega

theorem nodup_loopIndices4 (n : Nat) : (loopIndices4 n).Nodup := by
  unfold loopIndices4
  apply List.Nodup.map _ (List.nodup_range _)
  intro a b h
  simp only at h
  omega

theorem toUint8Clamped_255 : toUint8Clamped (some 255) = 255 := by
  have := toUint8Clamped_intCast 255 (by norm_num) (by norm_num)
  simpa using this

theorem preprocessStep_length (data : List Nat) (i : Nat) (output : List Nat) :
    (preprocessStep data i output).length = output.length := by
  unfold preprocessStep
  simp

theorem preprocessStep_frame (data : List Nat) (i : Nat) (output : List Nat) (j : Nat)
    (hj : ¬ pixelCell i j) : (preprocessStep data i output)[j]? = output[j]? := by
  unfold pixelCell at hj
  unfold preprocessStep
  simp only []
  rw [List.getElem?_set_ne (by omega), List.getElem?_set_ne (by omega),
    List.getElem?_set_ne (by omega), List.getElem?_set_ne (by omega)]

theorem preprocessStep_target (data : List Nat) (i : Nat) (output : List Nat) (j : Nat)
    (hj : pixelCell i j) :
    (preprocessStep data i output)[j]? = (output[j]?).map (fun _ => preprocessValue data i j) := by
  unfold pixelCell at hj
  unfold preprocessStep preprocessValue maskAlphaOfRGB
  simp only [toUint8Clamped_255]
  rcases hj with rfl | rfl | rfl | rfl
  · rw [List.getElem?_set_ne (by omega), List.getElem?_set_ne (by omega),
      List.getElem?_set_ne (by omega), List.getElem?_set_self', if_neg (by omega)]
    rfl
  · rw [List.getElem?_set_ne (by omega), List.getElem?_set_ne (by omega),
      List.getElem?_set_self', if_neg (by omega), List.getElem?_set_ne (by omega)]
    rfl
  · rw [List.getElem?_set_ne (by omega), List.getElem?_set_self', if_neg (by omega),
      List.getElem?_set_ne (by omega), List.getElem?_set_ne (by omega)]
    rfl
  · rw [List.getElem?_set_self', if_pos rfl, List.getElem?_set_ne (by omega),
      List.getElem?_set_ne (by omega), List.getElem?_set_ne (by omega)]
    rfl

theorem pixelCell_disjoint (i i2 j : Nat) (hi : i % 4 = 0) (hi2 : i2 % 4 = 0) (hne : i ≠ i2)
    (h : pixelCell i j) : ¬ pixelCell i2 j := by
  unfold pixelCell at *
  omega

theorem preprocessMask_cell (im : ImageData) (i j : Nat) (hi : i % 4 = 0)
    (hlt : i < im.data.length) (hj : pixelCell i j) :
    (preprocessMask im).data[j]?
      = if j < 4 * im.width * im.height then some (preprocessValue im.data i j) else none := by
  unfold preprocessMask
  simp only []
  rw [foldl_pointwise (fun i output => preprocessStep im.data i output) pixelCell
    (fun i j _ => preprocessValue im.data i j)
    (fun i img j h => preprocessStep_frame im.data i img j h)
    (fun i img j h => preprocessStep_target im.data i img j h)
    (loopIndices4 im.data.length) (nodup_loopIndices4 _)
    (fun a ha b hb hab j h => pixelCell_disjoint a b j
      ((mem_loopIndices4 _ _).mp ha).1 ((mem_loopIndices4 _ _).mp hb).1 hab h)
    i ((mem_loopIndices4 _ _).mpr ⟨hi, hlt⟩) j hj]
  rw [List.getElem?_replicate]
  split_ifs <;> rfl

theorem preprocessMask_length (im : ImageData) :
    (preprocessMask im).data.length = 4 * im.width * im.height := by
  unfold preprocessMask
  simp only []
  rw [foldl_length (fun i output => preprocessStep im.data i output) _
    (fun i img => preprocessStep_length im.data i img)]
  exact List.length_replicate _ _

theorem maskAlphaOfRGB_eq (r g b : Nat) (hr : r ≤ 255) (hg : g ≤ 255) (hb : b ≤ 255) :
    maskAlphaOfRGB (some (r : ℚ)) (some (g : ℚ)) (some (b : ℚ))
      = (⌊299 / 1000 * (r : ℚ) + 587 / 1000 * (g : ℚ) + 114 / 1000 * (b : ℚ) + 1 / 2⌋ : ℤ).toNat
      ∧ (⌊299 / 1000 * (r : ℚ) + 587 / 1000 * (g : ℚ) + 114 / 1000 * (b : ℚ) + 1 / 2⌋ : ℤ) ≤ 255
      ∧ 0 ≤ (⌊299 / 1000 * (r : ℚ) + 587 / 1000 * (g : ℚ) + 114 / 1000 * (b : ℚ) + 1 / 2⌋ : ℤ)
      := by
  have hrq : (r : ℚ) ≤ 255 := by exact_mod_cast hr
  have hgq : (g : ℚ) ≤ 255 := by exact_mod_cast hg
  have hbq : (b : ℚ) ≤ 255 := by exact_mod_cast hb
  have hr0 : (0 : ℚ) ≤ r := by positivity
  have hg0 : (0 : ℚ) ≤ g := by positivity
  have hb0 : (0 : ℚ) ≤ b := by positivity
  have h0 : 0 ≤ (⌊299 / 1000 * (r : ℚ) + 587 / 1000 * (g : ℚ) + 114 / 1000 * (b : ℚ)
      + 1 / 2⌋ : ℤ) := Int.floor_nonneg.mpr (by positivity)
  have h255 : (⌊299 / 1000 * (r : ℚ) + 587 / 1000 * (g : ℚ) + 114 / 1000 * (b : ℚ)
      + 1 / 2⌋ : ℤ) ≤ 255 := by
    have : (⌊299 / 1000 * (r : ℚ) + 587 / 1000 * (g : ℚ) + 114 / 1000 * (b : ℚ)
        + 1 / 2⌋ : ℤ) < 256 := by
      rw [Int.floor_lt]
      push_cast
      linarith
    omega
  refine ⟨?_, h255, h0⟩
  unfold maskAlphaOfRGB luminance
  simp only [jsMul_some, jsAdd_some, mathRound_some]
  exact toUint8Clamped_intCast _ h0 h255

theorem preprocessMask_alpha_cell (im : ImageData) (k r g b : Nat)
    (hr : im.data[4 * k]? = some r) (hg : im.data[4 * k + 1]? = some g)
    (hb : im.data[4 * k + 2]? = some b)
    (hout : 4 * k + 3 < 4 * im.width * im.height) :
    (preprocessMask im).data[4 * k + 3]?
      = some (maskAlphaOfRGB (some (r : ℚ)) (some (g : ℚ)) (some (b : ℚ))) := by
  have hlt : 4 * k < im.data.length := by
    by_contra hcon
    rw [List.getElem?_eq_none (by omega)] at hr
    exact absurd hr (by simp)
  rw [preprocessMask_cell im (4 * k) (4 * k + 3) (by omega) hlt
    (Or.inr (Or.inr (Or.inr rfl))), if_pos hout]
  unfold preprocessValue
  rw [if_pos rfl, typedGet_of_some _ _ _ hr, typedGet_of_some _ _ _ hg,
    typedGet_of_some _ _ _ hb]

/-! ## Results on `preprocessMask` -/

/-- C15: the output of `preprocessMask` has the width and the height of its
input and holds exactly `width · height` pixels of four cells. -/
theorem preprocessMask_shape (im : ImageData) :
    (preprocessMask im).width = im.width ∧ (preprocessMask im).height = im.height ∧
    (preprocessMask im).data.length = 4 * (im.width * im.height) := by
  refine ⟨rfl, rfl, ?_⟩
  rw [preprocessMask_length, Nat.mul_assoc]

/-- C16: a pure-white source pixel `(255, 255, 255)` gives output alpha 255
and a pure-black source pixel `(0, 0, 0)` gives output alpha 0. -/
theorem preprocessMask_endpoints (im : ImageData) (k : Nat)
    (hout : 4 * k + 3 < 4 * im.width * im.height) :
    (im.data[4 * k]? = some 255 → im.data[4 * k + 1]? = some 255 →
      im.data[4 * k + 2]? = some 255 → (preprocessMask im).data[4 * k + 3]? = some 255) ∧
    (im.data[4 * k]? = some 0 → im.data[4 * k + 1]? = some 0 →
      im.data[4 * k + 2]? = some 0 → (preprocessMask im).data[4 * k + 3]? = some 0) := by
  constructor
  · intro hr hg hb
    rw [preprocessMask_alpha_cell im k 255 255 255 hr hg hb hout]
    congr 1
    decide!
  · intro hr hg hb
    rw [preprocessMask_alpha_cell im k 0 0 0 hr hg hb hout]
    congr 1
    decide!

theorem preprocessMask_endpoints_witness :
    (preprocessMask ⟨[255, 255, 255, 7, 0, 0, 0, 9], 2, 1⟩).data[4 * 0 + 3]? = some 255 ∧
    (preprocessMask ⟨[255, 255, 255, 7, 0, 0, 0, 9], 2, 1⟩).data[4 * 1 + 3]? = some 0 :=
  ⟨(preprocessMask_endpoints ⟨[255, 255, 255, 7, 0, 0, 0, 9], 2, 1⟩ 0 (by decide)).1
      (by decide) (by decide) (by decide),
    (preprocessMask_endpoints ⟨[255, 255, 255, 7, 0, 0, 0, 9], 2, 1⟩ 1 (by decide)).2
      (by decide) (by decide) (by decide)⟩

/-- C17: for source pixels `(R1, G1, B1)` and `(R2, G2, B2)` with channels in
0..255 and `R1 ≤ R2`, `G1 ≤ G2`, `B1 ≤ B2`, the output alpha of the first is at
most the output alpha of the second, and an output alpha lies in 0..255. -/
theorem preprocessMask_monotone (im1 im2 : ImageData) (k1 k2 r1 g1 b1 r2 g2 b2 : Nat)
    (hr1 : im1.data[4 * k1]? = some r1) (hg1 : im1.data[4 * k1 + 1]? = some g1)
    (hb1 : im1.data[4 * k1 + 2]? = some b1)
    (hr2 : im2.data[4 * k2]? = some r2) (hg2 : im2.data[4 * k2 + 1]? = some g2)
    (hb2 : im2.data[4 * k2 + 2]? = some b2)
    (hout1 : 4 * k1 + 3 < 4 * im1.width * im1.height)
    (hout2 : 4 * k2 + 3 < 4 * im2.width * im2.height)
    (hr : r1 ≤ r2) (hg : g1 ≤ g2) (hb : b1 ≤ b2)
    (hr255 : r2 ≤ 255) (hg255 : g2 ≤ 255) (hb255 : b2 ≤ 255) :
    ∃ a1 a2 : Nat, (preprocessMask im1).data[4 * k1 + 3]? = some a1 ∧
      (preprocessMask im2).data[4 * k2 + 3]? = some a2 ∧ a1 ≤ a2 ∧ a2 ≤ 255 := by
  obtain ⟨e1, _, p1⟩ := maskAlphaOfRGB_eq r1 g1 b1 (by omega) (by omega) (by omega)
  obtain ⟨e2, u2, p2⟩ := maskAlphaOfRGB_eq r2 g2 b2 hr255 hg255 hb255
  refine ⟨_, _, preprocessMask_alpha_cell im1 k1 r1 g1 b1 hr1 hg1 hb1 hout1,
    preprocessMask_alpha_cell im2 k2 r2 g2 b2 hr2 hg2 hb2 hout2, ?_, ?_⟩
  · rw [e1, e2]
    have hrq : (r1 : ℚ) ≤ r2 := by exact_mod_cast hr
    have hgq : (g1 : ℚ) ≤ g2 := by exact_mod_cast hg
    have hbq : (b1 : ℚ) ≤ b2 := by exact_mod_cast hb
    have hmono : (⌊299 / 1000 * (r1 : ℚ) + 587 / 1000 * (g1 : ℚ) + 114 / 1000 * (b1 : ℚ)
        + 1 / 2⌋ : ℤ) ≤ ⌊299 / 1000 * (r2 : ℚ) + 587 / 1000 * (g2 : ℚ)
        + 114 / 1000 * (b2 : ℚ) + 1 / 2⌋ := Int.floor_le_floor (by linarith)
    omega
  · rw [e2]
    omega

theorem preprocessMask_monotone_witness :
    ∃ a1 a2 : Nat,
      (preprocessMask ⟨[10, 20, 30, 7, 200, 20, 30, 9], 2, 1⟩).data[4 * 0 + 3]? = some a1 ∧
      (preprocessMask ⟨[10, 20, 30, 7, 200, 20, 30, 9], 2, 1⟩).data[4 * 1 + 3]? = some a2 ∧
      a1 ≤ a2 ∧ a2 ≤ 255 :=
  preprocessMask_monotone ⟨[10, 20, 30, 7, 200, 20, 30, 9], 2, 1⟩
    ⟨[10, 20, 30, 7, 200, 20, 30, 9], 2, 1⟩ 0 1 10 20 30 200 20 30 (by decide) (by decide)
    (by decide) (by decide) (by decide) (by decide) (by decide) (by decide) (by decide)
    (by decide) (by decide) (by decide) (by decide) (by decide)

/-! ## The manual repair -/

theorem repairPixel_frame (originalData : List Nat) (dataLength : Nat) (random : Nat → Bool)
    (e : Nat × Nat) (data : List Nat) (j : Nat)
    (hj : ¬ repairTarget dataLength random e j) :
    (repairPixel originalData dataLength (random e.1) e.2 data)[j]? = data[j]? := by
  unfold repairPixel
  by_cases hin : repairInBounds dataLength (random e.1) e.2
  · have hin2 := hin
    unfold repairInBounds at hin2
    simp only [if_pos hin2]
    simp only [repairTarget, hin, true_and, not_or] at hj
    obtain ⟨ha, hb, hc⟩ := hj
    rw [List.getElem?_set_ne (Ne.symm hc), List.getElem?_set_ne (Ne.symm hb),
      List.getElem?_set_ne (Ne.symm ha)]
  · have hin2 := hin
    unfold repairInBounds at hin2
    simp only [if_neg hin2]

theorem repairPixel_target (originalData : List Nat) (dataLength : Nat) (random : Nat → Bool)
    (e : Nat × Nat) (data : List Nat) (j : Nat)
    (hj : repairTarget dataLength random e j) :
    (repairPixel originalData dataLength (random e.1) e.2 data)[j]?
      = (data[j]?).map (fun _ => repairValue originalData random e j) := by
  obtain ⟨hin, hcell⟩ := hj
  have hin2 := hin
  unfold repairInBounds at hin2
  unfold repairPixel repairValue repairSource
  simp only [if_pos hin2]
  rcases hcell with rfl | rfl | rfl
  · rw [List.getElem?_set_ne (by omega), List.getElem?_set_ne (by omega),
      List.getElem?_set_self', Nat.sub_self, Nat.add_zero]
    rfl
  · rw [List.getElem?_set_ne (by omega), List.getElem?_set_self',
      List.getElem?_set_ne (by omega), Nat.add_sub_cancel_left]
    rfl
  · rw [List.getElem?_set_self', List.getElem?_set_ne (by omega),
      List.getElem?_set_ne (by omega), Nat.add_sub_cancel_left]
    rfl

theorem mem_markedIndices (data : List Nat) (i : Nat) :
    i ∈ markedIndices data ↔ (i % 4 = 0 ∧ i < data.length) ∧ isMarked data i = true := by
  unfold markedIndices
  rw [List.mem_filter, mem_loopIndices4]

theorem nodup_markedIndices (data : List Nat) : (markedIndices data).Nodup :=
  List.Nodup.filter _ (nodup_loopIndices4 _)

theorem nodup_enum {α : Type} (l : List α) : l.enum.Nodup :=
  List.Nodup.of_map Prod.fst (List.nodup_enum_map_fst l)

theorem enum_separated (data : List Nat) (dataLength : Nat) (random : Nat → Bool)
    (e : Nat × Nat) (he : e ∈ (markedIndices data).enum)
    (e2 : Nat × Nat) (he2 : e2 ∈ (markedIndices data).enum) (hne : e ≠ e2) (j : Nat)
    (hj : repairTarget dataLength random e j) : ¬ repairTarget dataLength random e2 j := by
  rw [List.mem_enum_iff_getElem?] at he he2
  have hm1 := (mem_markedIndices data e.2).mp (List.getElem?_mem he)
  have hm2 := (mem_markedIndices data e2.2).mp (List.getElem?_mem he2)
  have hidx : e.2 ≠ e2.2 := by
    intro heq
    apply hne
    have hlt : e.1 < (markedIndices data).length := by
      by_contra hcon
      rw [List.getElem?_eq_none (by omega)] at he
      exact absurd he (by simp)
    have hsame : (markedIndices data)[e.1]? = (markedIndices data)[e2.1]? := by
      rw [he, he2, heq]
    have := List.getElem?_inj hlt (nodup_markedIndices data) hsame
    exact Prod.ext this heq
  intro hj2
  obtain ⟨_, h1⟩ := hj
  obtain ⟨_, h2⟩ := hj2
  omega

theorem repairAll_untouched (originalData : List Nat) (dataLength : Nat)
    (random : Nat → Bool) (l : List (Nat × Nat)) (data : List Nat) (j : Nat)
    (hj : ∀ e ∈ l, ¬ repairTarget dataLength random e j) :
    (repairAll originalData dataLength random l data)[j]? = data[j]? := by
  unfold repairAll
  have h1 : ∀ e ∈ l, ∀ img : List Nat,
      ((fun (e : Nat × Nat) (acc : List Nat) =>
        repairPixel originalData dataLength (random e.1) e.2 acc) e img)[j]? = img[j]? := by
    intro e he img
    exact repairPixel_frame originalData dataLength random e img j (hj e he)
  exact foldl_untouched _ l j h1 data

theorem repairAll_at (originalData : List Nat) (dataLength : Nat)
    (random : Nat → Bool) (l : List (Nat × Nat)) (data : List Nat) (hnd : l.Nodup)
    (hsep : ∀ e ∈ l, ∀ e2 ∈ l, e ≠ e2 → ∀ j, repairTarget dataLength random e j →
      ¬ repairTarget dataLength random e2 j)
    (e : Nat × Nat) (he : e ∈ l) (j : Nat) (hj : repairTarget dataLength random e j) :
    (repairAll originalData dataLength random l data)[j]?
      = (data[j]?).map (fun _ => repairValue originalData random e j) := by
  unfold repairAll
  exact foldl_pointwise
    (fun (e : Nat × Nat) (acc : List Nat) =>
      repairPixel originalData dataLength (random e.1) e.2 acc)
    (repairTarget dataLength random)
    (fun e j _ => repairValue originalData random e j)
    (fun e img j h => repairPixel_frame originalData dataLength random e img j h)
    (fun e img j h => repairPixel_target originalData dataLength random e img j h)
    l hnd hsep e he j hj data

theorem repairAll_perm (originalData : List Nat) (dataLength : Nat)
    (random : Nat → Bool) (l l2 : List (Nat × Nat)) (data : List Nat) (hnd : l.Nodup)
    (hsep : ∀ e ∈ l, ∀ e2 ∈ l, e ≠ e2 → ∀ j, repairTarget dataLength random e j →
      ¬ repairTarget dataLength random e2 j)
    (hperm : l2.Perm l) :
    repairAll originalData dataLength random l2 data
      = repairAll originalData dataLength random l data := by
  apply List.ext_getElem?
  intro j
  have hnd2 : l2.Nodup := hperm.symm.nodup hnd
  have hsep2 : ∀ e ∈ l2, ∀ e2 ∈ l2, e ≠ e2 → ∀ j, repairTarget dataLength random e j →
      ¬ repairTarget dataLength random e2 j :=
    fun e he e2 he2 => hsep e (hperm.mem_iff.mp he) e2 (hperm.mem_iff.mp he2)
  by_cases hex : ∃ e ∈ l, repairTarget dataLength random e j
  · obtain ⟨e, he, hj⟩ := hex
    rw [repairAll_at originalData dataLength random l data hnd hsep e he j hj,
      repairAll_at originalData dataLength random l2 data hnd2 hsep2 e
        (hperm.mem_iff.mpr he) j hj]
  · have hno : ∀ e ∈ l, ¬ repairTarget dataLength random e j :=
      fun e he h => hex ⟨e, he, h⟩
    rw [repairAll_untouched originalData dataLength random l data j hno,
      repairAll_untouched originalData dataLength random l2 data j
        (fun e he => hno e (hperm.mem_iff.mp he))]

theorem isMarked_iff (data : List Nat) (i r g b : Nat) (hr : data[i]? = some r)
    (hg : data[i + 1]? = some g) (hb : data[i + 2]? = some b) :
    isMarked data i = true ↔ g + 20 < r ∧ b + 20 < r := by
  unfold isMarked
  rw [typedGet_of_some _ _ _ hr, typedGet_of_some _ _ _ hg, typedGet_of_some _ _ _ hb]
  simp only [jsAdd_some, jsGt_some, Bool.and_eq_true, decide_eq_true_eq]
  constructor
  · rintro ⟨h1, h2⟩
    have h1n : g + 20 < r := by exact_mod_cast h1
    have h2n : b + 20 < r := by exact_mod_cast h2
    exact ⟨h1n, h2n⟩
  · rintro ⟨h1, h2⟩
    have h1q : ((g + 20 : Nat) : ℚ) < r := by exact_mod_cast h1
    have h2q : ((b + 20 : Nat) : ℚ) < r := by exact_mod_cast h2
    push_cast at h1q h2q
    exact ⟨h1q, h2q⟩

theorem isMarked_defined (data : List Nat) (i : Nat) (h : isMarked data i = true) :
    i + 2 < data.length := by
  by_contra hcon
  unfold isMarked at h
  rw [typedGet_of_none data (i + 2) (List.getElem?_eq_none (by omega))] at h
  cases h2 : typedGet data i <;> simp [h2, jsAdd, jsGt, jsLt] at h

theorem toUint8Clamped_byte (v : Nat) (hv : v ≤ 255) : toUint8Clamped (some (v : ℚ)) = v := by
  have := toUint8Clamped_intCast (v : ℤ) (by omega) (by omega)
  simpa using this

theorem handleManualRemove_untouched (data originalData : List Nat) (random : Nat → Bool)
    (j : Nat) (hj : ∀ i ∈ markedIndices data, j ≠ i ∧ j ≠ i + 1 ∧ j ≠ i + 2) :
    (handleManualRemove data originalData random)[j]? = data[j]? := by
  unfold handleManualRemove
  apply repairAll_untouched
  intro e he ht
  rw [List.mem_enum_iff_getElem?] at he
  have := hj e.2 (List.getElem?_mem he)
  obtain ⟨_, h2⟩ := ht
  omega

theorem handleManualRemove_marked (data originalData : List Nat) (random : Nat → Bool)
    (n i k : Nat) (hn : (markedIndices data)[n]? = some i) (hk : k < 3)
    (hin : repairInBounds data.length (random n) i) :
    (handleManualRemove data originalData random)[i + k]?
      = some (toUint8Clamped (typedGet originalData (repairSource (random n) i + k))) := by
  have hmem := (mem_markedIndices data i).mp (List.getElem?_mem hn)
  have hdef := isMarked_defined data i hmem.2
  unfold handleManualRemove
  rw [repairAll_at originalData data.length random _ data (nodup_enum _)
    (fun e he e2 he2 hne j hj => enum_separated data data.length random e he e2 he2 hne j hj)
    (n, i) (List.mem_enum_iff_getElem?.mpr hn) (i + k) ⟨hin, by simp only []; omega⟩]
  rw [List.getElem?_eq_getElem (by omega), Option.map_some']
  unfold repairValue
  simp only [Nat.add_sub_cancel_left]

theorem handleManualRemove_skipped (data originalData : List Nat) (random : Nat → Bool)
    (n i k : Nat) (hn : (markedIndices data)[n]? = some i) (hk : k < 4)
    (hout : ¬ repairInBounds data.length (random n) i) :
    (handleManualRemove data originalData random)[i + k]? = data[i + k]? := by
  have hmem := (mem_markedIndices data i).mp (List.getElem?_mem hn)
  unfold handleManualRemove
  apply repairAll_untouched
  intro e he ht
  rw [List.mem_enum_iff_getElem?] at he
  have hmem2 := (mem_markedIndices data e.2).mp (List.getElem?_mem he)
  obtain ⟨hin, hcell⟩ := ht
  have heq : e.2 = i := by omega
  have hlt : e.1 < (markedIndices data).length := by
    by_contra hcon
    rw [List.getElem?_eq_none (by omega)] at he
    exact absurd he (by simp)
  have hsame : (markedIndices data)[e.1]? = (markedIndices data)[n]? := by
    rw [he, hn, heq]
  have h1 := List.getElem?_inj hlt (nodup_markedIndices data) hsame
  rw [h1, heq] at hin
  exact hout hin

/-! ## Results on the manual repair -/

/-- C18: a pixel that fails the red-dominance test in the marked-up buffer
(not both `R > G + 20` and `R > B + 20`, so also a pixel with `R = G + 20`)
has all four channels unchanged by the manual repair, whatever the original
and the random outcomes. -/
theorem manualRepair_unmarked (data originalData : List Nat) (random : Nat → Bool)
    (p r g b k : Nat) (hr : data[4 * p]? = some r) (hg : data[4 * p + 1]? = some g)
    (hb : data[4 * p + 2]? = some b) (hfail : ¬ (g + 20 < r ∧ b + 20 < r)) (hk : k < 4) :
    (handleManualRemove data originalData random)[4 * p + k]? = data[4 * p + k]? := by
  apply handleManualRemove_untouched
  intro i hi
  have hmem := (mem_markedIndices data i).mp hi
  by_cases heq : i = 4 * p
  · subst heq
    exact absurd ((isMarked_iff data (4 * p) r g b hr hg hb).mp hmem.2) hfail
  · omega

theorem manualRepair_unmarked_witness :
    ¬ (100 + 20 < 120 ∧ 0 + 20 < 120) ∧
    (handleManualRemove [255, 0, 0, 255, 120, 100, 0, 255] [1, 2, 3, 255, 4, 5, 6, 255]
        (fun _ => true))[4 * 1 + 0]?
      = [255, 0, 0, 255, 120, 100, 0, 255][4 * 1 + 0]? :=
  ⟨by decide, manualRepair_unmarked [255, 0, 0, 255, 120, 100, 0, 255]
    [1, 2, 3, 255, 4, 5, 6, 255] (fun _ => true) 1 120 100 0 0 (by decide) (by decide)
    (by decide) (by decide) (by decide)⟩

/-- C19: for the `n`-th marked pixel, at pixel position `p` of the buffer,
the repair leaves in its R, G, B the original buffer's R, G, B at pixel
`p + 20` (random outcome true) or `p − 20` (false) when that position is
inside the buffer, and leaves the pixel as it was when it is outside; the
values come from the original only, and processing the marked pixels in any
other order gives the same buffer. -/
theorem manualRepair_copies_original (data originalData : List Nat) (random : Nat → Bool)
    (n p : Nat) (hn : (markedIndices data)[n]? = some (4 * p)) :
    (random n = true → 4 * p + 80 < data.length → ∀ k, k < 3 → ∀ v,
      originalData[4 * (p + 20) + k]? = some v → v ≤ 255 →
      (handleManualRemove data originalData random)[4 * p + k]? = some v) ∧
    (random n = false → 20 ≤ p → ∀ k, k < 3 → ∀ v,
      originalData[4 * (p - 20) + k]? = some v → v ≤ 255 →
      (handleManualRemove data originalData random)[4 * p + k]? = some v) ∧
    (random n = true → data.length ≤ 4 * p + 80 → ∀ k, k < 4 →
      (handleManualRemove data originalData random)[4 * p + k]? = data[4 * p + k]?) ∧
    (random n = false → p < 20 → ∀ k, k < 4 →
      (handleManualRemove data originalData random)[4 * p + k]? = data[4 * p + k]?) ∧
    (∀ l2 : List (Nat × Nat), l2.Perm (markedIndices data).enum →
      repairAll originalData data.length random l2 data
        = handleManualRemove data originalData random) := by
  have hmem := (mem_markedIndices data (4 * p)).mp (List.getElem?_mem hn)
  refine ⟨?_, ?_, ?_, ?_, ?_⟩
  · intro hrand hlt k hk v hv hv255
    have hin : repairInBounds data.length (random n) (4 * p) := by
      unfold repairInBounds; rw [hrand]; simp only [if_true]; omega
    rw [handleManualRemove_marked data originalData random n (4 * p) k hn hk hin]
    have hsrc : repairSource (random n) (4 * p) + k = 4 * (p + 20) + k := by
      unfold repairSource; rw [hrand]; simp only [if_true]; omega
    rw [hsrc, typedGet_of_some _ _ _ hv, toUint8Clamped_byte v hv255]
  · intro hrand hp k hk v hv hv255
    have hin : repairInBounds data.length (random n) (4 * p) := by
      unfold repairInBounds; rw [hrand]; simp only [Bool.false_eq_true, if_false]; omega
    rw [handleManualRemove_marked data originalData random n (4 * p) k hn hk hin]
    have hsrc : repairSource (random n) (4 * p) + k = 4 * (p - 20) + k := by
      unfold repairSource; rw [hrand]; simp only [Bool.false_eq_true, if_false]; omega
    rw [hsrc, typedGet_of_some _ _ _ hv, toUint8Clamped_byte v hv255]
  · intro hrand hge k hk
    apply handleManualRemove_skipped data originalData random n (4 * p) k hn hk
    unfold repairInBounds; rw [hrand]; simp only [if_true]; omega
  · intro hrand hp k hk
    apply handleManualRemove_skipped data originalData random n (4 * p) k hn hk
    unfold repairInBounds; rw [hrand]; simp only [Bool.false_eq_true, if_false]; omega
  · intro l2 hperm
    unfold handleManualRemove
    exact repairAll_perm originalData data.length random _ l2 data (nodup_enum _)
      (fun e he e2 he2 hne j hj => enum_separated data data.length random e he e2 he2 hne j hj)
      hperm

theorem manualRepair_copies_original_witness :
    (handleManualRemove ([255, 0, 0, 255] ++ List.replicate 80 0)
        (List.replicate 80 0 ++ [11, 22, 33, 255]) (fun _ => true))[4 * 0 + 1]? = some 22 :=
  (manualRepair_copies_original ([255, 0, 0, 255] ++ List.replicate 80 0)
    (List.replicate 80 0 ++ [11, 22, 33, 255]) (fun _ => true) 0 0 (by decide!)).1
    rfl (by decide) 1 (by decide) 22 (by decide) (by decide)

/-- C20 (the code on a narrow image): in a 7 × 3 image the marked pixel
`(0, 0)` is repaired, for the random outcome `Math.random() > 0.5`, with the
original pixel at buffer index `0 + 20 · 4 = 80`, which is pixel `(6, 2)`: two
rows further down, and not column 20 of row 0, which does not exist. -/
theorem manualRepair_leaves_row :
    handleManualRemove ([255, 0, 0, 255] ++ List.replicate 80 0)
        (List.replicate 80 0 ++ [11, 22, 33, 255]) (fun _ => true)
      = [11, 22, 33, 255] ++ List.replicate 80 0 ∧
    ([255, 0, 0, 255] ++ List.replicate 80 0).length = 4 * 7 * 3 ∧
    pixelIndex 7 0 0 = 0 ∧ pixelIndex 7 6 2 = 80 := by
  decide!

/-! ## `loadMasks` and the configuration -/

theorem loadMasksFrom_get_foldl (decode : String → Option ImageData)
    (configs : List MaskConfig) (init : MaskMap) (k : Nat)
    (hk : ∀ c ∈ configs, c.size ≠ k) :
    (configs.foldl (loadMasksStep decode) init).get k = init.get k := by
  induction configs generalizing init with
  | nil => rfl
  | cons c cs ih =>
    rw [List.foldl_cons, ih _ (fun c2 h2 => hk c2 (List.mem_cons_of_mem _ h2))]
    unfold loadMasksStep
    cases hd : decode c.path with
    | none => rfl
    | some raw =>
      simp only []
      rw [MaskMap.get_set, if_neg (fun h => hk c (List.mem_cons_self _ _) h.symm)]

theorem loadMasksFrom_get_entry (decode : String → Option ImageData)
    (configs : List MaskConfig) (init : MaskMap)
    (hnd : (configs.map MaskConfig.size).Nodup) (hinit : ∀ c ∈ configs, init.get c.size = none)
    (c : MaskConfig) (hc : c ∈ configs) :
    (configs.foldl (loadMasksStep decode) init).get c.size
      = (decode c.path).map (maskAsset c) := by
  induction configs generalizing init with
  | nil => simp at hc
  | cons d ds ih =>
    rw [List.map_cons, List.nodup_cons] at hnd
    rw [List.foldl_cons]
    rcases List.mem_cons.mp hc with rfl | hmem
    · rw [loadMasksFrom_get_foldl decode ds _ c.size (by
        intro c2 h2 heq
        exact hnd.1 (List.mem_map.mpr ⟨c2, h2, heq⟩))]
      unfold loadMasksStep
      cases hd : decode c.path with
      | none => exact hinit c (List.mem_cons_self _ _)
      | some raw =>
        simp only [Option.map_some']
        rw [MaskMap.get_set, if_pos rfl]
    · apply ih _ hnd.2 _ hmem
      intro c2 h2
      unfold loadMasksStep
      cases hd : decode d.path with
      | none => exact hinit c2 (List.mem_cons_of_mem _ h2)
      | some raw =>
        simp only []
        rw [MaskMap.get_set, if_neg (by
          intro heq
          exact hnd.1 (List.mem_map.mpr ⟨c2, h2, heq⟩))]
        exact hinit c2 (List.mem_cons_of_mem _ h2)

theorem loadMasksFrom_get_nil (k : Nat) : MaskMap.get [] k = none := rfl

/-- C21: whatever the outcome of decoding each configured entry, `loadMasks`
returns a map in which nominal size 96 and nominal size 48 are present
exactly when their own bitmap decoded, each with the bitmap's own width and
height, its preprocessed data and the configured margin, and no other key is
present; the same holds for any list of configurations with distinct sizes,
and an entry that fails does not keep a later one from loading. -/
theorem loadMasks_tolerates_failure (decode : String → Option ImageData) :
    (loadMasks decode).get 96
      = (decode "/assets/mask_96.png").map
          (fun raw => { data := (preprocessMask raw).data, width := raw.width,
                        height := raw.height, margin := 64 }) ∧
    (loadMasks decode).get 48
      = (decode "/assets/mask_48.png").map
          (fun raw => { data := (preprocessMask raw).data, width := raw.width,
                        height := raw.height, margin := 32 }) ∧
    (∀ k, k ≠ 96 → k ≠ 48 → (loadMasks decode).get k = none) ∧
    (∀ configs : List MaskConfig, (configs.map MaskConfig.size).Nodup →
      (∀ c ∈ configs, (loadMasksFrom decode configs).get c.size
        = (decode c.path).map
            (fun raw => { data := (preprocessMask raw).data, width := raw.width,
                          height := raw.height, margin := c.margin })) ∧
      (∀ k, (∀ c ∈ configs, c.size ≠ k) → (loadMasksFrom decode configs).get k = none)) ∧
    (∀ raw : ImageData,
      loadMasks (fun path => if path = "/assets/mask_48.png" then some raw else none)
        = [(48, { data := (preprocessMask raw).data, width := raw.width,
                  height := raw.height, margin := 32 })]) := by
  have hgen : ∀ configs : List MaskConfig, (configs.map MaskConfig.size).Nodup →
      (∀ c ∈ configs, (loadMasksFrom decode configs).get c.size
        = (decode c.path).map
            (fun raw => { data := (preprocessMask raw).data, width := raw.width,
                          height := raw.height, margin := c.margin })) ∧
      (∀ k, (∀ c ∈ configs, c.size ≠ k) → (loadMasksFrom decode configs).get k = none) := by
    intro configs hnd
    constructor
    · intro c hc
      exact loadMasksFrom_get_entry decode configs [] hnd (fun _ _ => rfl) c hc
    · intro k hk
      unfold loadMasksFrom
      rw [loadMasksFrom_get_foldl decode configs [] k hk]
      rfl
  have hnd : (MASK_CONFIGS.map MaskConfig.size).Nodup := by decide
  obtain ⟨h1, h2⟩ := hgen MASK_CONFIGS hnd
  refine ⟨?_, ?_, ?_, hgen, ?_⟩
  · exact h1 ⟨96, "/assets/mask_96.png", 64⟩ (by decide)
  · exact h1 ⟨48, "/assets/mask_48.png", 32⟩ (by decide)
  · intro k h96 h48
    apply h2
    intro c hc
    have : c = ⟨96, "/assets/mask_96.png", 64⟩ ∨ c = ⟨48, "/assets/mask_48.png", 32⟩ := by
      simpa [MASK_CONFIGS] using hc
    rcases this with rfl | rfl
    · exact fun h => h96 h.symm
    · exact fun h => h48 h.symm
  · intro raw
    unfold loadMasks loadMasksFrom MASK_CONFIGS
    simp [loadMasksStep, MaskMap.set, maskAsset]

/-- C22: `MASK_CONFIGS` has exactly two entries, nominal size 96 with margin
64 and nominal size 48 with margin 32, the sizes are distinct, and every size
`selectMask` can select is a configured size. -/
theorem maskConfigs_cover_selection :
    MASK_CONFIGS.length = 2 ∧
    MASK_CONFIGS.map (fun c => (c.size, c.margin)) = [(96, 64), (48, 32)] ∧
    (MASK_CONFIGS.map MaskConfig.size).Nodup ∧
    (∀ c ∈ MASK_CONFIGS, 0 ≤ c.margin) ∧
    (∀ width height : Nat, selectedSize width height ∈ MASK_CONFIGS.map MaskConfig.size) ∧
    (∀ (width height : Nat) (masks : MaskMap),
      selectMask width height masks = masks.get 96 ∨
      selectMask width height masks = masks.get 48) := by
  refine ⟨rfl, rfl, by decide, fun c _ => Nat.zero_le _, ?_, ?_⟩
  · intro width height
    unfold selectedSize
    split_ifs <;> decide
  · intro width height masks
    unfold selectMask selectedSize
    split_ifs
    · exact Or.inl rfl
    · exact Or.inr rfl

/-! ## Safety of `reverseAlphaBlend` -/

theorem imgIdxOf_lt (mask : Mask) (imgWidth imgHeight my mx : Nat)
    (hin : inImage mask imgWidth imgHeight my mx) :
    imgIdxOf mask imgWidth imgHeight my mx + 3 < 4 * imgWidth * imgHeight := by
  unfold inImage at hin
  have hx : (((offsetX mask imgWidth + (mx : Int)).toNat : Nat) : Int)
      = offsetX mask imgWidth + mx := Int.toNat_of_nonneg (by omega)
  have hy : (((offsetY mask imgHeight + (my : Int)).toNat : Nat) : Int)
      = offsetY mask imgHeight + my := Int.toNat_of_nonneg (by omega)
  rw [imgIdxOf_eq_pixelIndex mask imgWidth imgHeight my mx _ _ hx hy]
  apply pixel_in_buffer <;> omega

theorem maskIdxOf_lt (mask : Mask) (my mx : Nat) (hmy : my < mask.height)
    (hmx : mx < mask.width) : maskIdxOf mask my mx + 3 < 4 * mask.width * mask.height :=
  pixel_in_buffer mask.width mask.height mx my hmx hmy

/-- C23: with an image buffer of `4·imgWidth·imgHeight` cells and a mask
buffer of `4·maskWidth·maskHeight` cells, whatever the sizes and the margin,
every index the loop body reads or writes is within its buffer; a mask pixel
that maps outside the image leaves the buffer as it is, and a mask pixel that
maps inside is processed as usual even when others fall outside. -/
theorem reverseAlphaBlend_in_range (imgData : List Nat) (mask : Mask)
    (imgWidth imgHeight : Nat) (alphaIntensity : JSNum) (my mx : Nat)
    (himg : imgData.length = 4 * imgWidth * imgHeight)
    (hmask : mask.data.length = 4 * mask.width * mask.height)
    (hmy : my < mask.height) (hmx : mx < mask.width) :
    (∀ i ∈ blendMaskReads mask imgWidth imgHeight alphaIntensity my mx,
      i < mask.data.length) ∧
    (∀ i ∈ blendImageAccesses mask imgWidth imgHeight alphaIntensity my mx,
      i < imgData.length) ∧
    (¬ inImage mask imgWidth imgHeight my mx →
      ∀ img : List Nat, blendPixel mask imgWidth imgHeight alphaIntensity my mx img = img) ∧
    (inImage mask imgWidth imgHeight my mx → ∀ k, k < 3 →
      (reverseAlphaBlend imgData mask imgWidth imgHeight alphaIntensity)[
          imgIdxOf mask imgWidth imgHeight my mx + k]?
        = (imgData[imgIdxOf mask imgWidth imgHeight my mx + k]?).map
            (unblendValue mask alphaIntensity (maskIdxOf mask my mx) k)) := by
  have hm := maskIdxOf_lt mask my mx hmy hmx
  unfold maskIdxOf at hm
  refine ⟨?_, ?_, ?_, ?_⟩
  · intro i hi
    unfold blendMaskReads at hi
    simp only [] at hi
    split_ifs at hi <;> simp at hi <;> omega
  · intro i hi
    by_cases hin : inImage mask imgWidth imgHeight my mx
    · have hlt := imgIdxOf_lt mask imgWidth imgHeight my mx hin
      unfold imgIdxOf at hlt
      unfold blendImageAccesses at hi
      simp only [] at hi
      split_ifs at hi <;> simp at hi
      omega
    · unfold inImage at hin
      unfold blendImageAccesses at hi
      simp only [] at hi
      rw [if_pos (not_not.mp hin)] at hi
      simp at hi
  · intro hout img
    unfold inImage at hout
    unfold blendPixel
    simp only []
    rw [if_pos (not_not.mp hout)]
  · intro hin k hk
    exact reverseAlphaBlend_at imgData mask imgWidth imgHeight alphaIntensity my mx k
      hmy hmx hk hin

theorem reverseAlphaBlend_in_range_witness :
    (∀ i ∈ blendMaskReads ⟨[255, 255, 255, 128, 255, 255, 255, 128], 2, 1, 0⟩ 1 1 (some 1) 0 1,
      i < 8) ∧
    (∀ i ∈ blendImageAccesses ⟨[255, 255, 255, 128, 255, 255, 255, 128], 2, 1, 0⟩ 1 1
        (some 1) 0 1, i < 4) ∧
    blendImageAccesses ⟨[255, 255, 255, 128, 255, 255, 255, 128], 2, 1, 0⟩ 1 1
        (some 1) 0 1 = [0, 1, 2] ∧
    blendImageAccesses ⟨[255, 255, 255, 128, 255, 255, 255, 128], 2, 1, 0⟩ 1 1
        (some 1) 0 0 = [] ∧
    reverseAlphaBlend [200, 254, 255, 255] ⟨[255, 255, 255, 128, 255, 255, 255, 128], 2, 1, 0⟩
        1 1 (some 1) = [145, 253, 255, 255] :=
  ⟨(reverseAlphaBlend_in_range [200, 254, 255, 255]
      ⟨[255, 255, 255, 128, 255, 255, 255, 128], 2, 1, 0⟩ 1 1 (some 1) 0 1
      (by decide) (by decide) (by decide) (by decide)).1,
    (reverseAlphaBlend_in_range [200, 254, 255, 255]
      ⟨[255, 255, 255, 128, 255, 255, 255, 128], 2, 1, 0⟩ 1 1 (some 1) 0 1
      (by decide) (by decide) (by decide) (by decide)).2.1,
    by decide!, by decide!, by decide!⟩

/-- C24: whatever the mask alpha byte and the intensity, the blend weight
after the clamp is never above 0.99 (it is `min(a/255 · intensity, 0.99)` when
it is a number), the divisor `1 − α` is never zero or negative and, when a
number, at least 0.01, and the test `invAlpha < 0.01` of the fully-covered
branch is never true. -/
theorem blendAlpha_clamped (mask : Mask) (alphaIntensity : JSNum) (maskIdx : Nat) :
    jsGt (blendAlpha mask alphaIntensity maskIdx) (some (99 / 100)) = false ∧
    (∀ α : ℚ, blendAlpha mask alphaIntensity maskIdx = some α →
      α ≤ 99 / 100 ∧ 1 / 100 ≤ 1 - α ∧
      jsSub (some 1) (blendAlpha mask alphaIntensity maskIdx) = some (1 - α)) ∧
    (∀ d : ℚ, jsSub (some 1) (blendAlpha mask alphaIntensity maskIdx) = some d → 0 < d) ∧
    jsLt (jsSub (some 1) (blendAlpha mask alphaIntensity maskIdx)) (some (1 / 100)) = false ∧
    (∀ a : Nat, ∀ i : ℚ, mask.data[maskIdx + 3]? = some a → alphaIntensity = some i →
      blendAlpha mask alphaIntensity maskIdx = some (min ((a : ℚ) / 255 * i) (99 / 100))) := by
  have key : ∀ α : ℚ, blendAlpha mask alphaIntensity maskIdx = some α → α ≤ 99 / 100 := by
    intro α h
    unfold blendAlpha at h
    cases hx : jsMul (jsDiv (typedGet mask.data (maskIdx + 3)) (some 255)) alphaIntensity with
    | none => rw [hx] at h; simp [mathMin] at h
    | some x =>
      rw [hx, mathMin_some] at h
      rw [← Option.some.inj h]
      exact min_le_right _ _
  refine ⟨?_, ?_, ?_, ?_, ?_⟩
  · cases h : blendAlpha mask alphaIntensity maskIdx with
    | none => rfl
    | some α =>
      have hle := key α h
      rw [jsGt_some]
      simp only [decide_eq_false_iff_not, not_lt]
      exact hle
  · intro α h
    have hle := key α h
    refine ⟨hle, by linarith, ?_⟩
    rw [h, jsSub_some]
  · intro d hd
    cases h : blendAlpha mask alphaIntensity maskIdx with
    | none => rw [h] at hd; simp [jsSub] at hd
    | some α =>
      have hle := key α h
      rw [h, jsSub_some] at hd
      rw [← Option.some.inj hd]
      linarith
  · cases h : blendAlpha mask alphaIntensity maskIdx with
    | none => rfl
    | some α =>
      have hle := key α h
      rw [jsSub_some, jsLt_some]
      simp only [decide_eq_false_iff_not, not_lt]
      linarith
  · intro a i ha hi
    unfold blendAlpha
    rw [typedGet_of_some _ _ _ ha, hi]
    simp only [jsDiv_some, jsMul_some, mathMin_some]

/-- C30: `reverseAlphaBlend` leaves the fourth channel of every pixel as it
was, inside and outside the footprint, and does not change the length of the
buffer. -/
theorem reverseAlphaBlend_alpha_channel (imgData : List Nat) (mask : Mask)
    (imgWidth imgHeight : Nat) (alphaIntensity : JSNum) :
    (∀ p : Nat, (reverseAlphaBlend imgData mask imgWidth imgHeight alphaIntensity)[4 * p + 3]?
      = imgData[4 * p + 3]?) ∧
    (reverseAlphaBlend imgData mask imgWidth imgHeight alphaIntensity).length
      = imgData.length := by
  constructor
  · intro p
    apply reverseAlphaBlend_untouched
    intro q _ ht
    obtain ⟨hin, hcell⟩ := ht
    unfold inImage at hin
    unfold imgIdxOf at hcell
    have hnn : 0 ≤ (offsetY mask imgHeight + (q.1 : Int)) * (imgWidth : Int)
        + (offsetX mask imgWidth + (q.2 : Int)) := by
      have : 0 ≤ (offsetY mask imgHeight + (q.1 : Int)) * (imgWidth : Int) :=
        mul_nonneg (by omega) (by omega)
      omega
    generalize (offsetY mask imgHeight + (q.1 : Int)) * (imgWidth : Int)
        + (offsetX mask imgWidth + (q.2 : Int)) = z at hnn hcell
    omega
  · rw [reverseAlphaBlend_eq_foldl]
    exact foldl_length
      (fun (p : Nat × Nat) acc => blendPixel mask imgWidth imgHeight alphaIntensity p.1 p.2 acc)
      _ (fun p img => blendPixel_length mask imgWidth imgHeight alphaIntensity p.1 p.2 img)
      imgData

/-! ## Per-channel arithmetic of unblending a white watermark -/

theorem reverseAlphaBlend_channel (imgData : List Nat) (mask : Mask)
    (imgWidth imgHeight : Nat) (i : ℚ) (my mx x y k a w c : Nat)
    (hmy : my < mask.height) (hmx : mx < mask.width)
    (hx : (x : Int) = offsetX mask imgWidth + mx)
    (hy : (y : Int) = offsetY mask imgHeight + my)
    (hxW : x < imgWidth) (hyH : y < imgHeight) (hk : k < 3)
    (ha : mask.data[maskIdxOf mask my mx + 3]? = some a)
    (hw : mask.data[maskIdxOf mask my mx + k]? = some w)
    (hc : imgData[pixelIndex imgWidth x y + k]? = some c)
    (hα : 1 / 100 ≤ min ((a : ℚ) / 255 * i) (99 / 100)) :
    (reverseAlphaBlend imgData mask imgWidth imgHeight (some i))[pixelIndex imgWidth x y + k]?
      = some (unblendFormula c w (min ((a : ℚ) / 255 * i) (99 / 100))) := by
  have hin := inImage_of_coords mask imgWidth imgHeight my mx x y hx hy hxW hyH
  have hidx := imgIdxOf_eq_pixelIndex mask imgWidth imgHeight my mx x y hx hy
  have h := reverseAlphaBlend_at imgData mask imgWidth imgHeight (some i) my mx k hmy hmx hk hin
  rw [hidx, hc, Option.map_some', unblendValue_formula mask i _ k c a w ha hw hα] at h
  exact h

theorem unblendFormula_exact (c o : Nat) (α : ℚ) (hα : α ≤ 99 / 100) (ho : o ≤ 255)
    (hexact : (c : ℚ) = (o : ℚ) * (1 - α) + 255 * α) : unblendFormula c 255 α = o := by
  unfold unblendFormula
  have hne : (1 - α) ≠ 0 := by linarith
  have hval : ((c : ℚ) - ((255 : Nat) : ℚ) * α) / (1 - α) = (o : ℚ) := by
    rw [hexact]
    push_cast
    field_simp
  rw [hval]
  have hfl : (⌊(o : ℚ) + 1 / 2⌋ : ℤ) = (o : ℤ) := by
    rw [Int.floor_eq_iff]
    push_cast
    constructor <;> linarith
  rw [hfl]
  omega

theorem roundTrip_channel (o a : Nat) (ho : o ≤ 255) (h3 : 3 ≤ a) (h170 : a ≤ 170) :
    ((unblendFormula (compositeByte o a) 255 ((a : ℚ) / 255) : Nat) : ℤ) - o ≤ 1 ∧
    (o : ℤ) - (unblendFormula (compositeByte o a) 255 ((a : ℚ) / 255) : Nat) ≤ 1 := by
  have hcb := compositeByte_bounds o a (by omega)
  have hfb := unblend_floor_bounds (compositeByte o a) a (by omega)
  have hrt := roundTrip_arith o a (compositeByte o a) _ (by omega) (by omega)
    hcb.1 hcb.2 hfb.1 hfb.2
  unfold unblendFormula
  omega

/-- C25: for an original channel value `o` in 0..255 and a blend weight `α`
with `0.01 ≤ α ≤ 0.99`, if the image channel `c` equals `o·(1 − α) + 255·α`
exactly, the value `reverseAlphaBlend` writes under a white mask pixel is
`o`. -/
theorem reverseAlphaBlend_exact_inverse (imgData : List Nat) (mask : Mask)
    (imgWidth imgHeight : Nat) (i : ℚ) (my mx x y k a c o : Nat)
    (hmy : my < mask.height) (hmx : mx < mask.width)
    (hx : (x : Int) = offsetX mask imgWidth + mx)
    (hy : (y : Int) = offsetY mask imgHeight + my)
    (hxW : x < imgWidth) (hyH : y < imgHeight) (hk : k < 3)
    (ha : mask.data[maskIdxOf mask my mx + 3]? = some a)
    (hw : mask.data[maskIdxOf mask my mx + k]? = some 255)
    (hc : imgData[pixelIndex imgWidth x y + k]? = some c)
    (hα : 1 / 100 ≤ min ((a : ℚ) / 255 * i) (99 / 100))
    (ho : o ≤ 255)
    (hexact : (c : ℚ) = (o : ℚ) * (1 - min ((a : ℚ) / 255 * i) (99 / 100))
      + 255 * min ((a : ℚ) / 255 * i) (99 / 100)) :
    (reverseAlphaBlend imgData mask imgWidth imgHeight (some i))[pixelIndex imgWidth x y + k]?
      = some o := by
  rw [reverseAlphaBlend_channel imgData mask imgWidth imgHeight i my mx x y k a 255 c
    hmy hmx hx hy hxW hyH hk ha hw hc hα,
    unblendFormula_exact c o _ (min_le_right _ _) ho hexact]

theorem reverseAlphaBlend_exact_inverse_witness :
    ((153 : Nat) : ℚ) = ((136 : Nat) : ℚ) * (1 - min (((51 : Nat) : ℚ) / 255 * (5 / 7 : ℚ)) (99 / 100))
      + 255 * min (((51 : Nat) : ℚ) / 255 * (5 / 7 : ℚ)) (99 / 100) ∧
    (reverseAlphaBlend [153, 0, 0, 255] ⟨[255, 255, 255, 51], 1, 1, 0⟩ 1 1
        (some (5 / 7)))[pixelIndex 1 0 0 + 0]? = some 136 :=
  ⟨by decide!, reverseAlphaBlend_exact_inverse [153, 0, 0, 255] ⟨[255, 255, 255, 51], 1, 1, 0⟩
    1 1 (5 / 7) 0 0 0 0 0 51 153 136 (by decide) (by decide) (by decide) (by decide)
    (by decide) (by decide) (by decide) (by decide) (by decide) (by decide) (by decide!)
    (by decide) (by decide!)⟩

/-- C26: for an original channel value `o` in 0..255 and a mask alpha byte
`a` with `3 ≤ a ≤ 127`, if the image channel is the 8-bit composite
`round(o·(1 − α) + 255·α)`, `α = a/255`, then `reverseAlphaBlend` at intensity
1.0 writes a value at most 1 away from `o`. -/
theorem reverseAlphaBlend_roundTrip_moderate (imgData : List Nat) (mask : Mask)
    (imgWidth imgHeight : Nat) (my mx x y k a o : Nat)
    (hmy : my < mask.height) (hmx : mx < mask.width)
    (hx : (x : Int) = offsetX mask imgWidth + mx)
    (hy : (y : Int) = offsetY mask imgHeight + my)
    (hxW : x < imgWidth) (hyH : y < imgHeight) (hk : k < 3)
    (ha : mask.data[maskIdxOf mask my mx + 3]? = some a)
    (hw : mask.data[maskIdxOf mask my mx + k]? = some 255)
    (hc : imgData[pixelIndex imgWidth x y + k]? = some (compositeByte o a))
    (ho : o ≤ 255) (ha3 : 3 ≤ a) (ha127 : a ≤ 127) :
    ∃ v : Nat,
      (reverseAlphaBlend imgData mask imgWidth imgHeight ALPHA_INTENSITY)[
          pixelIndex imgWidth x y + k]? = some v ∧
      (v : ℤ) - o ≤ 1 ∧ (o : ℤ) - v ≤ 1 := by
  have haq3 : (3 : ℚ) ≤ a := by exact_mod_cast ha3
  have haq127 : (a : ℚ) ≤ 127 := by exact_mod_cast ha127
  have hmin : min ((a : ℚ) / 255 * 1) (99 / 100) = (a : ℚ) / 255 := by
    rw [mul_one]
    exact min_eq_left (by linarith)
  have hα : (1 : ℚ) / 100 ≤ min ((a : ℚ) / 255 * 1) (99 / 100) := by
    rw [hmin]; linarith
  have h := reverseAlphaBlend_channel imgData mask imgWidth imgHeight 1 my mx x y k a 255
    (compositeByte o a) hmy hmx hx hy hxW hyH hk ha hw hc hα
  rw [hmin] at h
  exact ⟨_, h, roundTrip_channel o a ho ha3 (by omega)⟩

theorem reverseAlphaBlend_roundTrip_moderate_witness :
    ∃ v : Nat,
      (reverseAlphaBlend [compositeByte 200 127, 0, 0, 255] ⟨[255, 255, 255, 127], 1, 1, 0⟩
          1 1 ALPHA_INTENSITY)[pixelIndex 1 0 0 + 0]? = some v ∧
      (v : ℤ) - (200 : Nat) ≤ 1 ∧ ((200 : Nat) : ℤ) - v ≤ 1 :=
  reverseAlphaBlend_roundTrip_moderate [compositeByte 200 127, 0, 0, 255]
    ⟨[255, 255, 255, 127], 1, 1, 0⟩ 1 1 0 0 0 0 0 127 200 (by decide) (by decide)
    (by decide) (by decide) (by decide) (by decide) (by decide) (by decide) (by decide)
    (by decide!) (by decide) (by decide) (by decide)

/-! ## Detection without coverage, and what detection depends on -/

theorem foldl_invariant {σ ι : Type} (P : σ → Prop) (f : σ → ι → σ) (l : List ι)
    (h : ∀ s, ∀ i ∈ l, P s → P (f s i)) (s : σ) (hs : P s) : P (l.foldl f s) := by
  induction l generalizing s with
  | nil => exact hs
  | cons x xs ih =>
    rw [List.foldl_cons]
    exact ih (fun s2 i hi => h s2 i (List.mem_cons_of_mem _ hi)) _
      (h s x (List.mem_cons_self _ _) hs)

theorem watermarkStep_uncovered (img : List Nat) (mask : Mask) (imgWidth imgHeight : Nat)
    (p : Nat × Nat) (acc : WatermarkAcc) (hc : covered mask p = false) :
    watermarkStep img mask imgWidth imgHeight p.1 p.2 acc = acc := by
  unfold watermarkStep
  simp only []
  split_ifs with h1 h2
  · rfl
  · exfalso
    have hg := jsGt_alpha_eq_covered mask p
    unfold maskIdxOf at hg
    rw [hg, hc] at h2
    exact absurd h2 (by simp)
  · rfl

theorem watermarkRegion_uncovered (img : List Nat) (mask : Mask) (imgWidth imgHeight : Nat)
    (hc : ∀ p ∈ maskPixels mask, covered mask p = false) :
    watermarkRegion img mask imgWidth imgHeight = ⟨some 0, some 0⟩ := by
  unfold watermarkRegion
  rw [foldl_nested_eq_product
    (fun my mx acc => watermarkStep img mask imgWidth imgHeight my mx acc)]
  apply foldl_invariant (fun acc : WatermarkAcc => acc = ⟨some 0, some 0⟩)
  · intro s p hp hs
    have hp2 : p ∈ maskPixels mask := hp
    rw [watermarkStep_uncovered img mask imgWidth imgHeight p s (hc p hp2)]
    exact hs
  · rfl

theorem pixelLuminance_nonneg (img : List Nat) (idx : Nat) :
    nonnegOrNaN (pixelLuminance img idx) := by
  intro q hq
  unfold pixelLuminance luminance typedGet at hq
  cases h0 : img[idx]? with
  | none => rw [h0] at hq; simp [jsMul, jsAdd] at hq
  | some r =>
    cases h1 : img[idx + 1]? with
    | none => rw [h0, h1] at hq; simp [jsMul, jsAdd] at hq
    | some g =>
      cases h2 : img[idx + 2]? with
      | none => rw [h0, h1, h2] at hq; simp [jsMul, jsAdd] at hq
      | some b =>
        rw [h0, h1, h2] at hq
        simp only [jsMul_some, jsAdd_some, Option.some.injEq] at hq
        rw [← hq]
        positivity

theorem surroundingStep_nonneg (img : List Nat) (imgWidth : Nat) (y x : Int)
    (acc : SurroundingAcc) (h : nonnegOrNaN acc.brightness) :
    nonnegOrNaN (surroundingStep img imgWidth y x acc).brightness := by
  intro q hq
  unfold surroundingStep at hq
  simp only [] at hq
  cases hb : acc.brightness with
  | none => rw [hb] at hq; simp [jsAdd] at hq
  | some b =>
    cases hl : pixelLuminance img ((y * (imgWidth : Int) + x) * 4).toNat with
    | none => rw [hb, hl] at hq; simp [jsAdd] at hq
    | some l =>
      rw [hb, hl, jsAdd_some] at hq
      have h1 := h b hb
      have h2 := pixelLuminance_nonneg img _ l hl
      rw [← Option.some.inj hq]
      linarith

theorem surroundingLoop_nonneg (img : List Nat) (imgWidth : Nat) (rows cols : List Int)
    (acc : SurroundingAcc) (h : nonnegOrNaN acc.brightness) :
    nonnegOrNaN (surroundingLoop img imgWidth rows cols acc).brightness := by
  unfold surroundingLoop
  apply foldl_invariant (fun a : SurroundingAcc => nonnegOrNaN a.brightness)
  · intro s y _ hs
    apply foldl_invariant (fun a : SurroundingAcc => nonnegOrNaN a.brightness)
    · intro s2 x _ hs2
      exact surroundingStep_nonneg img imgWidth y x s2 hs2
    · exact hs
  · exact h

theorem avgSurrounding_nonneg (img : List Nat) (mask : Mask) (imgWidth imgHeight : Nat) :
    nonnegOrNaN
      (avgSurroundingBrightness (surroundingRegion img mask imgWidth imgHeight)) := by
  have hsr : nonnegOrNaN (surroundingRegion img mask imgWidth imgHeight).brightness := by
    unfold surroundingRegion
    apply surroundingLoop_nonneg
    apply surroundingLoop_nonneg
    intro q hq
    simp only [Option.some.injEq] at hq
    rw [← hq]
  intro q hq
  unfold avgSurroundingBrightness at hq
  split_ifs at hq with hpos
  · cases hb : (surroundingRegion img mask imgWidth imgHeight).brightness with
    | none => rw [hb] at hq; simp [jsDiv] at hq
    | some b =>
      rw [hb, jsDiv_some] at hq
      rw [← Option.some.inj hq]
      have := hsr b hb
      positivity
  · rw [← Option.some.inj hq]
    norm_num

/-- C28: for a mask in which every alpha byte is at most 25 (no pixel has
`alpha/255 > 0.1`), `detectWatermark` returns false on every image. -/
theorem detectWatermark_no_coverage (img : List Nat) (mask : Mask)
    (imgWidth imgHeight : Nat)
    (hlow : ∀ p ∈ maskPixels mask, ∀ a : Nat,
      mask.data[maskIdxOf mask p.1 p.2 + 3]? = some a → a ≤ 25) :
    detectWatermark img mask imgWidth imgHeight = false := by
  have hc : ∀ p ∈ maskPixels mask, covered mask p = false := by
    intro p hp
    unfold covered
    cases h : mask.data[maskIdxOf mask p.1 p.2 + 3]? with
    | none => rfl
    | some a =>
      have := hlow p hp a h
      simp only [decide_eq_false_iff_not, not_le]
      omega
  unfold detectWatermark
  split_ifs with hneg
  · rfl
  · unfold brightnessDiff
    rw [watermarkRegion_uncovered img mask imgWidth imgHeight hc]
    have hw : avgWatermarkBrightness ⟨some 0, some 0⟩ = some 0 := by
      unfold avgWatermarkBrightness
      simp
    rw [hw]
    cases hs : avgSurroundingBrightness (surroundingRegion img mask imgWidth imgHeight) with
    | none => rfl
    | some q =>
      have hq := avgSurrounding_nonneg img mask imgWidth imgHeight q hs
      rw [jsSub_some, jsGt_some]
      simp only [decide_eq_false_iff_not, not_lt]
      linarith

theorem detectWatermark_no_coverage_witness :
    detectWatermark [0, 0, 0, 255, 0, 0, 0, 255, 0, 0, 0, 255, 255, 255, 255, 255]
      ⟨[255, 255, 255, 25], 1, 1, 0⟩ 2 2 = false :=
  detectWatermark_no_coverage [0, 0, 0, 255, 0, 0, 0, 255, 0, 0, 0, 255, 255, 255, 255, 255]
    ⟨[255, 255, 255, 25], 1, 1, 0⟩ 2 2 (by
      intro p hp a ha
      have hp2 := (mem_maskPixels _ p).mp hp
      have h1 : p.1 = 0 := by
        have : p.1 < 1 := hp2.1
        omega
      have h2 : p.2 = 0 := by
        have : p.2 < 1 := hp2.2
        omega
      rw [h1, h2] at ha
      have h3 : a = 25 := by
        have h4 : (some 25 : Option Nat) = some a := ha
        exact (Option.some.inj h4).symm
      omega)

theorem pixelLuminance_congr (img1 img2 : List Nat) (idx : Nat)
    (h : ∀ k, k < 3 → img1[idx + k]? = img2[idx + k]?) :
    pixelLuminance img1 idx = pixelLuminance img2 idx := by
  have h0 := h 0 (by omega)
  have h1 := h 1 (by omega)
  have h2 := h 2 (by omega)
  rw [Nat.add_zero] at h0
  unfold pixelLuminance typedGet
  rw [h0, h1, h2]

theorem surroundingIdx_eq (imgWidth x y : Nat) :
    (((y : Int) * (imgWidth : Int) + (x : Int)) * 4).toNat = pixelIndex imgWidth x y := by
  unfold pixelIndex
  have : (((y : Int) * (imgWidth : Int) + (x : Int)) * 4)
      = (((y * imgWidth + x) * 4 : Nat) : Int) := by
    push_cast; ring
  rw [this, Int.toNat_ofNat]

theorem surroundingLoop_congr (img1 img2 : List Nat) (imgWidth : Nat) (rows cols : List Nat)
    (h : ∀ q ∈ rows ×ˢ cols, ∀ k, k < 3 →
      img1[pixelIndex imgWidth q.2 q.1 + k]? = img2[pixelIndex imgWidth q.2 q.1 + k]?)
    (acc : SurroundingAcc) :
    surroundingLoop img1 imgWidth (rows.map (fun (m : Nat) => (m : Int)))
        (cols.map (fun (m : Nat) => (m : Int))) acc
      = surroundingLoop img2 imgWidth (rows.map (fun (m : Nat) => (m : Int)))
        (cols.map (fun (m : Nat) => (m : Int))) acc := by
  unfold surroundingLoop
  rw [List.foldl_map, List.foldl_map]
  simp only [List.foldl_map]
  rw [foldl_nested_eq_product
      (fun (y x : Nat) acc => surroundingStep img1 imgWidth (y : Int) (x : Int) acc),
    foldl_nested_eq_product
      (fun (y x : Nat) acc => surroundingStep img2 imgWidth (y : Int) (x : Int) acc)]
  apply List.foldl_ext
  intro a q hq
  unfold surroundingStep
  simp only [surroundingIdx_eq]
  rw [pixelLuminance_congr img1 img2 _ (h q hq)]

theorem watermarkStep_congr (img1 img2 : List Nat) (mask : Mask) (imgWidth imgHeight : Nat)
    (p : Nat × Nat) (acc : WatermarkAcc)
    (h : inImage mask imgWidth imgHeight p.1 p.2 → ∀ k, k < 3 →
      img1[imgIdxOf mask imgWidth imgHeight p.1 p.2 + k]?
        = img2[imgIdxOf mask imgWidth imgHeight p.1 p.2 + k]?) :
    watermarkStep img1 mask imgWidth imgHeight p.1 p.2 acc
      = watermarkStep img2 mask imgWidth imgHeight p.1 p.2 acc := by
  unfold watermarkStep
  simp only []
  split_ifs with h1 h2
  · rfl
  · have hin : inImage mask imgWidth imgHeight p.1 p.2 := h1
    have hl := pixelLuminance_congr img1 img2 _ (h hin)
    unfold imgIdxOf at hl
    rw [hl]
  · rfl

/-- C29: two images of the same dimensions whose R, G, B values agree on
every pixel of the mask footprint and of the left and top reference bands get
the same answer from `detectWatermark`, whatever they hold elsewhere and in
their alpha channels. -/
theorem detectWatermark_depends_on_regions (img1 img2 : List Nat) (mask : Mask)
    (imgWidth imgHeight : Nat)
    (hagree : ∀ q ∈ footprint mask imgWidth imgHeight ++ (leftBand mask imgWidth imgHeight
        ++ topBand mask imgWidth imgHeight), ∀ k, k < 3 →
      img1[pixelIndex imgWidth q.2 q.1 + k]? = img2[pixelIndex imgWidth q.2 q.1 + k]?) :
    detectWatermark img1 mask imgWidth imgHeight
      = detectWatermark img2 mask imgWidth imgHeight := by
  unfold detectWatermark
  split_ifs with hneg
  · rfl
  · have hx : 0 ≤ offsetX mask imgWidth := by omega
    have hy : 0 ≤ offsetY mask imgHeight := by omega
    have hwm : watermarkRegion img1 mask imgWidth imgHeight
        = watermarkRegion img2 mask imgWidth imgHeight := by
      unfold watermarkRegion
      rw [foldl_nested_eq_product
          (fun my mx acc => watermarkStep img1 mask imgWidth imgHeight my mx acc),
        foldl_nested_eq_product
          (fun my mx acc => watermarkStep img2 mask imgWidth imgHeight my mx acc)]
      apply List.foldl_ext
      intro acc p hp
      have hp2 : p ∈ maskPixels mask := hp
      apply watermarkStep_congr
      intro _ k hk
      rw [imgIdxOf_eq_footprintIndex mask imgWidth imgHeight p hx hy]
      unfold footprintIndex
      apply hagree ((offsetY mask imgHeight).toNat + p.1, (offsetX mask imgWidth).toNat + p.2)
        _ k hk
      rw [List.mem_append]
      left
      rw [mem_footprint]
      have := (mem_maskPixels mask p).mp hp2
      simp only []
      omega
    have hsr : surroundingRegion img1 mask imgWidth imgHeight
        = surroundingRegion img2 mask imgWidth imgHeight := by
      unfold surroundingRegion
      rw [leftRows_eq mask imgHeight hy, leftCols_eq mask imgWidth hx,
        topRows_eq mask imgHeight hy, topCols_eq mask imgWidth hx]
      rw [surroundingLoop_congr img1 img2 imgWidth _ _ (fun q hq k hk =>
        hagree q (List.mem_append.mpr (Or.inr (List.mem_append.mpr (Or.inl hq)))) k hk)]
      rw [surroundingLoop_congr img1 img2 imgWidth _ _ (fun q hq k hk =>
        hagree q (List.mem_append.mpr (Or.inr (List.mem_append.mpr (Or.inr hq)))) k hk)]
    unfold brightnessDiff
    rw [hwm, hsr]

theorem detectWatermark_depends_on_regions_witness :
    detectWatermark [9, 9, 9, 0, 0, 0, 0, 255, 0, 0, 0, 255, 255, 255, 255, 255]
        ⟨[255, 255, 255, 255], 1, 1, 0⟩ 2 2
      = detectWatermark [77, 88, 99, 255, 0, 0, 0, 1, 0, 0, 0, 2, 255, 255, 255, 3]
        ⟨[255, 255, 255, 255], 1, 1, 0⟩ 2 2 :=
  detectWatermark_depends_on_regions
    [9, 9, 9, 0, 0, 0, 0, 255, 0, 0, 0, 255, 255, 255, 255, 255]
    [77, 88, 99, 255, 0, 0, 0, 1, 0, 0, 0, 2, 255, 255, 255, 3]
    ⟨[255, 255, 255, 255], 1, 1, 0⟩ 2 2 (by decide)

/-! ## Binary64 rounding: order properties -/

theorem pow2_eq (e : ℤ) : pow2 e = (2 : ℚ) ^ e := by
  unfold pow2
  cases e with
  | ofNat n => simp
  | negSucc n => simp [zpow_negSucc]

theorem pow2_pos (e : ℤ) : 0 < pow2 e := by
  rw [pow2_eq]; positivity

theorem pow2_le_pow2 (a b : ℤ) (h : a ≤ b) : pow2 a ≤ pow2 b := by
  rw [pow2_eq, pow2_eq]
  exact zpow_le_zpow_right₀ (by norm_num) h

theorem pow2_lt_pow2_iff (a b : ℤ) : pow2 a < pow2 b ↔ a < b := by
  rw [pow2_eq, pow2_eq]
  exact zpow_lt_zpow_iff_right₀ (by norm_num)

theorem pow2_add (a b : ℤ) : pow2 (a + b) = pow2 a * pow2 b := by
  rw [pow2_eq, pow2_eq, pow2_eq, zpow_add₀ (by norm_num)]

theorem pow2_sub (a b : ℤ) : pow2 (a - b) = pow2 a / pow2 b := by
  rw [pow2_eq, pow2_eq, pow2_eq, zpow_sub₀ (by norm_num)]

theorem pow2_natCast (n : ℕ) : pow2 (n : ℤ) = (2 : ℚ) ^ n := by
  rw [pow2_eq, zpow_natCast]

theorem bitLengthAux_zero (fuel : Nat) : bitLengthAux fuel 0 = 0 := by
  cases fuel <;> simp [bitLengthAux]

theorem bitLengthAux_spec (fuel n : Nat) (hn : n ≤ fuel) (h0 : n ≠ 0) :
    n < 2 ^ bitLengthAux fuel n ∧ 2 ^ bitLengthAux fuel n ≤ 2 * n := by
  induction fuel generalizing n with
  | zero => omega
  | succ fuel ih =>
    unfold bitLengthAux
    rw [if_neg h0]
    by_cases h2 : n / 2 = 0
    · rw [h2, bitLengthAux_zero]
      have : n = 1 := by omega
      subst this
      simp
    · obtain ⟨h3, h4⟩ := ih (n / 2) (by omega) h2
      rw [pow_succ]
      omega

theorem bitLength_spec (n : Nat) (h0 : n ≠ 0) :
    n < 2 ^ bitLength n ∧ 2 ^ bitLength n ≤ 2 * n :=
  bitLengthAux_spec n n (le_refl _) h0

theorem binade_spec (x : ℚ) (hx : 0 < x) :
    pow2 (binade x) ≤ x ∧ x < pow2 (binade x + 1) := by
  have hnum : 0 < x.num := Rat.num_pos.mpr hx
  have hden : 0 < x.den := x.den_pos
  have hn0 : x.num.natAbs ≠ 0 := by omega
  obtain ⟨n1, n2⟩ := bitLength_spec x.num.natAbs hn0
  obtain ⟨d1, d2⟩ := bitLength_spec x.den (by omega)
  have hcast : ((x.num.natAbs : ℕ) : ℚ) = (x.num : ℚ) := by
    have h1 : ((x.num.natAbs : ℕ) : ℤ) = x.num := Int.natAbs_of_nonneg (le_of_lt hnum)
    rw [← Int.cast_natCast, h1]
  have hxeq : x = (x.num.natAbs : ℚ) / (x.den : ℚ) := by
    rw [hcast]; exact (Rat.num_div_den x).symm
  set bn := bitLength x.num.natAbs with hbn
  set bd := bitLength x.den with hbd
  set n := x.num.natAbs with hnn
  set d := x.den with hdd
  have hdq : (0 : ℚ) < d := by exact_mod_cast hden
  have n1q : (n : ℚ) < 2 ^ bn := by exact_mod_cast n1
  have n2q : (2 : ℚ) ^ bn ≤ 2 * n := by exact_mod_cast n2
  have d1q : (d : ℚ) < 2 ^ bd := by exact_mod_cast d1
  have d2q : (2 : ℚ) ^ bd ≤ 2 * d := by exact_mod_cast d2
  have hpbd : (0 : ℚ) < 2 ^ bd := by positivity
  have hpbn : (0 : ℚ) < 2 ^ bn := by positivity
  have hA : pow2 ((bn : ℤ) - (bd : ℤ)) = (2 : ℚ) ^ bn / 2 ^ bd := by
    rw [pow2_sub, pow2_natCast, pow2_natCast]
  have hlow : pow2 ((bn : ℤ) - (bd : ℤ) - 1) ≤ x := by
    rw [pow2_sub, hA]
    have : pow2 1 = 2 := by rw [pow2_eq]; norm_num
    rw [this, hxeq, div_div, div_le_div_iff₀ (by positivity) hdq]
    nlinarith
  have hhigh : x < pow2 ((bn : ℤ) - (bd : ℤ) + 1) := by
    rw [pow2_add, hA]
    have : pow2 1 = 2 := by rw [pow2_eq]; norm_num
    rw [this, hxeq, div_mul_eq_mul_div, div_lt_div_iff₀ hdq hpbd]
    nlinarith
  unfold binade
  simp only []
  split_ifs with h
  · exact ⟨h, hhigh⟩
  · refine ⟨hlow, ?_⟩
    rw [sub_add_cancel]
    exact not_le.mp h

theorem roundHalfEven_ge_floor (m : ℚ) : ⌊m⌋ ≤ roundHalfEven m := by
  unfold roundHalfEven
  simp only []
  split_ifs <;> omega

theorem roundHalfEven_le_floor_succ (m : ℚ) : roundHalfEven m ≤ ⌊m⌋ + 1 := by
  unfold roundHalfEven
  simp only []
  split_ifs <;> omega

theorem roundHalfEven_ge (m : ℚ) (k : ℤ) (h : (k : ℚ) ≤ m) : k ≤ roundHalfEven m :=
  le_trans (Int.le_floor.mpr h) (roundHalfEven_ge_floor m)

theorem roundHalfEven_le (m : ℚ) (k : ℤ) (h : m ≤ (k : ℚ)) : roundHalfEven m ≤ k := by
  have hfl : ⌊m⌋ ≤ k := by
    have : ⌊m⌋ ≤ ⌊(k : ℚ)⌋ := Int.floor_le_floor h
    rwa [Int.floor_intCast] at this
  rcases lt_or_eq_of_le hfl with hlt | heq
  · have := roundHalfEven_le_floor_succ m
    omega
  · have hm : m = (k : ℚ) := by
      apply le_antisymm h
      rw [← heq]
      exact Int.floor_le m
    subst hm
    unfold roundHalfEven
    simp

theorem roundHalfEven_mono (m1 m2 : ℚ) (h : m1 ≤ m2) :
    roundHalfEven m1 ≤ roundHalfEven m2 := by
  have hfl : ⌊m1⌋ ≤ ⌊m2⌋ := Int.floor_le_floor h
  rcases lt_or_eq_of_le hfl with hlt | heq
  · have h1 := roundHalfEven_le_floor_succ m1
    have h2 := roundHalfEven_ge_floor m2
    omega
  · have hr : m1 - (⌊m1⌋ : ℚ) ≤ m2 - (⌊m2⌋ : ℚ) := by rw [heq]; linarith
    unfold roundHalfEven
    simp only []
    rw [heq] at hr ⊢
    split_ifs <;> first | omega | (exfalso; linarith)

theorem ulp_pos (x : ℚ) : 0 < ulp x := pow2_pos _

theorem toDouble_of_pos (q : ℚ) (hq : 0 < q) :
    toDouble q = (roundHalfEven (q / ulp q) : ℚ) * ulp q := by
  unfold toDouble
  rw [if_neg (ne_of_gt hq), if_pos hq]

theorem toDouble_neg (q : ℚ) : toDouble (-q) = -toDouble q := by
  unfold toDouble
  rcases lt_trichotomy q 0 with h | h | h
  · rw [if_neg (by linarith), if_pos (by linarith), if_neg (by linarith), if_neg (by linarith)]
    simp
  · subst h; simp
  · rw [if_neg (by linarith), if_neg (by linarith), if_neg (by linarith), if_pos h]
    simp

theorem toDouble_nonneg (q : ℚ) (hq : 0 ≤ q) : 0 ≤ toDouble q := by
  rcases lt_or_eq_of_le hq with h | h
  · rw [toDouble_of_pos q h]
    have h1 : (0 : ℤ) ≤ roundHalfEven (q / ulp q) :=
      roundHalfEven_ge _ 0 (by
        have := ulp_pos q
        push_cast
        positivity)
    have h2 : (0 : ℚ) ≤ (roundHalfEven (q / ulp q) : ℚ) := by exact_mod_cast h1
    exact mul_nonneg h2 (le_of_lt (ulp_pos q))
  · rw [← h]; unfold toDouble; simp

theorem binade_mono (x y : ℚ) (hx : 0 < x) (hxy : x ≤ y) : binade x ≤ binade y := by
  obtain ⟨h1, _⟩ := binade_spec x hx
  obtain ⟨_, h4⟩ := binade_spec y (lt_of_lt_of_le hx hxy)
  have : pow2 (binade x) < pow2 (binade y + 1) := lt_of_le_of_lt (le_trans h1 hxy) h4
  rw [pow2_lt_pow2_iff] at this
  omega

theorem toDouble_le_pow2 (x : ℚ) (hx : 0 < x) :
    toDouble x ≤ pow2 (max (binade x) (-1022) + 1) := by
  rw [toDouble_of_pos x hx]
  unfold ulp
  set e := max (binade x) (-1022) with he
  have hu : 0 < pow2 (e - 52) := pow2_pos _
  have hsplit : pow2 (e + 1) = ((2 ^ 53 : ℤ) : ℚ) * pow2 (e - 52) := by
    have : e + 1 = 53 + (e - 52) := by ring
    rw [this, pow2_add]
    congr 1
  rw [hsplit]
  apply mul_le_mul_of_nonneg_right _ (le_of_lt hu)
  have hlt : x < pow2 (e + 1) :=
    lt_of_lt_of_le (binade_spec x hx).2 (pow2_le_pow2 _ _ (by omega))
  have hk : roundHalfEven (x / pow2 (e - 52)) ≤ (2 ^ 53 : ℤ) := by
    apply roundHalfEven_le
    rw [div_le_iff₀ hu, ← hsplit]
    exact le_of_lt hlt
  exact_mod_cast hk

theorem pow2_le_toDouble (x : ℚ) (hx : 0 < x) (hn : -1022 ≤ binade x) :
    pow2 (binade x) ≤ toDouble x := by
  rw [toDouble_of_pos x hx]
  unfold ulp
  rw [max_eq_left hn]
  set e := binade x with he
  have hu : 0 < pow2 (e - 52) := pow2_pos _
  have hsplit : pow2 e = ((2 ^ 52 : ℤ) : ℚ) * pow2 (e - 52) := by
    have : e = 52 + (e - 52) := by ring
    nth_rewrite 1 [this]
    rw [pow2_add]
    congr 1
  rw [hsplit]
  apply mul_le_mul_of_nonneg_right _ (le_of_lt hu)
  have hk : (2 ^ 52 : ℤ) ≤ roundHalfEven (x / pow2 (e - 52)) := by
    apply roundHalfEven_ge
    rw [le_div_iff₀ hu, ← hsplit]
    exact (binade_spec x hx).1
  exact_mod_cast hk

theorem toDouble_mono_pos (x y : ℚ) (hx : 0 < x) (hxy : x ≤ y) : toDouble x ≤ toDouble y := by
  have hy : 0 < y := lt_of_lt_of_le hx hxy
  have hb := binade_mono x y hx hxy
  by_cases he : max (binade x) (-1022) = max (binade y) (-1022)
  · rw [toDouble_of_pos x hx, toDouble_of_pos y hy]
    have hu : ulp x = ulp y := by unfold ulp; rw [he]
    rw [hu]
    apply mul_le_mul_of_nonneg_right _ (le_of_lt (ulp_pos y))
    have := roundHalfEven_mono (x / ulp y) (y / ulp y)
      (div_le_div_of_nonneg_right hxy (le_of_lt (ulp_pos y)))
    exact_mod_cast this
  · have hlt : max (binade x) (-1022) < binade y := by
      rcases le_total (binade y) (-1022) with h | h
      · exfalso
        apply he
        rw [max_eq_right h, max_eq_right (le_trans hb h)]
      · by_contra hcon
        apply he
        rw [max_eq_left h]
        apply le_antisymm
        · exact max_le hb h
        · exact not_lt.mp hcon
    have h1 := toDouble_le_pow2 x hx
    have h2 := pow2_le_toDouble y hy (by
      have := le_max_right (binade x) (-1022)
      omega)
    exact le_trans h1 (le_trans (pow2_le_pow2 _ _ (by omega)) h2)

theorem toDouble_zero : toDouble 0 = 0 := by
  unfold toDouble; simp

theorem toDouble_mono (x y : ℚ) (hxy : x ≤ y) : toDouble x ≤ toDouble y := by
  rcases lt_trichotomy x 0 with hx | hx | hx
  · rcases lt_or_le y 0 with hy | hy
    · have := toDouble_mono_pos (-y) (-x) (by linarith) (by linarith)
      rw [toDouble_neg, toDouble_neg] at this
      linarith
    · have h1 := toDouble_nonneg (-x) (by linarith)
      rw [toDouble_neg] at h1
      have h2 := toDouble_nonneg y hy
      linarith
  · subst hx
    rw [toDouble_zero]
    exact toDouble_nonneg y hxy
  · exact toDouble_mono_pos x y hx hxy

theorem roundHalfEven_near (m : ℚ) : |(roundHalfEven m : ℚ) - m| ≤ 1 / 2 := by
  have h1 : (⌊m⌋ : ℚ) ≤ m := Int.floor_le m
  have h2 : m < ⌊m⌋ + 1 := Int.lt_floor_add_one m
  unfold roundHalfEven
  simp only []
  rw [abs_le]
  split_ifs with ha hb hc
  · constructor <;> linarith
  · push_cast; constructor <;> linarith
  · constructor <;> linarith
  · push_cast; constructor <;> linarith

theorem toDouble_near (x : ℚ) (hx : 0 < x) : |toDouble x - x| ≤ ulp x / 2 := by
  rw [toDouble_of_pos x hx]
  have hu := ulp_pos x
  have h := roundHalfEven_near (x / ulp x)
  have e : (roundHalfEven (x / ulp x) : ℚ) * ulp x - x
      = ((roundHalfEven (x / ulp x) : ℚ) - x / ulp x) * ulp x := by
    field_simp
  rw [e, abs_mul, abs_of_pos hu]
  calc |(roundHalfEven (x / ulp x) : ℚ) - x / ulp x| * ulp x ≤ 1 / 2 * ulp x :=
        mul_le_mul_of_nonneg_right h (le_of_lt hu)
    _ = ulp x / 2 := by ring

theorem toDouble_examples :
    toDouble (1 / 10) = 3602879701896397 / 36028797018963968 ∧
    toDouble (1 / 100) = 5764607523034235 / 576460752303423488 ∧
    toDouble (99 / 100) = 4458563631096791 / 4503599627370496 ∧
    toDouble (1 / 4) = 1 / 4 ∧ toDouble 255 = 255 ∧ toDouble (-3) = -3 ∧
    toDouble (9007199254740993) = 9007199254740992 ∧
    toDouble (9007199254740995) = 9007199254740996 ∧
    toDouble (1 / 2 ^ 1074) = 1 / 2 ^ 1074 ∧
    toDouble (1 / 2 ^ 1075) = 0 ∧
    toDouble (3 / 2 ^ 1075) = 1 / 2 ^ 1073 := by
  decide!

theorem ulp_le (x : ℚ) (hx : 0 < x) : ulp x ≤ x / 2 ^ 52 + 1 / 2 ^ 1074 := by
  unfold ulp
  rcases le_total (-1022) (binade x) with h | h
  · rw [max_eq_left h, pow2_sub]
    have h1 := (binade_spec x hx).1
    have h52 : pow2 52 = 2 ^ 52 := by rw [pow2_eq]; norm_num
    rw [h52]
    have : pow2 (binade x) / 2 ^ 52 ≤ x / 2 ^ 52 :=
      div_le_div_of_nonneg_right h1 (by positivity)
    have h0 : (0 : ℚ) ≤ 1 / 2 ^ 1074 := by positivity
    linarith
  · rw [max_eq_right h]
    have e : pow2 (-1022 - 52) = 1 / 2 ^ 1074 := by
      rw [pow2_eq]
      norm_num
    rw [e]
    have : 0 ≤ x / 2 ^ 52 := by positivity
    linarith

theorem toDouble_err (x : ℚ) (hx : 0 ≤ x) :
    x - (x / 2 ^ 53 + 1 / 2 ^ 1075) ≤ toDouble x ∧
    toDouble x ≤ x + (x / 2 ^ 53 + 1 / 2 ^ 1075) := by
  rcases lt_or_eq_of_le hx with h | h
  · have h1 := toDouble_near x h
    have h2 := ulp_le x h
    rw [abs_le] at h1
    have e : (x / 2 ^ 52 + 1 / 2 ^ 1074) / 2 = x / 2 ^ 53 + 1 / 2 ^ 1075 := by ring
    constructor <;> linarith
  · rw [← h, toDouble_zero]
    constructor <;> norm_num

theorem toDouble_err_small (x κ : ℚ) (hx : 0 ≤ x) (hx255 : x ≤ 255)
    (hκ : κ = 255 / 2 ^ 53 + 1 / 2 ^ 1075) :
    x - κ ≤ toDouble x ∧ toDouble x ≤ x + κ := by
  obtain ⟨h1, h2⟩ := toDouble_err x hx
  have h3 : x / 2 ^ 53 ≤ 255 / 2 ^ 53 := div_le_div_of_nonneg_right hx255 (by positivity)
  subst hκ
  constructor <;> linarith

/-! ## `reverseAlphaBlend` in binary64 arithmetic -/

namespace IEEE

@[simp] theorem jsAdd_some_f64 (x y : ℚ) : jsAdd (some x) (some y) = some (toDouble (x + y)) :=
  rfl

@[simp] theorem jsSub_some_f64 (x y : ℚ) : jsSub (some x) (some y) = some (toDouble (x - y)) :=
  rfl

@[simp] theorem jsMul_some_f64 (x y : ℚ) : jsMul (some x) (some y) = some (toDouble (x * y)) :=
  rfl

@[simp] theorem jsDiv_some_f64 (x y : ℚ) : jsDiv (some x) (some y) = some (toDouble (x / y)) :=
  rfl

@[simp] theorem literal_eq (q : ℚ) : literal q = some (toDouble q) := rfl

theorem blendPixel_frame_f64 (mask : Mask) (imgWidth imgHeight : Nat) (alphaIntensity : JSNum)
    (p : Nat × Nat) (img : List Nat) (j : Nat)
    (hj : ¬ blendTarget mask imgWidth imgHeight p j) :
    (blendPixel mask imgWidth imgHeight alphaIntensity p.1 p.2 img)[j]? = img[j]? := by
  unfold blendPixel
  simp only []
  split_ifs with h1 h2 h3
  · rfl
  · rfl
  · rfl
  · have hin : inImage mask imgWidth imgHeight p.1 p.2 := h1
    simp only [blendTarget, hin, true_and, imgIdxOf, not_or] at hj
    obtain ⟨ha, hb, hc⟩ := hj
    rw [List.getElem?_set_ne (Ne.symm hc), List.getElem?_set_ne (Ne.symm hb),
      List.getElem?_set_ne (Ne.symm ha)]

theorem blendPixel_target_f64 (mask : Mask) (imgWidth imgHeight : Nat) (alphaIntensity : JSNum)
    (my mx : Nat) (img : List Nat) (k : Nat) (hk : k < 3)
    (hin : inImage mask imgWidth imgHeight my mx) :
    (blendPixel mask imgWidth imgHeight alphaIntensity my mx img)[
        imgIdxOf mask imgWidth imgHeight my mx + k]?
      = (img[imgIdxOf mask imgWidth imgHeight my mx + k]?).map
          (unblendValue mask alphaIntensity (maskIdxOf mask my mx) k) := by
  have hin2 := hin
  unfold inImage at hin2
  unfold blendPixel unblendValue
  simp only [if_neg hin2, maskIdxOf, imgIdxOf]
  split_ifs with h2 h3
  · simp
  · simp
  · generalize (((offsetY mask imgHeight + (my : Int)) * (imgWidth : Int)
        + (offsetX mask imgWidth + (mx : Int))) * 4).toNat = idx
    have h3cases : k = 0 ∨ k = 1 ∨ k = 2 := by omega
    rcases h3cases with rfl | rfl | rfl
    · rw [List.getElem?_set_ne (by omega), List.getElem?_set_ne (by omega)]
      simp only [Nat.add_zero]
      rw [List.getElem?_set_self']
      cases h : img[idx]? <;> simp [typedGet, h]
    · rw [List.getElem?_set_ne (by omega), List.getElem?_set_self']
      cases h : img[idx + 1]? <;> simp [typedGet, h]
    · rw [List.getElem?_set_self']
      cases h : img[idx + 2]? <;> simp [typedGet, h]

theorem reverseAlphaBlend_eq_foldl_f64 (imgData : List Nat) (mask : Mask)
    (imgWidth imgHeight : Nat) (alphaIntensity : JSNum) :
    reverseAlphaBlend imgData mask imgWidth imgHeight alphaIntensity
      = (maskPixels mask).foldl
          (fun acc p => blendPixel mask imgWidth imgHeight alphaIntensity p.1 p.2 acc)
          imgData := by
  unfold reverseAlphaBlend blendRow maskPixels
  exact foldl_nested_eq_product
    (fun my mx acc => blendPixel mask imgWidth imgHeight alphaIntensity my mx acc) _ _ _

theorem reverseAlphaBlend_untouched_f64 (imgData : List Nat) (mask : Mask)
    (imgWidth imgHeight : Nat) (alphaIntensity : JSNum) (j : Nat)
    (hj : ∀ p ∈ maskPixels mask, ¬ blendTarget mask imgWidth imgHeight p j) :
    (reverseAlphaBlend imgData mask imgWidth imgHeight alphaIntensity)[j]? = imgData[j]? := by
  rw [reverseAlphaBlend_eq_foldl_f64]
  have h1 : ∀ p ∈ maskPixels mask, ∀ img : List Nat,
      ((fun (p : Nat × Nat) (acc : List Nat) =>
        blendPixel mask imgWidth imgHeight alphaIntensity p.1 p.2 acc) p img)[j]? = img[j]? := by
    intro p hp img
    exact blendPixel_frame_f64 mask imgWidth imgHeight alphaIntensity p img j (hj p hp)
  exact foldl_untouched _ (maskPixels mask) j h1 imgData

theorem reverseAlphaBlend_at_f64 (imgData : List Nat) (mask : Mask)
    (imgWidth imgHeight : Nat) (alphaIntensity : JSNum) (my mx k : Nat)
    (hmy : my < mask.height) (hmx : mx < mask.width) (hk : k < 3)
    (hin : inImage mask imgWidth imgHeight my mx) :
    (reverseAlphaBlend imgData mask imgWidth imgHeight alphaIntensity)[
        imgIdxOf mask imgWidth imgHeight my mx + k]?
      = (imgData[imgIdxOf mask imgWidth imgHeight my mx + k]?).map
          (unblendValue mask alphaIntensity (maskIdxOf mask my mx) k) := by
  rw [reverseAlphaBlend_eq_foldl_f64]
  have key := foldl_pointwise
    (fun p acc => blendPixel mask imgWidth imgHeight alphaIntensity p.1 p.2 acc)
    (blendTarget mask imgWidth imgHeight)
    (fun p j c => unblendValue mask alphaIntensity (maskIdxOf mask p.1 p.2)
      (j - imgIdxOf mask imgWidth imgHeight p.1 p.2) c)
    (fun p img j h => blendPixel_frame_f64 mask imgWidth imgHeight alphaIntensity p img j h)
    (by
      intro p img j h
      obtain ⟨hin2, hj2⟩ := h
      rcases hj2 with h0 | h1 | h2
      · subst h0
        have := blendPixel_target_f64 mask imgWidth imgHeight alphaIntensity p.1 p.2 img 0
          (by omega) hin2
        simpa using this
      · subst h1
        have := blendPixel_target_f64 mask imgWidth imgHeight alphaIntensity p.1 p.2 img 1
          (by omega) hin2
        simpa using this
      · subst h2
        have := blendPixel_target_f64 mask imgWidth imgHeight alphaIntensity p.1 p.2 img 2
          (by omega) hin2
        simpa using this)
    (maskPixels mask) (nodup_maskPixels mask)
    (fun p _ q _ hpq j hp => blendTarget_disjoint mask imgWidth imgHeight p q hpq j hp)
    (my, mx) ((mem_maskPixels mask _).mpr ⟨hmy, hmx⟩)
    (imgIdxOf mask imgWidth imgHeight my mx + k)
    ⟨hin, by
      have h3cases : k = 0 ∨ k = 1 ∨ k = 2 := by omega
      rcases h3cases with rfl | rfl | rfl
      · exact Or.inl rfl
      · exact Or.inr (Or.inl rfl)
      · exact Or.inr (Or.inr rfl)⟩
    imgData
  simpa using key

theorem blendAlpha_eq_f64 (mask : Mask) (i : ℚ) (maskIdx a : Nat)
    (ha : mask.data[maskIdx + 3]? = some a) :
    blendAlpha mask (some i) maskIdx = some (blendWeight a i) := by
  unfold blendAlpha blendWeight
  rw [typedGet_of_some _ _ _ ha]
  rfl

theorem unblendValue_skip_f64 (mask : Mask) (i : ℚ) (maskIdx k c a : Nat)
    (ha : mask.data[maskIdx + 3]? = some a)
    (hlow : toDouble (toDouble ((a : ℚ) / 255) * i) < toDouble (1 / 100)) :
    unblendValue mask (some i) maskIdx k c = c := by
  unfold unblendValue
  rw [blendAlpha_eq_f64 mask i maskIdx a ha]
  simp only [literal_eq, jsLt_some]
  rw [if_pos]
  simp only [decide_eq_true_eq]
  unfold blendWeight
  exact lt_of_le_of_lt (min_le_left _ _) hlow

theorem invAlpha_ge_f64 (α : ℚ) (hα : α ≤ toDouble (99 / 100)) :
    toDouble (1 / 100) ≤ toDouble (1 - α) := by
  have h1 : toDouble (1 - toDouble (99 / 100)) ≤ toDouble (1 - α) :=
    toDouble_mono _ _ (by linarith)
  have h2 : toDouble (1 / 100) ≤ toDouble (1 - toDouble (99 / 100)) := by decide!
  exact le_trans h2 h1

theorem unblendValue_formula_f64 (mask : Mask) (i : ℚ) (maskIdx k c a w : Nat)
    (ha : mask.data[maskIdx + 3]? = some a) (hw : mask.data[maskIdx + k]? = some w)
    (hα : toDouble (1 / 100) ≤ blendWeight a i) :
    unblendValue mask (some i) maskIdx k c = unblendFormula c w (blendWeight a i) := by
  unfold unblendValue
  rw [blendAlpha_eq_f64 mask i maskIdx a ha]
  unfold unblendFormula unblendChannel
  rw [typedGet_of_some _ _ _ hw]
  simp only [literal_eq, jsLt_some, jsSub_some_f64, jsMul_some_f64, jsDiv_some_f64,
    mathRound_some, mathMin_some, mathMax_some]
  have h99 : blendWeight a i ≤ toDouble (99 / 100) := min_le_right _ _
  rw [if_neg (by simp only [decide_eq_true_eq, not_lt]; exact hα),
    if_neg (by simp only [decide_eq_true_eq, not_lt]; exact invAlpha_ge_f64 _ h99)]
  have hcast : ∀ z : ℤ, max (0 : ℚ) (min 255 (z : ℚ)) = ((max 0 (min 255 z) : ℤ) : ℚ) := by
    intro z; push_cast; rfl
  rw [hcast, toUint8Clamped_intCast _ (le_max_left _ _)
    (max_le (by norm_num) (min_le_left _ _))]

/-- C1, amended: for a mask pixel `(mx, my)` whose image position `(x, y) =
(offsetX + mx, offsetY + my)` is inside the image, with mask alpha byte `a`, a
finite intensity `i`, the blend weight `α = min((a/255) · i, 0.99)` as computed
in binary64 arithmetic and `α ≥ 0.01`, each colour channel `k` of that image
pixel, holding `c` before the call, holds `clamp(round((c − w·α)/(1 − α)), 0,
255)` after it, the product, the difference and the quotient each rounded to
binary64, `w` being the mask's colour channel `k` at `(mx, my)`. -/
theorem reverseAlphaBlend_pixel (imgData : List Nat) (mask : Mask) (imgWidth imgHeight : Nat)
    (i : ℚ) (my mx x y k a w c : Nat)
    (hmy : my < mask.height) (hmx : mx < mask.width)
    (hx : (x : Int) = offsetX mask imgWidth + mx)
    (hy : (y : Int) = offsetY mask imgHeight + my)
    (hxW : x < imgWidth) (hyH : y < imgHeight) (hk : k < 3)
    (ha : mask.data[maskIdxOf mask my mx + 3]? = some a)
    (hw : mask.data[maskIdxOf mask my mx + k]? = some w)
    (hc : imgData[pixelIndex imgWidth x y + k]? = some c)
    (hα : toDouble (1 / 100) ≤ blendWeight a i) :
    (reverseAlphaBlend imgData mask imgWidth imgHeight (some i))[pixelIndex imgWidth x y + k]?
      = some (unblendFormula c w (blendWeight a i)) := by
  have hin := inImage_of_coords mask imgWidth imgHeight my mx x y hx hy hxW hyH
  have hidx := imgIdxOf_eq_pixelIndex mask imgWidth imgHeight my mx x y hx hy
  have h := reverseAlphaBlend_at_f64 imgData mask imgWidth imgHeight (some i) my mx k hmy hmx
    hk hin
  rw [hidx, hc, Option.map_some', unblendValue_formula_f64 mask i _ k c a w ha hw hα] at h
  exact h

theorem reverseAlphaBlend_pixel_witness :
    toDouble (1 / 100) ≤ blendWeight 67 1 ∧
    (reverseAlphaBlend [161, 254, 255, 255] ⟨[255, 255, 255, 67], 1, 1, 0⟩ 1 1 (some 1))[
        pixelIndex 1 0 0 + 0]?
      = some (unblendFormula 161 255 (blendWeight 67 1)) ∧
    unblendFormula 161 255 (blendWeight 67 1) = 127 :=
  ⟨by decide!, reverseAlphaBlend_pixel [161, 254, 255, 255] ⟨[255, 255, 255, 67], 1, 1, 0⟩ 1 1 1
    0 0 0 0 0 67 255 161 (by decide) (by decide) (by decide) (by decide) (by decide)
    (by decide) (by decide) (by decide) (by decide) (by decide) (by decide!), by decide!⟩

theorem negligible_bytes_f64 (b : Nat) :
    toDouble (toDouble ((b : ℚ) / 255) * 1) < toDouble (1 / 100) ↔ b ≤ 2 := by
  constructor
  · intro h
    by_contra hcon
    have hb : (3 : ℚ) ≤ b := by exact_mod_cast (show 3 ≤ b by omega)
    have h1 : toDouble ((3 : ℚ) / 255) ≤ toDouble ((b : ℚ) / 255) :=
      toDouble_mono _ _ (by linarith)
    have h2 : toDouble (toDouble ((3 : ℚ) / 255) * 1) ≤ toDouble (toDouble ((b : ℚ) / 255) * 1) :=
      toDouble_mono _ _ (by linarith)
    have h3 : toDouble (1 / 100) ≤ toDouble (toDouble ((3 : ℚ) / 255) * 1) := by decide!
    linarith
  · intro h
    have hb : (b : ℚ) ≤ 2 := by exact_mod_cast h
    have h1 : toDouble ((b : ℚ) / 255) ≤ toDouble ((2 : ℚ) / 255) :=
      toDouble_mono _ _ (by linarith)
    have h2 : toDouble (toDouble ((b : ℚ) / 255) * 1) ≤ toDouble (toDouble ((2 : ℚ) / 255) * 1) :=
      toDouble_mono _ _ (by linarith)
    have h3 : toDouble (toDouble ((2 : ℚ) / 255) * 1) < toDouble (1 / 100) := by decide!
    linarith

/-- C5, amended: an image pixel under a mask pixel whose weight `(a/255) ·
intensity`, computed in binary64 arithmetic (the quotient rounded, then the
product rounded), is below the binary64 number 0.01 keeps all four channels; at
intensity 1.0 these are exactly the mask alpha bytes 0, 1 and 2. -/
theorem reverseAlphaBlend_negligible (imgData : List Nat) (mask : Mask)
    (imgWidth imgHeight : Nat) (i : ℚ) (my mx x y a : Nat)
    (hmy : my < mask.height) (hmx : mx < mask.width)
    (hx : (x : Int) = offsetX mask imgWidth + mx)
    (hy : (y : Int) = offsetY mask imgHeight + my)
    (hxW : x < imgWidth) (hyH : y < imgHeight)
    (ha : mask.data[maskIdxOf mask my mx + 3]? = some a)
    (hlow : toDouble (toDouble ((a : ℚ) / 255) * i) < toDouble (1 / 100)) :
    (∀ k, k < 4 →
      (reverseAlphaBlend imgData mask imgWidth imgHeight (some i))[pixelIndex imgWidth x y + k]?
        = imgData[pixelIndex imgWidth x y + k]?) ∧
    (∀ b : Nat, toDouble (toDouble ((b : ℚ) / 255) * 1) < toDouble (1 / 100) ↔ b ≤ 2) := by
  refine ⟨?_, negligible_bytes_f64⟩
  intro k hk
  by_cases hk3 : k < 3
  · have hin := inImage_of_coords mask imgWidth imgHeight my mx x y hx hy hxW hyH
    have hidx := imgIdxOf_eq_pixelIndex mask imgWidth imgHeight my mx x y hx hy
    have h := reverseAlphaBlend_at_f64 imgData mask imgWidth imgHeight (some i) my mx k hmy hmx
      hk3 hin
    rw [hidx] at h
    rw [h]
    cases hc : imgData[pixelIndex imgWidth x y + k]? with
    | none => rfl
    | some c => rw [Option.map_some', unblendValue_skip_f64 mask i _ k c a ha hlow]
  · apply reverseAlphaBlend_untouched_f64
    intro p _ ht
    obtain ⟨_, _, h3⟩ := blendTarget_of_pixel mask imgWidth imgHeight p x y k hxW hk ht
    exact hk3 h3

theorem reverseAlphaBlend_negligible_witness :
    toDouble (toDouble (((2 : Nat) : ℚ) / 255) * 1) < toDouble (1 / 100) ∧
    ((∀ k, k < 4 →
      (reverseAlphaBlend [200, 254, 255, 255] ⟨[255, 255, 255, 2], 1, 1, 0⟩ 1 1 (some 1))[
          pixelIndex 1 0 0 + k]?
        = [200, 254, 255, 255][pixelIndex 1 0 0 + k]?) ∧
    (∀ b : Nat, toDouble (toDouble ((b : ℚ) / 255) * 1) < toDouble (1 / 100) ↔ b ≤ 2)) :=
  ⟨by decide!, reverseAlphaBlend_negligible [200, 254, 255, 255] ⟨[255, 255, 255, 2], 1, 1, 0⟩
    1 1 1 0 0 0 0 2 (by decide) (by decide) (by decide) (by decide) (by decide) (by decide)
    (by decide) (by decide!)⟩

end IEEE

/-- C1, as stated, fails: for a channel holding 161 under a white mask pixel
of alpha byte 67 at intensity 1.0 the quotient `(161 − 255·α)/(1 − α)` is
exactly 127.5, so that the formula as stated gives 128, while the code, whose
rounded quotient falls just below 127.5, writes 127. -/
theorem reverseAlphaBlend_tie_rounds_down :
    IEEE.reverseAlphaBlend [161, 161, 161, 255] ⟨[255, 255, 255, 67], 1, 1, 0⟩ 1 1 (some 1)
      = [127, 127, 127, 255] ∧
    unblendFormula 161 255 (min ((67 : ℚ) / 255 * 1) (99 / 100)) = 128 ∧
    (1 : ℚ) / 100 ≤ min ((67 : ℚ) / 255 * 1) (99 / 100) := by
  decide!

/-- C5, as stated, fails: for the mask alpha byte 3 and the intensity 0.85
(the binary64 number nearest to it) the product `3/255 · intensity` is below
0.01, while the product the code computes is the binary64 number 0.01, which is
not below the threshold: the pixel is rewritten, 100 becoming 98. -/
theorem reverseAlphaBlend_negligible_boundary :
    (3 : ℚ) / 255 * toDouble (85 / 100) < 1 / 100 ∧
    IEEE.reverseAlphaBlend [100, 100, 100, 255] ⟨[255, 255, 255, 3], 1, 1, 0⟩ 1 1
        (some (toDouble (85 / 100)))
      = [98, 98, 98, 255] := by
  decide!

/-! ## `detectWatermark` in binary64 arithmetic -/

namespace IEEE

theorem pixelLuminance_eq_f64 (img : List Nat) (idx : Nat) (h : idx + 2 < img.length) :
    pixelLuminance img idx = some (lumAt img idx) := by
  unfold pixelLuminance luminance lumAt lumOf
  have h0 : img[idx]? = some (img.getD idx 0) := by
    rw [List.getD_eq_getElem?_getD, List.getElem?_eq_getElem (by omega)]; rfl
  have h1 : img[idx + 1]? = some (img.getD (idx + 1) 0) := by
    rw [List.getD_eq_getElem?_getD, List.getElem?_eq_getElem (by omega)]; rfl
  have h2 : img[idx + 2]? = some (img.getD (idx + 2) 0) := by
    rw [List.getD_eq_getElem?_getD, List.getElem?_eq_getElem (by omega)]; rfl
  rw [typedGet_of_some _ _ _ h0, typedGet_of_some _ _ _ h1, typedGet_of_some _ _ _ h2]
  simp only [literal_eq, jsMul_some_f64, jsAdd_some_f64]

theorem alpha_gt_tenth_iff_f64 (a : Nat) :
    toDouble (1 / 10) < toDouble ((a : ℚ) / 255) ↔ 26 ≤ a := by
  constructor
  · intro h
    by_contra hcon
    have ha : (a : ℚ) ≤ 25 := by exact_mod_cast (show a ≤ 25 by omega)
    have h1 : toDouble ((a : ℚ) / 255) ≤ toDouble ((25 : ℚ) / 255) :=
      toDouble_mono _ _ (by linarith)
    have h2 : toDouble ((25 : ℚ) / 255) < toDouble (1 / 10) := by decide!
    linarith
  · intro h
    have ha : (26 : ℚ) ≤ a := by exact_mod_cast h
    have h1 : toDouble ((26 : ℚ) / 255) ≤ toDouble ((a : ℚ) / 255) :=
      toDouble_mono _ _ (by linarith)
    have h2 : toDouble (1 / 10) < toDouble ((26 : ℚ) / 255) := by decide!
    linarith

theorem jsGt_alpha_eq_covered_f64 (mask : Mask) (p : Nat × Nat) :
    jsGt (jsDiv (typedGet mask.data (maskIdxOf mask p.1 p.2 + 3)) (some 255))
        (literal (1 / 10))
      = covered mask p := by
  unfold covered
  cases h : mask.data[maskIdxOf mask p.1 p.2 + 3]? with
  | none => rw [typedGet_of_none _ _ h]; rfl
  | some a =>
    rw [typedGet_of_some _ _ _ h]
    simp only [jsDiv_some_f64, literal_eq, jsGt_some]
    exact decide_eq_decide.mpr (alpha_gt_tenth_iff_f64 a)

theorem jsDiv_alpha_eq_weight_f64 (mask : Mask) (p : Nat × Nat) (h : covered mask p = true) :
    jsDiv (typedGet mask.data (maskIdxOf mask p.1 p.2 + 3)) (some 255)
      = some (alphaWeight mask p) := by
  unfold covered at h
  unfold alphaWeight
  cases h2 : mask.data[maskIdxOf mask p.1 p.2 + 3]? with
  | none => rw [h2] at h; simp at h
  | some a => rw [typedGet_of_some _ _ _ h2]; rfl

theorem watermarkStep_eq_f64 (img : List Nat) (mask : Mask) (imgWidth imgHeight : Nat)
    (p : Nat × Nat) (b c : ℚ)
    (hx : 0 ≤ offsetX mask imgWidth) (hy : 0 ≤ offsetY mask imgHeight)
    (hlen : 4 * imgWidth * imgHeight ≤ img.length) (hp : p ∈ maskPixels mask) :
    watermarkStep img mask imgWidth imgHeight p.1 p.2 ⟨some b, some c⟩
      = if covered mask p then
          ⟨some (toDouble (b + toDouble (lumAt img (footprintIndex mask imgWidth imgHeight p)
              * alphaWeight mask p))),
            some (toDouble (c + alphaWeight mask p))⟩
        else ⟨some b, some c⟩ := by
  have hin := inImage_of_offsets mask imgWidth imgHeight p hx hy hp
  have hbuf := footprintIndex_in_buffer mask imgWidth imgHeight p hx hy hp
  have hidx := imgIdxOf_eq_footprintIndex mask imgWidth imgHeight p hx hy
  unfold inImage at hin
  unfold imgIdxOf at hidx
  unfold watermarkStep
  simp only [if_neg hin]
  have hg := jsGt_alpha_eq_covered_f64 mask p
  unfold maskIdxOf at hg
  rw [hg, hidx]
  by_cases hc : covered mask p = true
  · have hw := jsDiv_alpha_eq_weight_f64 mask p hc
    unfold maskIdxOf at hw
    rw [if_pos hc, if_pos hc, hw, pixelLuminance_eq_f64 img _ (by omega)]
    simp only [jsMul_some_f64, jsAdd_some_f64]
  · rw [if_neg hc, if_neg hc]

theorem watermark_foldl_f64 (img : List Nat) (mask : Mask) (imgWidth imgHeight : Nat)
    (hx : 0 ≤ offsetX mask imgWidth) (hy : 0 ≤ offsetY mask imgHeight)
    (hlen : 4 * imgWidth * imgHeight ≤ img.length) (l : List (Nat × Nat))
    (hl : ∀ p ∈ l, p ∈ maskPixels mask) (b c : ℚ) :
    l.foldl (fun acc p => watermarkStep img mask imgWidth imgHeight p.1 p.2 acc)
        ⟨some b, some c⟩
      = ⟨some ((l.filter (covered mask)).foldl
            (fun s p => toDouble (s + toDouble
              (lumAt img (footprintIndex mask imgWidth imgHeight p) * alphaWeight mask p))) b),
          some ((l.filter (covered mask)).foldl
            (fun s p => toDouble (s + alphaWeight mask p)) c)⟩ := by
  induction l generalizing b c with
  | nil => simp
  | cons q qs ih =>
    rw [List.foldl_cons, watermarkStep_eq_f64 img mask imgWidth imgHeight q b c hx hy hlen
      (hl q (List.mem_cons_self _ _))]
    have hqs : ∀ p ∈ qs, p ∈ maskPixels mask := fun p hp => hl p (List.mem_cons_of_mem _ hp)
    by_cases hc : covered mask q = true
    · rw [if_pos hc, ih hqs, List.filter_cons_of_pos hc]
      simp only [List.foldl_cons]
    · rw [if_neg hc, ih hqs, List.filter_cons_of_neg hc]

theorem watermarkRegion_eq_f64 (img : List Nat) (mask : Mask) (imgWidth imgHeight : Nat)
    (hx : 0 ≤ offsetX mask imgWidth) (hy : 0 ≤ offsetY mask imgHeight)
    (hlen : 4 * imgWidth * imgHeight ≤ img.length) :
    watermarkRegion img mask imgWidth imgHeight
      = ⟨some (weightedLumSum img mask imgWidth imgHeight), some (weightSum mask)⟩ := by
  unfold watermarkRegion
  rw [foldl_nested_eq_product
    (fun my mx acc => watermarkStep img mask imgWidth imgHeight my mx acc)]
  have h := watermark_foldl_f64 img mask imgWidth imgHeight hx hy hlen (maskPixels mask)
    (fun p hp => hp) 0 0
  unfold maskPixels at h
  rw [h]
  rfl

theorem surroundingStep_eq_f64 (img : List Nat) (imgWidth imgHeight x y : Nat) (b : ℚ) (n : Nat)
    (hlen : 4 * imgWidth * imgHeight ≤ img.length) (hx : x < imgWidth) (hy : y < imgHeight) :
    surroundingStep img imgWidth (y : Int) (x : Int) ⟨some b, n⟩
      = ⟨some (toDouble (b + lumAt img (pixelIndex imgWidth x y))), n + 1⟩ := by
  unfold surroundingStep
  have hidx : (((y : Int) * (imgWidth : Int) + (x : Int)) * 4).toNat = pixelIndex imgWidth x y := by
    unfold pixelIndex
    have : (((y : Int) * (imgWidth : Int) + (x : Int)) * 4)
        = (((y * imgWidth + x) * 4 : Nat) : Int) := by
      push_cast; ring
    rw [this, Int.toNat_ofNat]
  have hbuf := pixel_in_buffer imgWidth imgHeight x y hx hy
  simp only [hidx]
  rw [pixelLuminance_eq_f64 img _ (by omega)]
  simp only [jsAdd_some_f64]

theorem surrounding_foldl_f64 (img : List Nat) (imgWidth imgHeight : Nat)
    (hlen : 4 * imgWidth * imgHeight ≤ img.length) (l : List (Nat × Nat))
    (hl : ∀ q ∈ l, q.2 < imgWidth ∧ q.1 < imgHeight) (b : ℚ) (n : Nat) :
    l.foldl (fun acc q => surroundingStep img imgWidth (q.1 : Int) (q.2 : Int) acc)
        ⟨some b, n⟩
      = ⟨some (l.foldl (fun s q => toDouble (s + lumAt img (pixelIndex imgWidth q.2 q.1))) b),
          n + l.length⟩ := by
  induction l generalizing b n with
  | nil => simp
  | cons q qs ih =>
    obtain ⟨h1, h2⟩ := hl q (List.mem_cons_self _ _)
    rw [List.foldl_cons, surroundingStep_eq_f64 img imgWidth imgHeight q.2 q.1 b n hlen h1 h2,
      ih (fun p hp => hl p (List.mem_cons_of_mem _ hp))]
    simp only [List.foldl_cons, List.length_cons]
    have e2 : n + 1 + qs.length = n + (qs.length + 1) := by omega
    rw [e2]

theorem surroundingLoop_eq_f64 (img : List Nat) (imgWidth imgHeight : Nat)
    (hlen : 4 * imgWidth * imgHeight ≤ img.length) (rows cols : List Nat)
    (hl : ∀ q ∈ rows ×ˢ cols, q.2 < imgWidth ∧ q.1 < imgHeight) (b : ℚ) (n : Nat) :
    surroundingLoop img imgWidth (rows.map (fun (m : Nat) => (m : Int)))
        (cols.map (fun (m : Nat) => (m : Int))) ⟨some b, n⟩
      = ⟨some ((rows ×ˢ cols).foldl
            (fun s q => toDouble (s + lumAt img (pixelIndex imgWidth q.2 q.1))) b),
          n + (rows ×ˢ cols).length⟩ := by
  unfold surroundingLoop
  rw [List.foldl_map]
  simp only [List.foldl_map]
  rw [foldl_nested_eq_product
    (fun (y x : Nat) acc => surroundingStep img imgWidth (y : Int) (x : Int) acc)]
  exact surrounding_foldl_f64 img imgWidth imgHeight hlen _ hl b n

theorem surroundingRegion_eq_f64 (img : List Nat) (mask : Mask) (imgWidth imgHeight : Nat)
    (hx : 0 ≤ offsetX mask imgWidth) (hy : 0 ≤ offsetY mask imgHeight)
    (hlen : 4 * imgWidth * imgHeight ≤ img.length) :
    surroundingRegion img mask imgWidth imgHeight
      = ⟨some (referenceLumSum img mask imgWidth imgHeight),
          (referencePixels mask imgWidth imgHeight).length⟩ := by
  unfold surroundingRegion
  rw [leftRows_eq mask imgHeight hy, leftCols_eq mask imgWidth hx,
    topRows_eq mask imgHeight hy, topCols_eq mask imgWidth hx]
  rw [surroundingLoop_eq_f64 img imgWidth imgHeight hlen _ _
    (fun q hq => band_in_image mask imgWidth imgHeight hx hy q (Or.inl hq))]
  rw [surroundingLoop_eq_f64 img imgWidth imgHeight hlen _ _
    (fun q hq => band_in_image mask imgWidth imgHeight hx hy q (Or.inr hq))]
  unfold referenceLumSum referencePixels leftBand topBand
  simp only [zero_add, List.foldl_append, List.length_append]

theorem foldl_add_ge_f64 {ι : Type} (l : List ι) (f : ι → ℚ) (hf : ∀ p ∈ l, 1 / 16 ≤ f p)
    (s : ℚ) (hs : 0 ≤ s) (hne : l ≠ [] ∨ 1 / 16 ≤ s) :
    1 / 16 ≤ l.foldl (fun s p => toDouble (s + f p)) s := by
  induction l generalizing s with
  | nil =>
    rcases hne with h | h
    · exact absurd rfl h
    · exact h
  | cons q qs ih =>
    rw [List.foldl_cons]
    have hq := hf q (List.mem_cons_self _ _)
    have h16 : toDouble (1 / 16) = 1 / 16 := by decide!
    have hstep : 1 / 16 ≤ toDouble (s + f q) := by
      rw [← h16]
      exact toDouble_mono _ _ (by linarith)
    exact ih (fun p hp => hf p (List.mem_cons_of_mem _ hp)) _ (by linarith) (Or.inr hstep)

theorem alphaWeight_ge_f64 (mask : Mask) (p : Nat × Nat) (h : covered mask p = true) :
    1 / 16 ≤ alphaWeight mask p := by
  unfold covered at h
  unfold alphaWeight
  cases h2 : mask.data[maskIdxOf mask p.1 p.2 + 3]? with
  | none => rw [h2] at h; simp at h
  | some a =>
    rw [h2] at h
    simp only [decide_eq_true_eq] at h
    have ha : (26 : ℚ) ≤ a := by exact_mod_cast h
    have h1 : toDouble ((26 : ℚ) / 255) ≤ toDouble ((a : ℚ) / 255) :=
      toDouble_mono _ _ (by linarith)
    have h2 : (1 : ℚ) / 16 ≤ toDouble ((26 : ℚ) / 255) := by decide!
    simp only []
    linarith

theorem weightSum_pos_f64 (mask : Mask) (h : coveredPixels mask ≠ []) : 0 < weightSum mask := by
  have := foldl_add_ge_f64 (coveredPixels mask) (alphaWeight mask)
    (by
      intro p hp
      unfold coveredPixels at hp
      exact alphaWeight_ge_f64 mask p (List.mem_filter.mp hp).2)
    0 (le_refl _) (Or.inl h)
  unfold weightSum
  linarith

theorem weightSum_nil_f64 (mask : Mask) (h : coveredPixels mask = []) : weightSum mask = 0 := by
  unfold weightSum; rw [h]; rfl

theorem avgWatermark_eq_f64 (img : List Nat) (mask : Mask) (imgWidth imgHeight : Nat)
    (hx : 0 ≤ offsetX mask imgWidth) (hy : 0 ≤ offsetY mask imgHeight)
    (hlen : 4 * imgWidth * imgHeight ≤ img.length) :
    avgWatermarkBrightness (watermarkRegion img mask imgWidth imgHeight)
      = some (watermarkAverage img mask imgWidth imgHeight) := by
  rw [watermarkRegion_eq_f64 img mask imgWidth imgHeight hx hy hlen]
  unfold avgWatermarkBrightness watermarkAverage
  simp only [jsGt_some, jsDiv_some_f64, decide_eq_true_eq]
  by_cases h : coveredPixels mask = []
  · rw [if_pos h, if_neg (by rw [weightSum_nil_f64 mask h]; exact lt_irrefl _)]
  · rw [if_neg h, if_pos (weightSum_pos_f64 mask h)]

theorem avgSurrounding_eq_f64 (img : List Nat) (mask : Mask) (imgWidth imgHeight : Nat)
    (hx : 0 ≤ offsetX mask imgWidth) (hy : 0 ≤ offsetY mask imgHeight)
    (hlen : 4 * imgWidth * imgHeight ≤ img.length) :
    avgSurroundingBrightness (surroundingRegion img mask imgWidth imgHeight)
      = some (referenceAverage img mask imgWidth imgHeight) := by
  rw [surroundingRegion_eq_f64 img mask imgWidth imgHeight hx hy hlen]
  unfold avgSurroundingBrightness referenceAverage
  simp only [jsDiv_some_f64]
  by_cases h : referencePixels mask imgWidth imgHeight = []
  · rw [if_pos h, if_neg (by rw [h]; simp)]
  · rw [if_neg h, if_pos (List.length_pos.mpr h)]

theorem brightnessDiff_eq_f64 (img : List Nat) (mask : Mask) (imgWidth imgHeight : Nat)
    (hx : 0 ≤ offsetX mask imgWidth) (hy : 0 ≤ offsetY mask imgHeight)
    (hlen : 4 * imgWidth * imgHeight ≤ img.length) :
    brightnessDiff img mask imgWidth imgHeight
      = some (toDouble (watermarkAverage img mask imgWidth imgHeight
          - referenceAverage img mask imgWidth imgHeight)) := by
  unfold brightnessDiff
  rw [avgWatermark_eq_f64 img mask imgWidth imgHeight hx hy hlen,
    avgSurrounding_eq_f64 img mask imgWidth imgHeight hx hy hlen]
  rfl

/-- C6, amended: with non-negative offsets (and an image buffer holding the
`imgWidth × imgHeight` pixels) `detectWatermark` returns true exactly when the
difference it computes in binary64 arithmetic, the watermark-region average
minus the reference average, exceeds 10, the first average being 0 when no mask
pixel was sampled and the second 128 when no reference pixel was sampled, and
each average being the rounded quotient of sums accumulated with rounding; a
computed difference of exactly 10 gives false. -/
theorem detectWatermark_decision (img : List Nat) (mask : Mask) (imgWidth imgHeight : Nat)
    (hx : 0 ≤ offsetX mask imgWidth) (hy : 0 ≤ offsetY mask imgHeight)
    (hlen : 4 * imgWidth * imgHeight ≤ img.length) :
    (detectWatermark img mask imgWidth imgHeight = true ↔
      10 < toDouble
          ((if coveredPixels mask = [] then 0
            else toDouble (weightedLumSum img mask imgWidth imgHeight / weightSum mask))
          - (if referencePixels mask imgWidth imgHeight = [] then 128
            else toDouble (referenceLumSum img mask imgWidth imgHeight
              / ((referencePixels mask imgWidth imgHeight).length : ℚ))))) ∧
    (brightnessDiff img mask imgWidth imgHeight = some 10 →
      detectWatermark img mask imgWidth imgHeight = false) := by
  constructor
  · unfold detectWatermark
    rw [if_neg (by omega), brightnessDiff_eq_f64 img mask imgWidth imgHeight hx hy hlen]
    simp only [jsGt_some, decide_eq_true_eq]
    rfl
  · intro h10
    unfold detectWatermark
    rw [if_neg (by omega), h10]
    simp

theorem detectWatermark_decision_witness :
    (detectWatermark [11, 11, 11, 255, 11, 11, 11, 255,
        11, 11, 11, 255, 21, 21, 21, 255] ⟨[255, 255, 255, 255], 1, 1, 0⟩ 2 2 = true ↔
      10 < toDouble
          ((if coveredPixels ⟨[255, 255, 255, 255], 1, 1, 0⟩ = [] then 0
            else toDouble (weightedLumSum [11, 11, 11, 255, 11, 11, 11, 255,
                11, 11, 11, 255, 21, 21, 21, 255] ⟨[255, 255, 255, 255], 1, 1, 0⟩ 2 2
              / weightSum ⟨[255, 255, 255, 255], 1, 1, 0⟩))
          - (if referencePixels ⟨[255, 255, 255, 255], 1, 1, 0⟩ 2 2 = [] then 128
            else toDouble (referenceLumSum [11, 11, 11, 255, 11, 11, 11, 255,
                11, 11, 11, 255, 21, 21, 21, 255] ⟨[255, 255, 255, 255], 1, 1, 0⟩ 2 2
              / ((referencePixels ⟨[255, 255, 255, 255], 1, 1, 0⟩ 2 2).length : ℚ))))) ∧
    detectWatermark [11, 11, 11, 255, 11, 11, 11, 255,
        11, 11, 11, 255, 21, 21, 21, 255] ⟨[255, 255, 255, 255], 1, 1, 0⟩ 2 2 = true :=
  ⟨(detectWatermark_decision [11, 11, 11, 255, 11, 11, 11, 255,
      11, 11, 11, 255, 21, 21, 21, 255] ⟨[255, 255, 255, 255], 1, 1, 0⟩ 2 2
    (by decide) (by decide) (by decide)).1, by decide!⟩

/-- C8, amended: with non-negative offsets the watermark-region average is
the binary64 quotient of the two sums `Σ α_p · lum(p)` and `Σ α_p`, each
accumulated in loop order with every operation rounded, the sums running over
exactly the mask pixels whose alpha `α_p = maskAlpha/255` exceeds 0.1, which are
those with alpha byte at least 26, and `lum(p)` being the luminance of the image
pixel at `(offsetX + mx, offsetY + my)`; the other mask pixels do not enter the
sums. -/
theorem detectWatermark_watermark_average (img : List Nat) (mask : Mask)
    (imgWidth imgHeight : Nat)
    (hx : 0 ≤ offsetX mask imgWidth) (hy : 0 ≤ offsetY mask imgHeight)
    (hlen : 4 * imgWidth * imgHeight ≤ img.length) :
    (coveredPixels mask ≠ [] →
      avgWatermarkBrightness (watermarkRegion img mask imgWidth imgHeight)
        = some (toDouble
            ((coveredPixels mask).foldl
                (fun s p => toDouble (s + toDouble
                  (lumAt img (footprintIndex mask imgWidth imgHeight p) * alphaWeight mask p))) 0
              / (coveredPixels mask).foldl (fun s p => toDouble (s + alphaWeight mask p)) 0))) ∧
    (∀ p, p ∈ coveredPixels mask ↔
      p ∈ maskPixels mask ∧
        ∃ a : Nat, mask.data[maskIdxOf mask p.1 p.2 + 3]? = some a ∧
          toDouble (1 / 10) < toDouble ((a : ℚ) / 255) ∧
          alphaWeight mask p = toDouble ((a : ℚ) / 255)) ∧
    (∀ a : Nat, toDouble (1 / 10) < toDouble ((a : ℚ) / 255) ↔ 26 ≤ a) ∧
    (∀ p, p ∈ maskPixels mask →
      footprintIndex mask imgWidth imgHeight p
        = imgIdxOf mask imgWidth imgHeight p.1 p.2) := by
  refine ⟨?_, ?_, alpha_gt_tenth_iff_f64, ?_⟩
  · intro hne
    rw [avgWatermark_eq_f64 img mask imgWidth imgHeight hx hy hlen]
    unfold watermarkAverage weightedLumSum weightSum
    rw [if_neg hne]
  · intro p
    unfold coveredPixels
    rw [List.mem_filter]
    unfold covered alphaWeight
    constructor
    · rintro ⟨hp, hc⟩
      refine ⟨hp, ?_⟩
      cases h2 : mask.data[maskIdxOf mask p.1 p.2 + 3]? with
      | none => rw [h2] at hc; simp at hc
      | some a =>
        rw [h2] at hc
        simp only [decide_eq_true_eq] at hc
        exact ⟨a, rfl, (alpha_gt_tenth_iff_f64 a).mpr hc, rfl⟩
    · rintro ⟨hp, a, ha, hgt, _⟩
      refine ⟨hp, ?_⟩
      rw [ha]
      simp only [decide_eq_true_eq]
      exact (alpha_gt_tenth_iff_f64 a).mp hgt
  · intro p _
    exact (imgIdxOf_eq_footprintIndex mask imgWidth imgHeight p hx hy).symm

theorem detectWatermark_watermark_average_witness :
    avgWatermarkBrightness (watermarkRegion [138, 138, 138, 255, 138, 138, 138, 255]
        ⟨[255, 255, 255, 26, 255, 255, 255, 39], 2, 1, 0⟩ 2 1)
      = some (toDouble
          ((coveredPixels ⟨[255, 255, 255, 26, 255, 255, 255, 39], 2, 1, 0⟩).foldl
              (fun s p => toDouble (s + toDouble
                (lumAt [138, 138, 138, 255, 138, 138, 138, 255]
                    (footprintIndex ⟨[255, 255, 255, 26, 255, 255, 255, 39], 2, 1, 0⟩ 2 1 p)
                  * alphaWeight ⟨[255, 255, 255, 26, 255, 255, 255, 39], 2, 1, 0⟩ p))) 0
            / (coveredPixels ⟨[255, 255, 255, 26, 255, 255, 255, 39], 2, 1, 0⟩).foldl
                (fun s p => toDouble
                  (s + alphaWeight ⟨[255, 255, 255, 26, 255, 255, 255, 39], 2, 1, 0⟩ p)) 0)) :=
  (detectWatermark_watermark_average [138, 138, 138, 255, 138, 138, 138, 255]
    ⟨[255, 255, 255, 26, 255, 255, 255, 39], 2, 1, 0⟩ 2 1
    (by decide) (by decide) (by decide)).1 (by decide)

/-- C9, amended: with non-negative offsets and `s = min(maskWidth,
maskHeight)` the reference average is the binary64 quotient of the sum of the
luminances, accumulated in loop order with every addition rounded, by the
number of pixels, over the pixels of the left band `x ∈ [max(0, offsetX − s),
offsetX)`, `y ∈ [offsetY, offsetY + maskHeight)` and then of the top band
`x ∈ [offsetX, offsetX + maskWidth)`, `y ∈ [max(0, offsetY − s), offsetY)`; no
pixel is listed twice and none lies in the mask footprint. -/
theorem detectWatermark_reference_average (img : List Nat) (mask : Mask)
    (imgWidth imgHeight : Nat)
    (hx : 0 ≤ offsetX mask imgWidth) (hy : 0 ≤ offsetY mask imgHeight)
    (hlen : 4 * imgWidth * imgHeight ≤ img.length) :
    (referencePixels mask imgWidth imgHeight ≠ [] →
      avgSurroundingBrightness (surroundingRegion img mask imgWidth imgHeight)
        = some (toDouble
            ((leftBand mask imgWidth imgHeight ++ topBand mask imgWidth imgHeight).foldl
                (fun s q => toDouble (s + lumAt img (pixelIndex imgWidth q.2 q.1))) 0
              / ((leftBand mask imgWidth imgHeight ++ topBand mask imgWidth imgHeight).length
                  : ℚ)))) ∧
    (∀ x y : Nat, (y, x) ∈ leftBand mask imgWidth imgHeight ↔
      (max 0 (offsetX mask imgWidth - sampleSize mask) ≤ (x : Int) ∧
        (x : Int) < offsetX mask imgWidth) ∧
      (offsetY mask imgHeight ≤ (y : Int) ∧
        (y : Int) < offsetY mask imgHeight + mask.height)) ∧
    (∀ x y : Nat, (y, x) ∈ topBand mask imgWidth imgHeight ↔
      (offsetX mask imgWidth ≤ (x : Int) ∧
        (x : Int) < offsetX mask imgWidth + mask.width) ∧
      (max 0 (offsetY mask imgHeight - sampleSize mask) ≤ (y : Int) ∧
        (y : Int) < offsetY mask imgHeight)) ∧
    (leftBand mask imgWidth imgHeight ++ topBand mask imgWidth imgHeight).Nodup ∧
    (∀ q, q ∈ leftBand mask imgWidth imgHeight ++ topBand mask imgWidth imgHeight →
      q ∉ footprint mask imgWidth imgHeight) := by
  refine ⟨?_, ?_, ?_, nodup_referencePixels mask imgWidth imgHeight, ?_⟩
  · intro hne
    rw [avgSurrounding_eq_f64 img mask imgWidth imgHeight hx hy hlen]
    unfold referenceAverage referenceLumSum
    rw [if_neg hne]
    rfl
  · intro x y
    rw [mem_leftBand]
    unfold sampleSize
    simp only []
    omega
  · intro x y
    rw [mem_topBand]
    unfold sampleSize
    simp only []
    omega
  · intro q hq hf
    rw [List.mem_append, mem_leftBand, mem_topBand] at hq
    rw [mem_footprint] at hf
    omega

theorem detectWatermark_reference_average_witness :
    avgSurroundingBrightness (surroundingRegion [100, 100, 100, 255, 20, 20, 20, 255,
        40, 40, 40, 255, 255, 255, 255, 255] ⟨[255, 255, 255, 255], 1, 1, 0⟩ 2 2)
      = some (toDouble
          ((leftBand ⟨[255, 255, 255, 255], 1, 1, 0⟩ 2 2
              ++ topBand ⟨[255, 255, 255, 255], 1, 1, 0⟩ 2 2).foldl
              (fun s q => toDouble (s + lumAt [100, 100, 100, 255, 20, 20, 20, 255,
                40, 40, 40, 255, 255, 255, 255, 255] (pixelIndex 2 q.2 q.1))) 0
            / ((leftBand ⟨[255, 255, 255, 255], 1, 1, 0⟩ 2 2
                ++ topBand ⟨[255, 255, 255, 255], 1, 1, 0⟩ 2 2).length : ℚ))) :=
  (detectWatermark_reference_average [100, 100, 100, 255, 20, 20, 20, 255,
      40, 40, 40, 255, 255, 255, 255, 255] ⟨[255, 255, 255, 255], 1, 1, 0⟩ 2 2
    (by decide) (by decide) (by decide)).1 (by decide)

end IEEE

/-- C6, as stated, fails: in a 2 × 2 image whose footprint pixel is gray 21
and whose two reference pixels are gray 11, under a 1 × 1 opaque mask, the
watermark-region average is 21 and the reference average 11, a difference of
exactly 10, for which the rule as stated gives false; the code computes the
reference luminance as 10.999999999999998, its difference exceeds 10 and it
returns true. -/
theorem detectWatermark_threshold_rounding :
    IEEE.detectWatermark [11, 11, 11, 255, 11, 11, 11, 255, 11, 11, 11, 255, 21, 21, 21, 255]
      ⟨[255, 255, 255, 255], 1, 1, 0⟩ 2 2 = true ∧
    watermarkAverage [11, 11, 11, 255, 11, 11, 11, 255, 11, 11, 11, 255, 21, 21, 21, 255]
        ⟨[255, 255, 255, 255], 1, 1, 0⟩ 2 2
      - referenceAverage [11, 11, 11, 255, 11, 11, 11, 255, 11, 11, 11, 255, 21, 21, 21, 255]
        ⟨[255, 255, 255, 255], 1, 1, 0⟩ 2 2 = 10 := by
  decide!

/-- C8, as stated, fails: on a flat image of gray 138 under mask pixels of
alpha bytes 26 and 39 the quotient `(Σ α_p · lum(p)) / (Σ α_p)` is 138, while
the average the code computes is the binary64 number just above it,
138.00000000000003. -/
theorem detectWatermark_watermark_average_rounding :
    IEEE.avgWatermarkBrightness (IEEE.watermarkRegion [138, 138, 138, 255, 138, 138, 138, 255]
        ⟨[255, 255, 255, 26, 255, 255, 255, 39], 2, 1, 0⟩ 2 1)
      = some (4855443348258817 / 35184372088832) ∧
    watermarkAverage [138, 138, 138, 255, 138, 138, 138, 255]
        ⟨[255, 255, 255, 26, 255, 255, 255, 39], 2, 1, 0⟩ 2 1 = 138 ∧
    (138 : ℚ) < 4855443348258817 / 35184372088832 := by
  decide!

/-- C9, as stated, fails: for two reference pixels of gray 11 the mean
luminance is 11, while the average the code computes is the binary64 number
just below it, 10.999999999999998. -/
theorem detectWatermark_reference_average_rounding :
    IEEE.avgSurroundingBrightness (IEEE.surroundingRegion
        [11, 11, 11, 255, 11, 11, 11, 255, 11, 11, 11, 255, 21, 21, 21, 255]
        ⟨[255, 255, 255, 255], 1, 1, 0⟩ 2 2)
      = some (6192449487634431 / 562949953421312) ∧
    referenceAverage [11, 11, 11, 255, 11, 11, 11, 255, 11, 11, 11, 255, 21, 21, 21, 255]
        ⟨[255, 255, 255, 255], 1, 1, 0⟩ 2 2 = 11 ∧
    (6192449487634431 / 562949953421312 : ℚ) < 11 := by
  decide!

/-! ## `preprocessMask` in binary64 arithmetic -/

namespace IEEE

theorem preprocessStep_frame_f64 (data : List Nat) (i : Nat) (output : List Nat) (j : Nat)
    (hj : ¬ pixelCell i j) : (preprocessStep data i output)[j]? = output[j]? := by
  unfold pixelCell at hj
  unfold preprocessStep
  simp only []
  rw [List.getElem?_set_ne (by omega), List.getElem?_set_ne (by omega),
    List.getElem?_set_ne (by omega), List.getElem?_set_ne (by omega)]

theorem preprocessStep_target_f64 (data : List Nat) (i : Nat) (output : List Nat) (j : Nat)
    (hj : pixelCell i j) :
    (preprocessStep data i output)[j]? = (output[j]?).map (fun _ => preprocessValue data i j) := by
  unfold pixelCell at hj
  unfold preprocessStep preprocessValue maskAlphaOfRGB
  simp only [toUint8Clamped_255]
  rcases hj with rfl | rfl | rfl | rfl
  · rw [List.getElem?_set_ne (by omega), List.getElem?_set_ne (by omega),
      List.getElem?_set_ne (by omega), List.getElem?_set_self', if_neg (by omega)]
    rfl
  · rw [List.getElem?_set_ne (by omega), List.getElem?_set_ne (by omega),
      List.getElem?_set_self', if_neg (by omega), List.getElem?_set_ne (by omega)]
    rfl
  · rw [List.getElem?_set_ne (by omega), List.getElem?_set_self', if_neg (by omega),
      List.getElem?_set_ne (by omega), List.getElem?_set_ne (by omega)]
    rfl
  · rw [List.getElem?_set_self', if_pos rfl, List.getElem?_set_ne (by omega),
      List.getElem?_set_ne (by omega), List.getElem?_set_ne (by omega)]
    rfl

theorem preprocessMask_cell_f64 (im : ImageData) (i j : Nat) (hi : i % 4 = 0)
    (hlt : i < im.data.length) (hj : pixelCell i j) :
    (preprocessMask im).data[j]?
      = if j < 4 * im.width * im.height then some (preprocessValue im.data i j) else none := by
  unfold preprocessMask
  simp only []
  rw [foldl_pointwise (fun i output => preprocessStep im.data i output) pixelCell
    (fun i j _ => preprocessValue im.data i j)
    (fun i img j h => preprocessStep_frame_f64 im.data i img j h)
    (fun i img j h => preprocessStep_target_f64 im.data i img j h)
    (loopIndices4 im.data.length) (nodup_loopIndices4 _)
    (fun a ha b hb hab j h => pixelCell_disjoint a b j
      ((mem_loopIndices4 _ _).mp ha).1 ((mem_loopIndices4 _ _).mp hb).1 hab h)
    i ((mem_loopIndices4 _ _).mpr ⟨hi, hlt⟩) j hj]
  rw [List.getElem?_replicate]
  split_ifs <;> rfl

theorem lumOf_bounds (r g b : Nat) (hr : r ≤ 255) (hg : g ≤ 255) (hb : b ≤ 255) :
    0 ≤ lumOf r g b ∧ lumOf r g b ≤ 255 := by
  have hrq : (r : ℚ) ≤ 255 := by exact_mod_cast hr
  have hgq : (g : ℚ) ≤ 255 := by exact_mod_cast hg
  have hbq : (b : ℚ) ≤ 255 := by exact_mod_cast hb
  have hr0 : (0 : ℚ) ≤ r := by positivity
  have hg0 : (0 : ℚ) ≤ g := by positivity
  have hb0 : (0 : ℚ) ≤ b := by positivity
  have c1 : 0 ≤ toDouble (299 / 1000) := toDouble_nonneg _ (by norm_num)
  have c2 : 0 ≤ toDouble (587 / 1000) := toDouble_nonneg _ (by norm_num)
  have c3 : 0 ≤ toDouble (114 / 1000) := toDouble_nonneg _ (by norm_num)
  have t1 : 0 ≤ toDouble (toDouble (299 / 1000) * r) := toDouble_nonneg _ (mul_nonneg c1 hr0)
  have t2 : 0 ≤ toDouble (toDouble (587 / 1000) * g) := toDouble_nonneg _ (mul_nonneg c2 hg0)
  have t3 : 0 ≤ toDouble (toDouble (114 / 1000) * b) := toDouble_nonneg _ (mul_nonneg c3 hb0)
  have s1 : 0 ≤ toDouble (toDouble (toDouble (299 / 1000) * r)
      + toDouble (toDouble (587 / 1000) * g)) := toDouble_nonneg _ (by linarith)
  have u1 : toDouble (toDouble (299 / 1000) * r) ≤ toDouble (toDouble (299 / 1000) * 255) :=
    toDouble_mono _ _ (mul_le_mul_of_nonneg_left hrq c1)
  have u2 : toDouble (toDouble (587 / 1000) * g) ≤ toDouble (toDouble (587 / 1000) * 255) :=
    toDouble_mono _ _ (mul_le_mul_of_nonneg_left hgq c2)
  have u3 : toDouble (toDouble (114 / 1000) * b) ≤ toDouble (toDouble (114 / 1000) * 255) :=
    toDouble_mono _ _ (mul_le_mul_of_nonneg_left hbq c3)
  have v1 : toDouble (toDouble (toDouble (299 / 1000) * r)
        + toDouble (toDouble (587 / 1000) * g))
      ≤ toDouble (toDouble (toDouble (299 / 1000) * 255)
        + toDouble (toDouble (587 / 1000) * 255)) :=
    toDouble_mono _ _ (by linarith)
  have htop : lumOf 255 255 255 = 255 := by decide!
  unfold lumOf at htop ⊢
  constructor
  · exact toDouble_nonneg _ (by linarith)
  · rw [← htop]
    exact toDouble_mono _ _ (by linarith)

theorem maskAlphaOfRGB_eq_f64 (r g b : Nat) (hr : r ≤ 255) (hg : g ≤ 255) (hb : b ≤ 255) :
    maskAlphaOfRGB (some (r : ℚ)) (some (g : ℚ)) (some (b : ℚ))
      = (⌊lumOf r g b + 1 / 2⌋ : ℤ).toNat
      ∧ (⌊lumOf r g b + 1 / 2⌋ : ℤ) ≤ 255
      ∧ 0 ≤ (⌊lumOf r g b + 1 / 2⌋ : ℤ) := by
  obtain ⟨hlo, hhi⟩ := lumOf_bounds r g b hr hg hb
  have h0 : 0 ≤ (⌊lumOf r g b + 1 / 2⌋ : ℤ) := Int.floor_nonneg.mpr (by linarith)
  have h255 : (⌊lumOf r g b + 1 / 2⌋ : ℤ) ≤ 255 := by
    have : (⌊lumOf r g b + 1 / 2⌋ : ℤ) < 256 := by
      rw [Int.floor_lt]
      push_cast
      linarith
    omega
  refine ⟨?_, h255, h0⟩
  unfold maskAlphaOfRGB luminance
  simp only [literal_eq, jsMul_some_f64, jsAdd_some_f64, mathRound_some]
  exact toUint8Clamped_intCast _ h0 h255

theorem preprocessMask_alpha_cell_f64 (im : ImageData) (k r g b : Nat)
    (hr : im.data[4 * k]? = some r) (hg : im.data[4 * k + 1]? = some g)
    (hb : im.data[4 * k + 2]? = some b)
    (hout : 4 * k + 3 < 4 * im.width * im.height) :
    (preprocessMask im).data[4 * k + 3]?
      = some (maskAlphaOfRGB (some (r : ℚ)) (some (g : ℚ)) (some (b : ℚ))) := by
  have hlt : 4 * k < im.data.length := by
    by_contra hcon
    rw [List.getElem?_eq_none (by omega)] at hr
    exact absurd hr (by simp)
  rw [preprocessMask_cell_f64 im (4 * k) (4 * k + 3) (by omega) hlt
    (Or.inr (Or.inr (Or.inr rfl))), if_pos hout]
  unfold preprocessValue
  rw [if_pos rfl, typedGet_of_some _ _ _ hr, typedGet_of_some _ _ _ hg,
    typedGet_of_some _ _ _ hb]

theorem preprocessMask_colour_cell_f64 (im : ImageData) (k c : Nat) (hc : c < 3)
    (hlt : 4 * k < im.data.length) (hout : 4 * k + 3 < 4 * im.width * im.height) :
    (preprocessMask im).data[4 * k + c]? = some 255 := by
  have hcell : pixelCell (4 * k) (4 * k + c) := by
    unfold pixelCell; omega
  rw [preprocessMask_cell_f64 im (4 * k) (4 * k + c) (by omega) hlt hcell, if_pos (by omega)]
  unfold preprocessValue
  rw [if_neg (by omega)]

theorem preprocessStep_congr_f64 (data data2 : List Nat) (i : Nat) (output : List Nat)
    (hi : i % 4 = 0) (hagree : ∀ j, j % 4 ≠ 3 → data2[j]? = data[j]?) :
    preprocessStep data2 i output = preprocessStep data i output := by
  unfold preprocessStep typedGet
  rw [hagree i (by omega), hagree (i + 1) (by omega), hagree (i + 2) (by omega)]

/-- C14, amended: for a source pixel `k` with channels `(R, G, B)` the output
pixel has `R = G = B = 255` and alpha `round(L)`, `L` being `0.299·R + 0.587·G +
0.114·B` as computed in binary64 arithmetic (three rounded products added with
two rounded sums); two bitmaps that differ only in their alpha channel give the
same output. -/
theorem preprocessMask_pixel (im : ImageData) (k r g b : Nat)
    (hr : im.data[4 * k]? = some r) (hg : im.data[4 * k + 1]? = some g)
    (hb : im.data[4 * k + 2]? = some b)
    (hr255 : r ≤ 255) (hg255 : g ≤ 255) (hb255 : b ≤ 255)
    (hout : 4 * k + 3 < 4 * im.width * im.height) :
    (preprocessMask im).data[4 * k]? = some 255 ∧
    (preprocessMask im).data[4 * k + 1]? = some 255 ∧
    (preprocessMask im).data[4 * k + 2]? = some 255 ∧
    (preprocessMask im).data[4 * k + 3]?
      = some (⌊toDouble (toDouble (toDouble (toDouble (299 / 1000) * (r : ℚ))
            + toDouble (toDouble (587 / 1000) * (g : ℚ)))
          + toDouble (toDouble (114 / 1000) * (b : ℚ))) + 1 / 2⌋ : ℤ).toNat ∧
    (∀ im2 : ImageData, im2.width = im.width → im2.height = im.height →
      im2.data.length = im.data.length →
      (∀ j, j % 4 ≠ 3 → im2.data[j]? = im.data[j]?) →
      preprocessMask im2 = preprocessMask im) := by
  have hlt : 4 * k < im.data.length := by
    by_contra hcon
    rw [List.getElem?_eq_none (by omega)] at hr
    exact absurd hr (by simp)
  refine ⟨?_, ?_, ?_, ?_, ?_⟩
  · exact preprocessMask_colour_cell_f64 im k 0 (by omega) hlt hout
  · exact preprocessMask_colour_cell_f64 im k 1 (by omega) hlt hout
  · exact preprocessMask_colour_cell_f64 im k 2 (by omega) hlt hout
  · rw [preprocessMask_alpha_cell_f64 im k r g b hr hg hb hout,
      (maskAlphaOfRGB_eq_f64 r g b hr255 hg255 hb255).1]
    rfl
  · intro im2 hw hh hlen hagree
    unfold preprocessMask
    rw [hw, hh, hlen]
    congr 1
    apply List.foldl_ext
    intro output i hi
    exact preprocessStep_congr_f64 im.data im2.data i output
      ((mem_loopIndices4 _ _).mp hi).1 hagree

theorem preprocessMask_pixel_witness :
    (preprocessMask ⟨[0, 36, 12, 7, 10, 20, 30, 9], 2, 1⟩).data[4 * 0 + 3]?
      = some (⌊toDouble (toDouble (toDouble (toDouble (299 / 1000) * ((0 : Nat) : ℚ))
            + toDouble (toDouble (587 / 1000) * ((36 : Nat) : ℚ)))
          + toDouble (toDouble (114 / 1000) * ((12 : Nat) : ℚ))) + 1 / 2⌋ : ℤ).toNat ∧
    (preprocessMask ⟨[0, 36, 12, 7, 10, 20, 30, 9], 2, 1⟩).data = [255, 255, 255, 22,
      255, 255, 255, 18] :=
  ⟨(preprocessMask_pixel ⟨[0, 36, 12, 7, 10, 20, 30, 9], 2, 1⟩ 0 0 36 12 (by decide) (by decide)
    (by decide) (by decide) (by decide) (by decide) (by decide)).2.2.2.1, by decide!⟩

end IEEE

/-- C14, as stated, fails: for the source pixel `(0, 36, 12)` the sum
`0.299·0 + 0.587·36 + 0.114·12` is exactly 22.5, which rounds to 23, while the
sum the code computes is 22.499999999999996 and the alpha it stores is 22. -/
theorem preprocessMask_tie_rounds_down :
    (IEEE.preprocessMask ⟨[0, 36, 12, 255], 1, 1⟩).data = [255, 255, 255, 22] ∧
    (⌊299 / 1000 * ((0 : Nat) : ℚ) + 587 / 1000 * ((36 : Nat) : ℚ)
      + 114 / 1000 * ((12 : Nat) : ℚ) + 1 / 2⌋ : ℤ) = 23 := by
  decide!

/-! ## Unblending a white watermark never brightens, in binary64 arithmetic -/

namespace IEEE

theorem unblendFormula_le_f64 (c : Nat) (α : ℚ) (hα1 : toDouble (1 / 100) ≤ α)
    (hα : α ≤ toDouble (99 / 100)) (hc : c ≤ 255) :
    unblendFormula c 255 α ≤ c ∧ (c = 255 → unblendFormula c 255 α = 255) := by
  obtain ⟨κ, hκ⟩ : ∃ κ : ℚ, κ = 255 / 2 ^ 53 + 1 / 2 ^ 1075 := ⟨_, rfl⟩
  have hκ0 : 0 ≤ κ := by rw [hκ]; positivity
  have hκs : κ ≤ 1 / 2 ^ 40 := by rw [hκ]; norm_num
  have hs : (1 : ℚ) / 2 ^ 40 = 1 / 1099511627776 := by norm_num
  rw [hs] at hκs
  have hlo : (1 : ℚ) / 128 ≤ α := le_trans (by decide!) hα1
  have hhi : α ≤ 127 / 128 := le_trans hα (by decide!)
  have hcq : (c : ℚ) ≤ 255 := by exact_mod_cast hc
  have hc0 : (0 : ℚ) ≤ c := by positivity
  obtain ⟨a1, a2⟩ := toDouble_err_small (255 * α) κ (by linarith) (by linarith) hκ
  obtain ⟨d1, d2⟩ := toDouble_err_small (1 - α) κ (by linarith) (by linarith) hκ
  have hD : 0 < toDouble (1 - α) := by linarith
  unfold unblendFormula
  have hw : ((255 : ℕ) : ℚ) = 255 := by norm_num
  rw [hw]
  set A := toDouble (255 * α) with hA
  set D := toDouble (1 - α) with hDdef
  have hA0 : 0 ≤ A := toDouble_nonneg _ (by linarith)
  constructor
  · -- never above the value before
    rcases Nat.lt_or_ge c 255 with hlt | hge
    · have hc254 : (c : ℚ) ≤ 254 := by exact_mod_cast (show c ≤ 254 by omega)
      have hQ : toDouble (toDouble ((c : ℚ) - A) / D) ≤ (c : ℚ) + κ := by
        rcases le_or_lt ((c : ℚ) - A) 0 with hx | hx
        · have hB : toDouble ((c : ℚ) - A) ≤ 0 := by
            have := toDouble_mono _ _ hx
            rwa [toDouble_zero] at this
          have hBD : toDouble ((c : ℚ) - A) / D ≤ 0 :=
            div_nonpos_of_nonpos_of_nonneg hB (le_of_lt hD)
          have := toDouble_mono _ _ hBD
          rw [toDouble_zero] at this
          linarith
        · obtain ⟨_, b2⟩ := toDouble_err_small ((c : ℚ) - A) κ (le_of_lt hx) (by linarith) hκ
          have hprod : 0 ≤ (254 - (c : ℚ)) * α := mul_nonneg (by linarith) (by linarith)
          have hcD : (c : ℚ) * ((1 - α) - κ) ≤ (c : ℚ) * D :=
            mul_le_mul_of_nonneg_left d1 hc0
          have hcκ : (c : ℚ) * κ ≤ 255 * κ := mul_le_mul_of_nonneg_right hcq hκ0
          have hBle : toDouble ((c : ℚ) - A) ≤ (c : ℚ) * D := by nlinarith
          have hBD : toDouble ((c : ℚ) - A) / D ≤ (c : ℚ) := by
            rw [div_le_iff₀ hD]; exact hBle
          have h1 := toDouble_mono _ _ hBD
          obtain ⟨_, c2⟩ := toDouble_err_small (c : ℚ) κ hc0 hcq hκ
          linarith
      have hfl : ⌊toDouble (toDouble ((c : ℚ) - A) / D) + 1 / 2⌋ ≤ (c : ℤ) := by
        have : ⌊toDouble (toDouble ((c : ℚ) - A) / D) + 1 / 2⌋ < (c : ℤ) + 1 := by
          rw [Int.floor_lt]
          push_cast
          linarith
        omega
      omega
    · have : c = 255 := by omega
      subst this
      omega
  · intro h255
    subst h255
    have hx : 0 < (255 : ℚ) - A := by linarith
    obtain ⟨b1, b2⟩ := toDouble_err_small ((255 : ℚ) - A) κ (le_of_lt hx) (by linarith) hκ
    have hup : toDouble ((255 : ℚ) - A) / D ≤ 255 + 1 / 4 := by
      rw [div_le_iff₀ hD]
      nlinarith
    have hdown : (255 : ℚ) - 1 / 4 ≤ toDouble ((255 : ℚ) - A) / D := by
      rw [le_div_iff₀ hD]
      nlinarith
    have e1 : toDouble (255 + 1 / 4) = 255 + 1 / 4 := by decide!
    have e2 : toDouble (255 - 1 / 4) = 255 - 1 / 4 := by decide!
    have q1 := toDouble_mono _ _ hup
    have q2 := toDouble_mono _ _ hdown
    rw [e1] at q1
    rw [e2] at q2
    have hfl : ⌊toDouble (toDouble (((255 : ℕ) : ℚ) - A) / D) + 1 / 2⌋ = (255 : ℤ) := by
      rw [Int.floor_eq_iff]
      push_cast
      constructor <;> linarith
    rw [hfl]
    rfl

theorem unblendValue_le_f64 (mask : Mask) (i : ℚ) (maskIdx k c a : Nat)
    (ha : mask.data[maskIdx + 3]? = some a) (hw : mask.data[maskIdx + k]? = some 255)
    (hc : c ≤ 255) :
    unblendValue mask (some i) maskIdx k c ≤ c ∧
      (c = 255 → unblendValue mask (some i) maskIdx k c = 255) := by
  by_cases hlow : toDouble (toDouble ((a : ℚ) / 255) * i) < toDouble (1 / 100)
  · rw [unblendValue_skip_f64 mask i maskIdx k c a ha hlow]
    exact ⟨le_refl _, fun h => h⟩
  · have hα : toDouble (1 / 100) ≤ blendWeight a i :=
      le_min (not_lt.mp hlow) (by decide!)
    rw [unblendValue_formula_f64 mask i maskIdx k c a 255 ha hw hα]
    exact unblendFormula_le_f64 c _ hα (min_le_right _ _) hc

theorem reverseAlphaBlend_le_of_white_f64 (imgData : List Nat) (mask : Mask)
    (imgWidth imgHeight : Nat) (i : ℚ)
    (hbytes : ∀ v ∈ imgData, v ≤ 255)
    (hwhite : ∀ p ∈ maskPixels mask, ∀ k, k < 3 →
      mask.data[maskIdxOf mask p.1 p.2 + k]? = some 255)
    (halpha : ∀ p ∈ maskPixels mask, ∃ a : Nat,
      mask.data[maskIdxOf mask p.1 p.2 + 3]? = some a)
    (j v : Nat) (hv : imgData[j]? = some v) :
    ∃ v2 : Nat, (reverseAlphaBlend imgData mask imgWidth imgHeight (some i))[j]? = some v2 ∧
      v2 ≤ v ∧ (v = 255 → v2 = 255) := by
  have hv255 : v ≤ 255 := hbytes v (List.getElem?_mem hv)
  by_cases hex : ∃ p ∈ maskPixels mask, blendTarget mask imgWidth imgHeight p j
  · obtain ⟨p, hp, hin, hcell⟩ := hex
    have hpm := (mem_maskPixels mask p).mp hp
    obtain ⟨a, ha⟩ := halpha p hp
    have hk : ∃ k, k < 3 ∧ j = imgIdxOf mask imgWidth imgHeight p.1 p.2 + k := by
      rcases hcell with h | h | h
      · exact ⟨0, by omega, by omega⟩
      · exact ⟨1, by omega, h⟩
      · exact ⟨2, by omega, h⟩
    obtain ⟨k, hk3, rfl⟩ := hk
    have hres := reverseAlphaBlend_at_f64 imgData mask imgWidth imgHeight (some i) p.1 p.2 k
      hpm.1 hpm.2 hk3 hin
    rw [hv, Option.map_some'] at hres
    have hle := unblendValue_le_f64 mask i (maskIdxOf mask p.1 p.2) k v a ha (hwhite p hp k hk3)
      hv255
    exact ⟨_, hres, hle.1, hle.2⟩
  · have hno : ∀ p ∈ maskPixels mask, ¬ blendTarget mask imgWidth imgHeight p j :=
      fun p hp h => hex ⟨p, hp, h⟩
    refine ⟨v, ?_, le_refl _, fun h => h⟩
    rw [reverseAlphaBlend_untouched_f64 imgData mask imgWidth imgHeight (some i) j hno, hv]

theorem maskAsset_cells_f64 (config : MaskConfig) (raw : ImageData)
    (hraw : raw.data.length = 4 * raw.width * raw.height) (p : Nat × Nat)
    (hp : p ∈ maskPixels (maskAsset config raw)) :
    (∀ k, k < 3 → (maskAsset config raw).data[maskIdxOf (maskAsset config raw) p.1 p.2 + k]?
      = some 255) ∧
    (∃ a : Nat, (maskAsset config raw).data[maskIdxOf (maskAsset config raw) p.1 p.2 + 3]?
      = some a) := by
  have hpm := (mem_maskPixels _ p).mp hp
  have hlt := maskIdxOf_lt (maskAsset config raw) p.1 p.2 hpm.1 hpm.2
  have hw : (maskAsset config raw).width = raw.width := rfl
  have hh : (maskAsset config raw).height = raw.height := rfl
  have hd : (maskAsset config raw).data = (preprocessMask raw).data := rfl
  rw [hw, hh] at hlt
  have hmod : maskIdxOf (maskAsset config raw) p.1 p.2 % 4 = 0 := by
    unfold maskIdxOf; omega
  constructor
  · intro k hk
    rw [hd, preprocessMask_cell_f64 raw (maskIdxOf (maskAsset config raw) p.1 p.2) _ hmod
      (by omega) (by unfold pixelCell; omega), if_pos (by omega)]
    unfold preprocessValue
    rw [if_neg (by omega)]
  · rw [hd, preprocessMask_cell_f64 raw (maskIdxOf (maskAsset config raw) p.1 p.2) _ hmod
      (by omega) (by unfold pixelCell; omega), if_pos (by omega)]
    exact ⟨_, rfl⟩

/-- C27: for an image of bytes, a mask produced by `preprocessMask` (colour
channels 255) and every finite intensity, every cell of the buffer holds after
`reverseAlphaBlend` a value at most its value before, and a cell holding 255
still holds 255; this in binary64 arithmetic, as the engine computes. -/
theorem reverseAlphaBlend_never_brightens (imgData : List Nat) (raw : ImageData)
    (config : MaskConfig) (imgWidth imgHeight : Nat) (i : ℚ)
    (hraw : raw.data.length = 4 * raw.width * raw.height)
    (hbytes : ∀ v ∈ imgData, v ≤ 255) (j v : Nat) (hv : imgData[j]? = some v) :
    ∃ v2 : Nat,
      (reverseAlphaBlend imgData (maskAsset config raw) imgWidth imgHeight (some i))[j]?
        = some v2 ∧
      v2 ≤ v ∧ (v = 255 → v2 = 255) :=
  reverseAlphaBlend_le_of_white_f64 imgData (maskAsset config raw) imgWidth imgHeight i hbytes
    (fun p hp => (maskAsset_cells_f64 config raw hraw p hp).1)
    (fun p hp => (maskAsset_cells_f64 config raw hraw p hp).2) j v hv

theorem reverseAlphaBlend_never_brightens_witness :
    (∃ v2 : Nat,
      (reverseAlphaBlend [200, 254, 255, 255]
          (maskAsset ⟨48, "/assets/mask_48.png", 0⟩ ⟨[255, 255, 255, 7], 1, 1⟩) 1 1
          (some 1))[2]? = some v2 ∧
      v2 ≤ 255 ∧ (255 = 255 → v2 = 255)) ∧
    reverseAlphaBlend [200, 254, 255, 255]
        (maskAsset ⟨48, "/assets/mask_48.png", 0⟩ ⟨[255, 255, 255, 7], 1, 1⟩) 1 1 (some 1)
      = [0, 155, 255, 255] :=
  ⟨reverseAlphaBlend_never_brightens [200, 254, 255, 255] ⟨[255, 255, 255, 7], 1, 1⟩
    ⟨48, "/assets/mask_48.png", 0⟩ 1 1 1 (by decide) (by decide) 2 255 (by decide),
    by decide!⟩

end IEEE

end BananaWatermark
